import Mathlib

/-!
# go.jsonvalue: a shallow embedding of the parser, the value model and the string codec

Go byte slices and strings are lists of byte values (`List Nat`, every element below 256),
runes are natural numbers, `(value, error)` results are `Except Error value`.
The library calls the package makes (`strconv`, `unicode/utf8`, `fmt`, `encoding/json`,
`github.com/buger/jsonparser`) are transcribed next to the functions that use them.
-/

namespace jsonvalue

/-- Go `[]byte` / `string`: a sequence of byte values. -/
abbrev Bytes := List Nat

/-- The bytes of an ASCII text; used to write literals of the source such as `"true"`. -/
def ascii (s : String) : Bytes := s.toList.map Char.toNat

/-- The constants of `jsonparser.ValueType`, in declaration order. -/
inductive ValueType where
  | NotExist
  | String
  | Number
  | Object
  | Array
  | Boolean
  | Null
  | Unknown
  deriving DecidableEq, Repr

/-- The errors the package can hand back. `strconvSyntax` and `strconvRange` are
`strconv.ErrSyntax` and `strconv.ErrRange`; `jsonUnmarshal` is any non-nil error of
`json.Unmarshal`; `invalidString` is `fmt.Errorf("invalid string")`; `invalidValueType t` is
`fmt.Errorf("invalid value type: %v", t)`; the `Malformed*`/`UnknownValueType`/`KeyPathNotFound`
values are the errors of `jsonparser`. `panicIndex` stands for a run-time panic (index out of
range) and `depthExhausted` for recursion deeper than the bound of the embedding; neither is an
error value of the Go program. -/
inductive Error where
  | ErrNilParameter
  | ErrRawBytesUnrecignized
  | ErrNotValidBoolValue
  | ErrNotValidNulllValue
  | invalidString
  | invalidValueType (t : ValueType)
  | strconvSyntax
  | strconvRange
  | jsonUnmarshal
  | MalformedJsonError
  | MalformedStringError
  | MalformedArrayError
  | MalformedObjectError
  | MalformedValueError
  | MalformedStringEscapeError
  | UnknownValueTypeError
  | KeyPathNotFoundError
  | panicIndex
  | depthExhausted
  deriving DecidableEq, Repr

/-! ## unicode/utf8 -/

/-- The constant `utf8.RuneError` (U+FFFD). -/
def RuneError : Nat := 0xFFFD

/-- Continuation byte test: `locb <= b && b <= hicb`. -/
def isCont (b : Nat) : Bool := 0x80 ≤ b && b ≤ 0xBF

/-- The two-byte case of `utf8.DecodeRune`: lead byte `p0` in C2..DF, `rest` the bytes after
it. -/
def decodeRune2 (p0 : Nat) : Bytes → Nat × Nat
  | b1 :: _ => if isCont b1 then ((p0 % 0x20) * 0x40 + b1 % 0x40, 2) else (RuneError, 1)
  | _ => (RuneError, 1)

/-- The three-byte case of `utf8.DecodeRune`: lead byte `p0` in E0..EF; the second byte is
held to A0..BF after E0 and to 80..9F after ED (no overlong forms, no surrogates). -/
def decodeRune3 (p0 : Nat) : Bytes → Nat × Nat
  | b1 :: b2 :: _ =>
    if (if p0 = 0xE0 then 0xA0 else 0x80) ≤ b1 ∧ b1 ≤ (if p0 = 0xED then 0x9F else 0xBF) then
      if isCont b2 then ((p0 % 0x10) * 0x1000 + (b1 % 0x40) * 0x40 + b2 % 0x40, 3)
      else (RuneError, 1)
    else (RuneError, 1)
  | _ => (RuneError, 1)

/-- The four-byte case of `utf8.DecodeRune`: lead byte `p0` in F0..F4; the second byte is
held to 90..BF after F0 and to 80..8F after F4 (no overlong forms, nothing above U+10FFFF). -/
def decodeRune4 (p0 : Nat) : Bytes → Nat × Nat
  | b1 :: b2 :: b3 :: _ =>
    if (if p0 = 0xF0 then 0x90 else 0x80) ≤ b1 ∧ b1 ≤ (if p0 = 0xF4 then 0x8F else 0xBF) then
      if isCont b2 then
        if isCont b3 then
          ((p0 % 0x08) * 0x40000 + (b1 % 0x40) * 0x1000 + (b2 % 0x40) * 0x40 + b3 % 0x40, 4)
        else (RuneError, 1)
      else (RuneError, 1)
    else (RuneError, 1)
  | _ => (RuneError, 1)

/-- The function `utf8.DecodeRune`: the first rune of `p` and its width in bytes; an invalid or
truncated encoding gives `(RuneError, 1)`, the empty input `(RuneError, 0)`. The lead-byte
table `first` and `acceptRanges` are written out as the byte ranges they hold. -/
def DecodeRune (p : Bytes) : Nat × Nat :=
  match p with
  | [] => (RuneError, 0)
  | p0 :: rest =>
    if p0 < 0x80 then (p0, 1)
    else if p0 < 0xC2 then (RuneError, 1)
    else if p0 < 0xE0 then decodeRune2 p0 rest
    else if p0 < 0xF0 then decodeRune3 p0 rest
    else if p0 < 0xF5 then decodeRune4 p0 rest
    else (RuneError, 1)

/-- The function `utf8.EncodeRune` (what `bytes.Buffer.WriteRune` appends) for a non-negative
rune: surrogates and values above U+10FFFF are written as U+FFFD. -/
def EncodeRune (r : Nat) : Bytes :=
  if r ≤ 0x7F then [r]
  else if r ≤ 0x7FF then [0xC0 + r / 0x40, 0x80 + r % 0x40]
  else
    let r := if r > 0x10FFFF || (0xD800 ≤ r && r ≤ 0xDFFF) then RuneError else r
    if r ≤ 0xFFFF then [0xE0 + r / 0x1000, 0x80 + r / 0x40 % 0x40, 0x80 + r % 0x40]
    else [0xF0 + r / 0x40000, 0x80 + r / 0x1000 % 0x40, 0x80 + r / 0x40 % 0x40, 0x80 + r % 0x40]

/-- The runes a Go `for _, chr := range s` loop visits; `fuel` bounds the number of
iterations (every iteration consumes at least one byte). -/
def rangeRunes : Nat → Bytes → List Nat
  | 0, _ => []
  | _, [] => []
  | fuel + 1, c :: cs =>
    let d := DecodeRune (c :: cs)
    d.1 :: rangeRunes fuel ((c :: cs).drop d.2)

/-- The runes of a Go string, in `range` order. -/
def runes (s : Bytes) : List Nat := rangeRunes s.length s

/-! ## fmt -/

/-- One uppercase hexadecimal digit as its ASCII byte. -/
def hexDigitUpper (d : Nat) : Nat := if d < 10 then 0x30 + d else 0x41 + (d - 10)

/-- The uppercase hexadecimal digits of `x`, most significant first, in front of `acc`. -/
def hexUpperAux : Nat → Nat → Bytes → Bytes
  | 0, _, acc => acc
  | fuel + 1, x, acc =>
    if x < 16 then hexDigitUpper x :: acc
    else hexUpperAux fuel (x / 16) (hexDigitUpper (x % 16) :: acc)

/-- The verb `%04X` of `fmt.Sprintf` on a non-negative integer: uppercase hexadecimal, padded
with zeros on the left to at least four digits. -/
def format04X (x : Nat) : Bytes :=
  let ds := hexUpperAux (x + 1) x []
  List.replicate (4 - ds.length) 0x30 ++ ds

/-- The call `fmt.Sprintf("\\u%04X", x)`. -/
def sprintfU04X (x : Nat) : Bytes := [0x5C, 0x75] ++ format04X x

/-! ## strconv -/

/-- The largest `uint64`. -/
def maxUint64 : Nat := 2 ^ 64 - 1

/-- The digit loop of `strconv.ParseUint(s, 10, 64)`: `n` is the value read so far. A byte that
is no decimal digit is a syntax error; a value that leaves 64 bits is a range error, reported
with the value `maxUint64`. -/
def parseUintLoop : Bytes → Nat → Nat × Option Error
  | [], n => (n, none)
  | c :: cs, n =>
    if 0x30 ≤ c && c ≤ 0x39 then
      if n ≥ maxUint64 / 10 + 1 then (maxUint64, some .strconvRange)
      else
        let n1 := n * 10 + (c - 0x30)
        if n1 > maxUint64 then (maxUint64, some .strconvRange)
        else parseUintLoop cs n1
    else (0, some .strconvSyntax)

/-- The function `strconv.ParseUint(s, 10, 64)`. -/
def ParseUint (s : Bytes) : Nat × Option Error :=
  if s = [] then (0, some .strconvSyntax) else parseUintLoop s 0

/-- The function `strconv.ParseInt(s, 10, 64)`: an optional sign, then `ParseUint`; the
magnitude has to fit the sign (`2^63 - 1` at most, `2^63` after a minus). -/
def ParseInt (s : Bytes) : Int × Option Error :=
  match s with
  | [] => (0, some .strconvSyntax)
  | c :: cs =>
    let neg := c == 0x2D
    let s1 := if c = 0x2B ∨ c = 0x2D then cs else c :: cs
    let r := ParseUint s1
    match r.2 with
    | some .strconvRange =>
      if neg then (-(2 : Int) ^ 63, some .strconvRange) else ((2 : Int) ^ 63 - 1, some .strconvRange)
    | some e => (0, some e)
    | none =>
      if !neg && r.1 ≥ 2 ^ 63 then ((2 : Int) ^ 63 - 1, some .strconvRange)
      else if neg && r.1 > 2 ^ 63 then (-(2 : Int) ^ 63, some .strconvRange)
      else (if neg then -(r.1 : Int) else (r.1 : Int), none)

/-- The conversion `int64(u)` of a `uint64`: the value modulo `2^64`, read as two's complement. -/
def int64OfUint64 (u : Nat) : Int := if u % 2 ^ 64 < 2 ^ 63 then (u % 2 ^ 64 : Nat) else (u % 2 ^ 64 : Nat) - 2 ^ 64

/-- The conversion `uint64(i)` of an `int64`: the value modulo `2^64`. -/
def uint64OfInt64 (i : Int) : Nat := (i % 2 ^ 64).toNat

/-- What the program needs of `float64`: the zero value, `strconv.ParseFloat(s, 64)`, the test `f < 0`, and the conversions `int64(f)`, `uint64(f)`,
`float64(i)` for an `int64`, `float64(u)` for a `uint64` and `float32(f)` (a `float32` is kept
as the `float64` of the same value). Floating-point arithmetic is not
interpreted: every definition and theorem below holds for any choice of these operations. -/
structure Float64Ops (F : Type) where
  zero : F
  ParseFloat : Bytes → Except Error F
  ltZero : F → Bool
  toInt64 : F → Int
  toUint64 : F → Nat
  ofInt64 : Int → F
  ofUint64 : Nat → F
  toFloat32 : F → F

/-! ## encoding/json: decoding a string literal -/

/-- The value of one hexadecimal digit, as `getu4` reads it. -/
def hexVal (c : Nat) : Option Nat :=
  if 0x30 ≤ c ∧ c ≤ 0x39 then some (c - 0x30)
  else if 0x61 ≤ c ∧ c ≤ 0x66 then some (c - 0x61 + 10)
  else if 0x41 ≤ c ∧ c ≤ 0x46 then some (c - 0x41 + 10)
  else none

/-- The helper `getu4` of encoding/json: the number written by a leading `\uXXXX`, `none`
(Go: `-1`) when the input is shorter than six bytes, does not start with backslash and `u`, or
holds a byte that is no hexadecimal digit in the next four places. -/
def getu4 (s : Bytes) : Option Nat :=
  match s with
  | s0 :: s1 :: a :: b :: c :: d :: _ =>
    if s0 = 0x5C ∧ s1 = 0x75 then
      match hexVal a with
      | none => none
      | some a =>
        match hexVal b with
        | none => none
        | some b =>
          match hexVal c with
          | none => none
          | some c =>
            match hexVal d with
            | none => none
            | some d => some (((a * 16 + b) * 16 + c) * 16 + d)
    else none
  | _ => none

/-- The function `utf16.DecodeRune` applied to `r1` and the result of a second `getu4`: the
code point of a high/low surrogate pair, U+FFFD for anything else. -/
def utf16DecodeRune (r1 : Nat) (r2 : Option Nat) : Nat :=
  match r2 with
  | some r2 =>
    if 0xD800 ≤ r1 ∧ r1 < 0xDC00 ∧ 0xDC00 ≤ r2 ∧ r2 < 0xE000 then
      (r1 - 0xD800) * 0x400 + (r2 - 0xDC00) + 0x10000
    else 0xFFFD
  | none => 0xFFFD

/-- What one iteration over the body of a JSON string literal finds: the closing quote (and
the input after it), some decoded bytes (and the input left), or an input no string literal
continues with. -/
inductive UnquoteStep where
  | closed (tail : Bytes)
  | decoded (bs : Bytes) (rest : Bytes)
  | invalid

/-- One iteration over the body of a JSON string literal: the scanner's string states and the
matching case of `unquote`. A quote closes the literal; a backslash starts a two-byte escape or
a `\uXXXX` escape (a high surrogate followed by the escape of a low surrogate is one code
point, any other surrogate is U+FFFD); a byte below 0x20 is invalid; other bytes are copied,
those of a malformed UTF-8 sequence as U+FFFD. -/
def unquoteStep : Bytes → UnquoteStep
  | [] => .invalid
  | c :: cs =>
    if c = 0x22 then .closed cs
    else if c = 0x5C then
      match cs with
      | [] => .invalid
      | e :: es =>
        if e = 0x22 ∨ e = 0x5C ∨ e = 0x2F then .decoded [e] es
        else if e = 0x62 then .decoded [0x08] es
        else if e = 0x66 then .decoded [0x0C] es
        else if e = 0x6E then .decoded [0x0A] es
        else if e = 0x72 then .decoded [0x0D] es
        else if e = 0x74 then .decoded [0x09] es
        else if e = 0x75 then
          match getu4 (c :: e :: es) with
          | none => .invalid
          | some rr =>
            let rest := es.drop 4
            if 0xD800 ≤ rr ∧ rr < 0xE000 then
              let dec := utf16DecodeRune rr (getu4 rest)
              if dec ≠ 0xFFFD then .decoded (EncodeRune dec) (rest.drop 6)
              else .decoded (EncodeRune 0xFFFD) rest
            else .decoded (EncodeRune rr) rest
        else .invalid
    else if c < 0x20 then .invalid
    else if c < 0x80 then .decoded [c] cs
    else .decoded (EncodeRune (DecodeRune (c :: cs)).1) ((c :: cs).drop (DecodeRune (c :: cs)).2)

/-- The body of a JSON string literal, read after its opening quote: the decoded text and what
follows the closing quote, `none` when the literal is malformed or not closed. `out` is the text
decoded so far, `fuel` bounds the iterations (each consumes at least one byte). -/
def unquoteLoop : Nat → Bytes → Bytes → Option (Bytes × Bytes)
  | 0, _, _ => none
  | fuel + 1, s, out =>
    match unquoteStep s with
    | .closed tail => some (out, tail)
    | .decoded bs rest => unquoteLoop fuel rest (out ++ bs)
    | .invalid => none

/-- JSON white space: space, tab, carriage return, line feed. -/
def isSpace (c : Nat) : Bool := c == 0x20 || c == 0x09 || c == 0x0D || c == 0x0A

/-- The call `json.Unmarshal(b, &ret)` for `var ret string`: white space around one value is
skipped; a string literal is decoded; the literal `null` leaves `ret` as it was (empty); any
other input, valid JSON or not, makes `json.Unmarshal` return an error. -/
def jsonUnmarshalString (b : Bytes) : Except Error Bytes :=
  match b.dropWhile isSpace with
  | [] => .error .jsonUnmarshal
  | c :: cs =>
    if c = 0x22 then
      match unquoteLoop (cs.length + 1) cs [] with
      | some (s, tail) => if tail.all isSpace then .ok s else .error .jsonUnmarshal
      | none => .error .jsonUnmarshal
    else if ((c :: cs).reverse.dropWhile isSpace).reverse = ascii "null" then .ok []
    else .error .jsonUnmarshal

/-! ## conv.go -/

/-- Go: `parseUint`. -/
def parseUint (b : Bytes) : Nat × Option Error := ParseUint b

/-- Go: `parseInt`. -/
def parseInt (b : Bytes) : Int × Option Error := ParseInt b

/-- Go: `parseFloat`. -/
def parseFloat {F : Type} (fl : Float64Ops F) (b : Bytes) : Except Error F := fl.ParseFloat b

/-- Go: `parseString`. -/
def parseString (b : Bytes) : Except Error Bytes :=
  if b.length < 2 then .error .invalidString
  else jsonUnmarshalString b

/-- Go: `parseStringNoQuote`. -/
def parseStringNoQuote (b : Bytes) : Except Error Bytes :=
  parseString (([] ++ EncodeRune 0x22 ++ b) ++ EncodeRune 0x22)

/-- Go: `formatBool`. -/
def formatBool (b : Bool) : Bytes := if b then ascii "true" else ascii "false"

/-- Go: `escapeUnicodeToBuff`; the buffer is passed in and the extended buffer returned. -/
def escapeUnicodeToBuff (buf : Bytes) (r : Nat) : Bytes :=
  if r ≤ 0x127 then buf ++ EncodeRune r
  else if r ≤ 0xFFFF then buf ++ sprintfU04X r
  else
    let r := r - 0x10000
    let lo := r &&& 0x003FF
    let hi := (r &&& 0xFFC00) >>> 10
    (buf ++ sprintfU04X (hi + 0xD800)) ++ sprintfU04X (lo + 0xDC00)

/-- The body of the loop of `escapeStringToBuff`: the `switch` on one rune. -/
def escapeRuneToBuff (buf : Bytes) (chr : Nat) : Bytes :=
  if chr = 0x22 then buf ++ [0x5C, 0x22]
  else if chr = 0x2F then buf ++ [0x5C, 0x2F]
  else if chr = 0x5C then buf ++ [0x5C, 0x5C]
  else if chr = 0x08 then buf ++ [0x5C, 0x62]
  else if chr = 0x0C then buf ++ [0x5C, 0x66]
  else if chr = 0x09 then buf ++ [0x5C, 0x74]
  else if chr = 0x0A then buf ++ [0x5C, 0x6E]
  else if chr = 0x0D then buf ++ [0x5C, 0x72]
  else if chr = 0x3C then buf ++ [0x5C, 0x75, 0x30, 0x30, 0x33, 0x43]
  else if chr = 0x3E then buf ++ [0x5C, 0x75, 0x30, 0x30, 0x33, 0x45]
  else if chr = 0x26 then buf ++ [0x5C, 0x75, 0x30, 0x30, 0x32, 0x36]
  else if chr = 0x25 then buf ++ [0x5C, 0x75, 0x30, 0x30, 0x32, 0x35]
  else escapeUnicodeToBuff buf chr

/-- Go: `escapeStringToBuff`; the loop over the runes of `s`, threading the buffer. -/
def escapeStringToBuff (s : Bytes) (buf : Bytes) : Bytes :=
  (runes s).foldl escapeRuneToBuff buf

/-! ## jsonvalue.go: the value model -/

/-- Go: `type V struct`. The map `objectChildren` is kept as an association list without
repeated keys (see `mapSet`); the `container/list` of `arrayChildren` is a list. -/
structure V (F : Type) where
  valueType : ValueType
  rawNumBytes : Bytes
  negative : Bool
  floated : Bool
  stringValue : Bytes
  int64Value : Int
  uint64Value : Nat
  boolValue : Bool
  floatValue : F
  objectChildren : List (Bytes × V F)
  arrayChildren : List (V F)

/-- The map assignment `m[key] = child`: the value of an existing key is replaced in place, a
new key is added at the end. -/
def mapSet {α : Type} (m : List (Bytes × α)) (key : Bytes) (child : α) : List (Bytes × α) :=
  match m with
  | [] => [(key, child)]
  | (k, c) :: rest => if k = key then (key, child) :: rest else (k, c) :: mapSet rest key child

/-- The map lookup `m[key]`. -/
def mapGet {α : Type} (m : List (Bytes × α)) (key : Bytes) : Option α :=
  match m with
  | [] => none
  | (k, c) :: rest => if k = key then some c else mapGet rest key

/-- Go: `new`. -/
def new {F : Type} (fl : Float64Ops F) : V F :=
  { valueType := .NotExist, rawNumBytes := [], negative := false, floated := false,
    stringValue := [], int64Value := 0, uint64Value := 0, boolValue := false,
    floatValue := fl.zero, objectChildren := [], arrayChildren := [] }

/-- What `jsonparser.ArrayEach` and `jsonparser.ObjectEach` do with their callback, as a trace.
`ArrayEach data` lists the `(value, dataType)` pairs the callback is invoked with, in order
(the callback of `newFromArray` reads neither the offset nor the error argument, and the
`(offset, err)` that `ArrayEach` returns is dropped by `newFromArray`). `ObjectEach data` lists
the `(key, value, dataType)` triples the callback is invoked with as long as it returns nil,
and the error `ObjectEach` returns after the last of them (`none` for nil); when the callback
returns an error, `ObjectEach` stops there and returns that error. -/
structure Tokenizer where
  ArrayEach : Bytes → List (Bytes × ValueType)
  ObjectEach : Bytes → List (Bytes × Bytes × ValueType) × Option Error

/-- Go: `newFromNumber`. -/
def newFromNumber {F : Type} (fl : Float64Ops F) (b : Bytes) : Except Error (V F) :=
  let v := { new fl with valueType := .Number }
  if 0x2E ∈ b then
    let v := { v with floated := true }
    match parseFloat fl b with
    | .error e => .error e
    | .ok f =>
      let v := { v with floatValue := f }
      let v := { v with negative := fl.ltZero v.floatValue }
      let v := { v with int64Value := fl.toInt64 v.floatValue }
      let v := { v with uint64Value := fl.toUint64 v.floatValue }
      .ok { v with rawNumBytes := b }
  else
    match b with
    | [] => .error .panicIndex
    | b0 :: _ =>
      if 0x2D = b0 then
        let v := { v with negative := true }
        match parseInt b with
        | (_, some e) => .error e
        | (i, none) =>
          let v := { v with int64Value := i }
          let v := { v with uint64Value := uint64OfInt64 v.int64Value }
          let v := { v with floatValue := fl.ofInt64 v.int64Value }
          .ok { v with rawNumBytes := b }
      else
        let v := { v with negative := false }
        match parseUint b with
        | (_, some e) => .error e
        | (u, none) =>
          let v := { v with uint64Value := u }
          let v := { v with int64Value := int64OfUint64 v.uint64Value }
          let v := { v with floatValue := fl.ofUint64 v.uint64Value }
          .ok { v with rawNumBytes := b }

/-- Go: `newFromString`. -/
def newFromString {F : Type} (fl : Float64Ops F) (b : Bytes) : Except Error (V F) :=
  let v := { new fl with valueType := .String }
  match parseString b with
  | .error e => .error e
  | .ok s => .ok { v with stringValue := s }

/-- Go: `newFromTrue`. -/
def newFromTrue {F : Type} (fl : Float64Ops F) (b : Bytes) : Except Error (V F) :=
  if b ≠ ascii "true" then .error .ErrNotValidBoolValue
  else .ok { new fl with valueType := .Boolean, boolValue := true }

/-- Go: `newFromFalse`. -/
def newFromFalse {F : Type} (fl : Float64Ops F) (b : Bytes) : Except Error (V F) :=
  if b ≠ ascii "false" then .error .ErrNotValidBoolValue
  else .ok { new fl with valueType := .Boolean, boolValue := false }

/-- Go: `newFromBool`. -/
def newFromBool {F : Type} (fl : Float64Ops F) (b : Bytes) : Except Error (V F) :=
  let v := { new fl with valueType := .Boolean }
  if b = ascii "true" then .ok { v with boolValue := true }
  else if b = ascii "false" then .ok { v with boolValue := false }
  else .error .ErrNotValidBoolValue

/-- Go: `newFromNull`. -/
def newFromNull {F : Type} (fl : Float64Ops F) (b : Bytes) : Except Error (V F) :=
  if b ≠ ascii "null" then .error .ErrNotValidNulllValue
  else .ok { new fl with valueType := .Null }

/-- The state the callback of `newFromArray` works on: the node `o` under construction and the
captured variable `err` of the enclosing function (`none` for nil). -/
structure ArrayState (F : Type) where
  o : V F
  err : Option Error

/-- One invocation of the callback `newFromArray` hands to `jsonparser.ArrayEach`. `fromObject`
and `fromArray` are the recursive calls `newFromObject` and `newFromArray`. In the `String` case
the source declares a new `err` with `:=`, so a failing `parseStringNoQuote` returns from the
callback with the captured `err` still nil. -/
def arrayCallback {F : Type} (fl : Float64Ops F) (fromObject fromArray : Bytes → Except Error (V F))
    (st : ArrayState F) (v : Bytes) (t : ValueType) : ArrayState F :=
  if st.err ≠ none then st
  else
    let push (r : Except Error (V F)) : ArrayState F :=
      match r with
      | .error e => { st with err := some e }
      | .ok child => { st with o := { st.o with arrayChildren := st.o.arrayChildren ++ [child] } }
    match t with
    | .Object => push (fromObject v)
    | .Array => push (fromArray v)
    | .Number => push (newFromNumber fl v)
    | .Boolean => push (newFromBool fl v)
    | .Null => push (newFromNull fl v)
    | .String =>
      match parseStringNoQuote v with
      | .error _ => st
      | .ok s => push (.ok { new fl with valueType := .String, stringValue := s })
    | t => { st with err := some (.invalidValueType t) }

/-- One invocation of the callback `newFromObject` hands to `jsonparser.ObjectEach`: the node
with the member stored, or the error the callback returns. -/
def objectCallback {F : Type} (fl : Float64Ops F) (fromObject fromArray : Bytes → Except Error (V F))
    (o : V F) (k v : Bytes) (t : ValueType) : Except Error (V F) :=
  match parseStringNoQuote k with
  | .error e => .error e
  | .ok key =>
    let store (r : Except Error (V F)) : Except Error (V F) :=
      match r with
      | .error e => .error e
      | .ok child => .ok { o with objectChildren := mapSet o.objectChildren key child }
    match t with
    | .Object => store (fromObject v)
    | .Array => store (fromArray v)
    | .Number => store (newFromNumber fl v)
    | .Boolean => store (newFromBool fl v)
    | .Null => store (newFromNull fl v)
    | .String =>
      match parseStringNoQuote v with
      | .error e => .error e
      | .ok s => store (.ok { new fl with valueType := .String, stringValue := s })
    | t => .error (.invalidValueType t)

/-- The loop of `jsonparser.ObjectEach` over the members of its trace: the callback is applied
member by member and its first error is returned at once. -/
def objectEachLoop {F : Type} (cb : V F → Bytes → Bytes → ValueType → Except Error (V F)) :
    List (Bytes × Bytes × ValueType) → V F → Except Error (V F)
  | [], o => .ok o
  | (k, v, t) :: rest, o =>
    match cb o k v t with
    | .error e => .error e
    | .ok o1 => objectEachLoop cb rest o1

mutual
/-- Go: `newFromArray`. `depth` bounds the nesting the recursion may follow; at depth zero a
nested container gives `depthExhausted`. -/
def newFromArray {F : Type} (fl : Float64Ops F) (jp : Tokenizer) : Nat → Bytes → Except Error (V F)
  | 0, _ => .error .depthExhausted
  | depth + 1, b =>
    let o := { new fl with valueType := .Array }
    let st := (jp.ArrayEach b).foldl
      (fun st vt => arrayCallback fl (newFromObject fl jp depth) (newFromArray fl jp depth) st vt.1 vt.2)
      { o := o, err := none }
    match st.err with
    | some e => .error e
    | none => .ok st.o
/-- Go: `newFromObject`, with the same `depth` bound as `newFromArray`. -/
def newFromObject {F : Type} (fl : Float64Ops F) (jp : Tokenizer) : Nat → Bytes → Except Error (V F)
  | 0, _ => .error .depthExhausted
  | depth + 1, b =>
    let o := { new fl with valueType := .Object }
    let tr := jp.ObjectEach b
    match objectEachLoop (objectCallback fl (newFromObject fl jp depth) (newFromArray fl jp depth)) tr.1 o with
    | .error e => .error e
    | .ok o1 =>
      match tr.2 with
      | some e => .error e
      | none => .ok o1
end

/-- The loop of `Unmarshal` over the bytes of `b`; `b` here is the part not yet visited, so the
slice `b[i:]` of the source is the argument itself. `depth` is handed to the container
parsers. -/
def unmarshalLoop {F : Type} (fl : Float64Ops F) (jp : Tokenizer) (depth : Nat) : Bytes → Except Error (V F)
  | [] => .error .ErrRawBytesUnrecignized
  | c :: cs =>
    if c = 0x20 ∨ c = 0x0D ∨ c = 0x0A ∨ c = 0x09 then unmarshalLoop fl jp depth cs
    else if c = 0x7B then newFromObject fl jp depth (c :: cs)
    else if c = 0x5B then newFromArray fl jp depth (c :: cs)
    else if (0x30 ≤ c ∧ c ≤ 0x39) ∨ c = 0x2D then newFromNumber fl (c :: cs)
    else if c = 0x22 then newFromString fl (c :: cs)
    else if c = 0x74 then newFromTrue fl (c :: cs)
    else if c = 0x66 then newFromFalse fl (c :: cs)
    else if c = 0x6E then newFromNull fl (c :: cs)
    else .error .ErrRawBytesUnrecignized

/-- Go: `Unmarshal`. Nesting is followed as deep as the input is long, which is every level a
tokenizer that hands out proper sub-slices can reach. -/
def Unmarshal {F : Type} (fl : Float64Ops F) (jp : Tokenizer) (b : Bytes) : Except Error (V F) :=
  if b.length = 0 then .error .ErrNilParameter
  else unmarshalLoop fl jp (b.length + 1) b

/-- Go: `UnmarshalString`. -/
def UnmarshalString {F : Type} (fl : Float64Ops F) (jp : Tokenizer) (s : Bytes) : Except Error (V F) :=
  Unmarshal fl jp s

/-! ## jsonvalue.go: type access, value access, String -/

/-- Go: `(*V).IsObject`. -/
def V.IsObject {F : Type} (v : V F) : Bool := v.valueType == .Object

/-- Go: `(*V).IsArray`. -/
def V.IsArray {F : Type} (v : V F) : Bool := v.valueType == .Array

/-- Go: `(*V).IsString`; the source compares with `jsonparser.Null`. -/
def V.IsString {F : Type} (v : V F) : Bool := v.valueType == .Null

/-- Go: `(*V).IsNumber`. -/
def V.IsNumber {F : Type} (v : V F) : Bool := v.valueType == .Number

/-- Go: `(*V).IsFloat`. -/
def V.IsFloat {F : Type} (v : V F) : Bool := v.floated

/-- Go: `(*V).IsInteger`. -/
def V.IsInteger {F : Type} (v : V F) : Bool := v.valueType == .Number && false == v.floated

/-- Go: `(*V).IsBoolean`. -/
def V.IsBoolean {F : Type} (v : V F) : Bool := v.valueType == .Boolean

/-- Go: `(*V).IsNull`. -/
def V.IsNull {F : Type} (v : V F) : Bool := v.valueType == .Null

/-- Go: `(*V).Bool`. -/
def V.Bool {F : Type} (v : V F) : Bool := v.boolValue

/-- Go: `(*V).Int`; `int` is taken as 64 bits wide. -/
def V.Int {F : Type} (v : V F) : ℤ := v.int64Value

/-- Go: `(*V).Uint`; `uint` is taken as 64 bits wide. -/
def V.Uint {F : Type} (v : V F) : Nat := v.uint64Value

/-- Go: `(*V).Int64`. -/
def V.Int64 {F : Type} (v : V F) : ℤ := v.int64Value

/-- Go: `(*V).Uint64`. -/
def V.Uint64 {F : Type} (v : V F) : Nat := v.uint64Value

/-- Go: `(*V).Int32`: the low 32 bits, read as two's complement. -/
def V.Int32 {F : Type} (v : V F) : ℤ :=
  if v.int64Value % 2 ^ 32 < 2 ^ 31 then v.int64Value % 2 ^ 32 else v.int64Value % 2 ^ 32 - 2 ^ 32

/-- Go: `(*V).Uint32`: the low 32 bits. -/
def V.Uint32 {F : Type} (v : V F) : Nat := v.uint64Value % 2 ^ 32

/-- Go: `(*V).Float64`. -/
def V.Float64 {F : Type} (v : V F) : F := v.floatValue

/-- Go: `(*V).Float32`. -/
def V.Float32 {F : Type} (fl : Float64Ops F) (v : V F) : F := fl.toFloat32 v.floatValue

mutual
/-- Go: `(*V).String`. For an object the members are written in the order of the association
list; the Go map iterates in no fixed order. -/
def V.String {F : Type} : V F → Bytes
  | ⟨valueType, rawNumBytes, _, _, stringValue, _, _, boolValue, _, objectChildren, arrayChildren⟩ =>
    match valueType with
    | .Null => ascii "null"
    | .Number => rawNumBytes
    | .String => stringValue
    | .Boolean => formatBool boolValue
    | .Object => ([0x7B] ++ bufObjChildren objectChildren 0) ++ [0x7D]
    | .Array => ([0x5B] ++ bufArrChildren arrayChildren 0) ++ [0x5D]
    | _ => []
/-- The loop of `bufObjChildren`: `i` counts the members already written. -/
def bufObjChildren {F : Type} : List (Bytes × V F) → Nat → Bytes
  | [], _ => []
  | (k, v) :: rest, i =>
    ((((if i > 0 then ascii ", " else []) ++ k) ++ ascii ": ") ++ V.String v) ++ bufObjChildren rest (i + 1)
/-- The loop of `bufArrChildren` (through `RangeArray`): `i` is the index of the child. -/
def bufArrChildren {F : Type} : List (V F) → Nat → Bytes
  | [], _ => []
  | v :: rest, i =>
    ((if i > 0 then ascii ", " else []) ++ V.String v) ++ bufArrChildren rest (i + 1)
end

/-! ## github.com/buger/jsonparser

The tokenizer the package imports, transcribed from the library's `parser.go` and `escape.go`
(external to this repository). Offsets are natural numbers; a Go result of `-1` is `none`. -/

namespace jsonparser

/-- The byte `data[i]`; every use below is at an index a preceding `nextToken` has found. -/
def byteAt (data : Bytes) (i : Nat) : Nat := data.getD i 0

/-- The library's `nextToken`: the index of the first byte that is no white space. -/
def nextToken : Bytes → Option Nat
  | [] => none
  | c :: cs =>
    if c = 0x20 ∨ c = 0x0A ∨ c = 0x0D ∨ c = 0x09 then (nextToken cs).map (· + 1) else some 0

/-- The library's `tokenEnd`: the index of the first white space, comma or closing bracket, or
the length of the input. -/
def tokenEnd : Bytes → Nat
  | [] => 0
  | c :: cs =>
    if c = 0x20 ∨ c = 0x0A ∨ c = 0x0D ∨ c = 0x09 ∨ c = 0x2C ∨ c = 0x7D ∨ c = 0x5D then 0
    else tokenEnd cs + 1

/-- The inner loop of `stringEnd`: whether the run of backslashes that ends the bytes read so
far (`before`, last byte first) has even length. -/
def evenBackslashes : Bytes → Bool
  | 0x5C :: 0x5C :: rest => evenBackslashes rest
  | 0x5C :: _ => false
  | _ => true

/-- The loop of `stringEnd`: `i` is the index of the head of the first argument, `before` the
bytes already passed (last first), `escaped` whether a backslash has been seen. -/
def stringEndLoop : Bytes → Bytes → Nat → Bool → Option Nat × Bool
  | [], _, _, escaped => (none, escaped)
  | c :: cs, before, i, escaped =>
    if c = 0x22 then
      if !escaped then (some (i + 1), false)
      else if evenBackslashes before then (some (i + 1), true)
      else stringEndLoop cs (c :: before) (i + 1) escaped
    else if c = 0x5C then stringEndLoop cs (c :: before) (i + 1) true
    else stringEndLoop cs (c :: before) (i + 1) escaped

/-- The library's `stringEnd`: the index just after the quote that closes the string whose body
starts `data`, and whether the body holds a backslash. -/
def stringEnd (data : Bytes) : Option Nat × Bool := stringEndLoop data [] 0 false

/-- The loop of `blockEnd`; `fuel` bounds the iterations (each moves `i` forward). -/
def blockEndLoop (data : Bytes) (openSym closeSym : Nat) : Nat → Nat → ℤ → Option Nat
  | 0, _, _ => none
  | fuel + 1, i, level =>
    if i < data.length then
      if byteAt data i = 0x22 then
        match (stringEnd (data.drop (i + 1))).1 with
        | none => none
        | some se => blockEndLoop data openSym closeSym fuel (i + se + 1) level
      else if byteAt data i = openSym then blockEndLoop data openSym closeSym fuel (i + 1) (level + 1)
      else if byteAt data i = closeSym then
        if level - 1 = 0 then some (i + 1)
        else blockEndLoop data openSym closeSym fuel (i + 1) (level - 1)
      else blockEndLoop data openSym closeSym fuel (i + 1) level
    else none

/-- The library's `blockEnd`: the index just after the bracket that closes the first block. -/
def blockEnd (data : Bytes) (openSym closeSym : Nat) : Option Nat :=
  blockEndLoop data openSym closeSym (data.length + 1) 0 0

/-- The library's `getType`: the bytes of the value that starts at `offset`, its type and the
offset of its end. -/
def getType (data : Bytes) (offset : Nat) : Except Error (Bytes × ValueType × Nat) :=
  if byteAt data offset = 0x22 then
    match (stringEnd (data.drop (offset + 1))).1 with
    | some idx => .ok ((data.drop offset).take (idx + 1), .String, offset + idx + 1)
    | none => .error .MalformedStringError
  else if byteAt data offset = 0x5B then
    match blockEnd (data.drop offset) 0x5B 0x5D with
    | none => .error .MalformedArrayError
    | some e => .ok ((data.drop offset).take e, .Array, e + offset)
  else if byteAt data offset = 0x7B then
    match blockEnd (data.drop offset) 0x7B 0x7D with
    | none => .error .MalformedObjectError
    | some e => .ok ((data.drop offset).take e, .Object, e + offset)
  else
    let e := tokenEnd (data.drop offset)
    let value := (data.drop offset).take e
    let c := byteAt data offset
    if c = 0x74 ∨ c = 0x66 then
      if value = ascii "true" ∨ value = ascii "false" then .ok (value, .Boolean, offset + e)
      else .error .UnknownValueTypeError
    else if c = 0x75 ∨ c = 0x6E then
      if value = ascii "null" then .ok (value, .Null, offset + e)
      else .error .UnknownValueTypeError
    else if (0x30 ≤ c ∧ c ≤ 0x39) ∨ c = 0x2D then .ok (value, .Number, offset + e)
    else .error .UnknownValueTypeError

/-- The library's `Get` without keys: the next value of `data`, a string without its quotes,
with its type and the offset of its end. -/
def Get (data : Bytes) : Except Error (Bytes × ValueType × Nat) :=
  match nextToken data with
  | none => .error .MalformedJsonError
  | some nO =>
    match getType data nO with
    | .error e => .error e
    | .ok (value, dataType, endOffset) =>
      if dataType = .String then .ok ((value.drop 1).take (value.length - 2), dataType, endOffset)
      else .ok (value, dataType, endOffset)

/-- The library's `h2I`; `none` is `badHex`. -/
def h2I (c : Nat) : Option Nat :=
  if 0x30 ≤ c ∧ c ≤ 0x39 then some (c - 0x30)
  else if 0x41 ≤ c ∧ c ≤ 0x46 then some (c - 0x41 + 10)
  else if 0x61 ≤ c ∧ c ≤ 0x66 then some (c - 0x61 + 10)
  else none

/-- The library's `decodeSingleUnicodeEscape`: the four hexadecimal digits at positions 2 to 5. -/
def decodeSingleUnicodeEscape (input : Bytes) : Option Nat :=
  match input with
  | _ :: _ :: a :: b :: c :: d :: _ =>
    match h2I a, h2I b, h2I c, h2I d with
    | some a, some b, some c, some d => some (a * 0x1000 + b * 0x100 + c * 0x10 + d)
    | _, _, _, _ => none
  | _ => none

/-- The library's `decodeUnicodeEscape`: the rune and the number of input bytes it takes. -/
def decodeUnicodeEscape (input : Bytes) : Option (Nat × Nat) :=
  match decodeSingleUnicodeEscape input with
  | none => none
  | some r =>
    if r ≤ 0xFFFF ∧ ¬ (0xD800 ≤ r ∧ r ≤ 0xDFFF) then some (r, 6)
    else
      match decodeSingleUnicodeEscape (input.drop 6) with
      | none => none
      | some r2 =>
        if r2 < 0xDC00 then none
        else some (0x10000 + (r - 0xD800) * 0x400 + (r2 - 0xDC00), 12)

/-- The library's `unescapeToUTF8`: the number of input bytes of the escape at the head of
`input` and the bytes it stands for. -/
def unescapeToUTF8 (input : Bytes) : Option (Nat × Bytes) :=
  match input with
  | 0x5C :: e :: _ =>
    if e = 0x22 ∨ e = 0x5C ∨ e = 0x2F then some (2, [e])
    else if e = 0x62 then some (2, [0x08])
    else if e = 0x66 then some (2, [0x0C])
    else if e = 0x6E then some (2, [0x0A])
    else if e = 0x72 then some (2, [0x0D])
    else if e = 0x74 then some (2, [0x09])
    else if e = 0x75 then
      match decodeUnicodeEscape input with
      | none => none
      | some (r, inLen) => some (inLen, EncodeRune r)
    else none
  | _ => none

/-- The loop of `Unescape`, entered with a backslash at the head of `input`. -/
def unescapeLoop : Nat → Bytes → Bytes → Except Error Bytes
  | 0, _, out => .ok out
  | _, [], out => .ok out
  | fuel + 1, c :: cs, out =>
    match unescapeToUTF8 (c :: cs) with
    | none => .error .MalformedStringEscapeError
    | some (inLen, bs) =>
      let rest := (c :: cs).drop inLen
      let plain := rest.takeWhile (· ≠ 0x5C)
      unescapeLoop fuel (rest.drop plain.length) ((out ++ bs) ++ plain)

/-- The library's `Unescape`. -/
def Unescape (input : Bytes) : Except Error Bytes :=
  if 0x5C ∈ input then
    let plain := input.takeWhile (· ≠ 0x5C)
    unescapeLoop input.length (input.drop plain.length) plain
  else .ok input

/-- The loop of `ArrayEach` from the first element on: the callback invocations so far
(`acc`) and the error returned. -/
def arrayEachLoop (data : Bytes) : Nat → Nat → List (Bytes × ValueType) →
    List (Bytes × ValueType) × Option Error
  | 0, _, acc => (acc, none)
  | fuel + 1, offset, acc =>
    match Get (data.drop offset) with
    | .error e => (acc, some e)
    | .ok (v, t, o) =>
      if o = 0 then (acc, none)
      else
        let acc := if t ≠ .NotExist then acc ++ [(v, t)] else acc
        let offset := offset + o
        match nextToken (data.drop offset) with
        | none => (acc, some .MalformedArrayError)
        | some skipToToken =>
          let offset := offset + skipToToken
          if byteAt data offset = 0x5D then (acc, none)
          else if byteAt data offset ≠ 0x2C then (acc, some .MalformedArrayError)
          else arrayEachLoop data fuel (offset + 1) acc

/-- The library's `ArrayEach` without keys: the `(value, dataType)` pairs the callback is
invoked with, and the error returned. -/
def ArrayEach (data : Bytes) : List (Bytes × ValueType) × Option Error :=
  if data.length = 0 then ([], some .MalformedObjectError)
  else
    match nextToken data with
    | none => ([], some .MalformedJsonError)
    | some nT =>
      let offset := nT + 1
      match nextToken (data.drop offset) with
      | none => ([], some .MalformedJsonError)
      | some nO =>
        let offset := offset + nO
        if byteAt data offset = 0x5D then ([], none)
        else arrayEachLoop data data.length offset []

/-- The loop of `ObjectEach` over the members, entered with `offset` at a key or at the closing
brace: the members handed to the callback so far (`acc`) and the error returned. -/
def objectEachMembers (data : Bytes) : Nat → Nat → List (Bytes × Bytes × ValueType) →
    List (Bytes × Bytes × ValueType) × Option Error
  | 0, _, acc => (acc, some .MalformedObjectError)
  | fuel + 1, offset, acc =>
    if offset < data.length then
      if byteAt data offset = 0x7D then (acc, none)
      else if byteAt data offset ≠ 0x22 then (acc, some .MalformedObjectError)
      else
        let offset := offset + 1
        match stringEnd (data.drop offset) with
        | (none, _) => (acc, some .MalformedJsonError)
        | (some off, keyEscaped) =>
          let key := (data.drop offset).take (off - 1)
          let offset := offset + off
          match (if keyEscaped then Unescape key else .ok key) with
          | .error _ => (acc, some .MalformedStringEscapeError)
          | .ok key =>
            match nextToken (data.drop offset) with
            | none => (acc, some .MalformedJsonError)
            | some off =>
              let offset := offset + off
              if byteAt data offset ≠ 0x3A then (acc, some .MalformedJsonError)
              else
                let offset := offset + 1
                match Get (data.drop offset) with
                | .error e => (acc, some e)
                | .ok (value, valueType, off) =>
                  let acc := acc ++ [(key, value, valueType)]
                  let offset := offset + off
                  match nextToken (data.drop offset) with
                  | none => (acc, some .MalformedArrayError)
                  | some off =>
                    let offset := offset + off
                    if byteAt data offset = 0x7D then (acc, none)
                    else if byteAt data offset ≠ 0x2C then (acc, some .MalformedObjectError)
                    else
                      let offset := offset + 1
                      match nextToken (data.drop offset) with
                      | none => (acc, some .MalformedArrayError)
                      | some off => objectEachMembers data fuel (offset + off) acc
    else (acc, some .MalformedObjectError)

/-- The library's `ObjectEach` without keys: the `(key, value, dataType)` triples the callback
is invoked with while it returns nil, and the error returned after them. -/
def ObjectEach (data : Bytes) : List (Bytes × Bytes × ValueType) × Option Error :=
  match nextToken data with
  | none => ([], some .MalformedObjectError)
  | some off =>
    if byteAt data off ≠ 0x7B then ([], some .MalformedObjectError)
    else
      let offset := off + 1
      match nextToken (data.drop offset) with
      | none => ([], some .MalformedJsonError)
      | some off =>
        let offset := offset + off
        if byteAt data offset = 0x7D then ([], none)
        else objectEachMembers data data.length offset []

end jsonparser

/-- The tokenizer of `github.com/buger/jsonparser`. -/
def jsonparserTokenizer : Tokenizer :=
  { ArrayEach := fun data => (jsonparser.ArrayEach data).1
    ObjectEach := jsonparser.ObjectEach }

/-- An exact decimal `± mant / 10^scale`, standing in for a `float64` where a concrete value
has to be computed. -/
structure Decimal where
  neg : Bool
  mant : Nat
  scale : Nat
  deriving DecidableEq, Repr

/-- The digits of a decimal literal `digits.digits` read after the sign: `seenDot` tells
whether the point has been passed, `mant` and `scale` collect the value. -/
def decimalDigits : Bytes → Bool → Nat → Nat → Option (Nat × Nat)
  | [], seenDot, mant, scale => if seenDot then some (mant, scale) else none
  | c :: cs, seenDot, mant, scale =>
    if c = 0x2E then (if seenDot then none else decimalDigits cs true mant scale)
    else if 0x30 ≤ c ∧ c ≤ 0x39 then
      decimalDigits cs seenDot (mant * 10 + (c - 0x30)) (if seenDot then scale + 1 else scale)
    else none

/-- A choice of `Float64Ops` by exact decimals, used to evaluate the parser on concrete inputs.
It reads literals of the shape `[-]digits.digits` only and does not round to 53 bits, so it
agrees with `float64` on the short literals and small integers of the examples below and not
in general; the theorems stated for every `Float64Ops` do not depend on it. -/
def decimalFloat : Float64Ops Decimal :=
  { zero := { neg := false, mant := 0, scale := 0 }
    ParseFloat := fun b =>
      let neg := b.head? = some 0x2D
      let body := if neg then b.drop 1 else b
      if body.head? = some 0x2E ∨ body.getLast? = some 0x2E then .error .strconvSyntax
      else
        match decimalDigits body false 0 0 with
        | some (m, sc) => .ok { neg := neg, mant := m, scale := sc }
        | none => .error .strconvSyntax
    ltZero := fun f => f.neg && decide (f.mant ≠ 0)
    toInt64 := fun f =>
      int64OfUint64 (uint64OfInt64 (if f.neg then -((f.mant / 10 ^ f.scale : Nat) : ℤ) else ((f.mant / 10 ^ f.scale : Nat) : ℤ)))
    toUint64 := fun f =>
      uint64OfInt64 (if f.neg then -((f.mant / 10 ^ f.scale : Nat) : ℤ) else ((f.mant / 10 ^ f.scale : Nat) : ℤ))
    ofInt64 := fun i => { neg := decide (i < 0), mant := i.natAbs, scale := 0 }
    ofUint64 := fun u => { neg := false, mant := u, scale := 0 }
    toFloat32 := fun f => f }

/-! ## Array sort, builders and marshal

The sources of `SortArray`, of the builders and of the marshal engine are not among the files
of this development; `sort_test.go` calls them. They are modelled from the specification. -/

/-- Insertion of `x` into a list ordered by `less`: `x` goes in front of the first element that
is not less than `x`. -/
def insertBy {α : Type} (less : α → α → Bool) (x : α) : List α → List α
  | [] => [x]
  | y :: ys => if less y x then y :: insertBy less x ys else x :: y :: ys

/-- Insertion sort by a strict-less comparator. -/
def sortBy {α : Type} (less : α → α → Bool) : List α → List α
  | [] => []
  | x :: xs => insertBy less x (sortBy less xs)

/-- Modelled from the spec: `SortArray(node, lessFunc)` (section 4.5; its source is missing)
"reorders an Array node's children in place using a strict-less comparator over pairs of child
Values"; "calling on a non-Array node is a no-op (not an error, not a crash); calling with a
nil/absent comparator is a no-op". The node after the call is returned; a nil comparator is
`none`. -/
def SortArray {F : Type} (v : V F) (lessFunc : Option (V F → V F → Bool)) : V F :=
  if v.IsArray = false then v
  else
    match lessFunc with
    | none => v
    | some less => { v with arrayChildren := sortBy less v.arrayChildren }

/-- The decimal digits of `x`, most significant first, in front of `acc`. -/
def decimalAux : Nat → Nat → Bytes → Bytes
  | 0, _, acc => acc
  | fuel + 1, x, acc =>
    if x < 10 then (0x30 + x) :: acc
    else decimalAux fuel (x / 10) ((0x30 + x % 10) :: acc)

/-- The decimal text of an integer (`strconv.FormatInt(i, 10)`). -/
def formatInt (i : ℤ) : Bytes :=
  (if i < 0 then [0x2D] else []) ++ decimalAux (i.natAbs + 1) i.natAbs []

/-- Modelled from the spec: the typed constructor of a detached integer Number (section 6,
"typed constructors producing a detached Value"; the source of `NewInt` is missing): the three
projections are derived from `i` and the raw literal is its decimal text. -/
def NewInt {F : Type} (fl : Float64Ops F) (i : ℤ) : V F :=
  { new fl with valueType := .Number, negative := decide (i < 0), int64Value := i,
                uint64Value := uint64OfInt64 i, floatValue := fl.ofInt64 i,
                rawNumBytes := formatInt i }

/-- Modelled from the spec: the typed constructor of a detached String (section 6; the source
of `NewString` is missing). -/
def NewString {F : Type} (fl : Float64Ops F) (s : Bytes) : V F :=
  { new fl with valueType := .String, stringValue := s }

/-- Modelled from the spec: the constructor of a detached Null (section 6; the source of
`NewNull` is missing). -/
def NewNull {F : Type} (fl : Float64Ops F) : V F := { new fl with valueType := .Null }

/-- Modelled from the spec: the constructor of an empty Array (section 6; the source of
`NewArray` is missing). -/
def NewArray {F : Type} (fl : Float64Ops F) : V F := { new fl with valueType := .Array }

/-- Modelled from the spec: the constructor of an empty Object (section 6; the source of
`NewObject` is missing). -/
def NewObject {F : Type} (fl : Float64Ops F) : V F := { new fl with valueType := .Object }

/-- Modelled from the spec: "append-to-end-of-array" (section 6; the source of
`Append...InTheEnd` is missing): the child becomes the last element of the parent. -/
def appendInTheEnd {F : Type} (parent child : V F) : V F :=
  { parent with arrayChildren := parent.arrayChildren ++ [child] }

/-- Modelled from the spec: "set-at-key-of-object" (section 6; the source of `Set...At` is
missing): the child becomes the member `key` of the parent, replacing an earlier one. -/
def setAt {F : Type} (parent : V F) (key : Bytes) (child : V F) : V F :=
  { parent with objectChildren := mapSet parent.objectChildren key child }

/-- Modelled from the spec: one segment of the ancestor path (section 4.4; its source is
missing), "either a string object-key or an integer array-index". -/
inductive Key where
  | str (k : Bytes)
  | idx (i : Nat)
  deriving DecidableEq, Repr

/-- Modelled from the spec: the string projection of a path segment (source missing). -/
def Key.String : Key → Bytes
  | .str k => k
  | .idx i => formatInt i

/-- Modelled from the spec: the integer projection of a path segment (source missing). -/
def Key.Int : Key → ℤ
  | .str _ => 0
  | .idx i => i

/-- Modelled from the spec: whether the segment is an object key (source missing). -/
def Key.IsString : Key → Bool
  | .str _ => true
  | .idx _ => false

/-- Modelled from the spec: whether the segment is an array index (source missing). -/
def Key.IsInt : Key → Bool
  | .str _ => false
  | .idx _ => true

/-- Modelled from the spec: what a key comparator is told about the object being ordered
(section 4.4; its source is missing): the path of ancestor keys and indices from the root. -/
structure ParentInfo where
  KeyPath : List Key

/-- Modelled from the spec: the recognized marshal options (section 4.4; their source is
missing): `omitNull`, `lessFunc` and `keySequence`. -/
structure Opt (F : Type) where
  OmitNull : Bool
  MarshalLessFunc : Option (ParentInfo → Bytes → Bytes → V F → V F → Bool)
  MarshalKeySequence : Option (List Bytes)

/-- Strict lexicographic order of byte strings. -/
def bytesLess : Bytes → Bytes → Bool
  | _, [] => false
  | [], _ :: _ => true
  | a :: as, b :: bs => if a < b then true else if b < a then false else bytesLess as bs

/-- Modelled from the spec: `defaultStringSequence` (section 4.4; its source is missing),
"plain ascending lexicographic ordering of keys as strings, ignoring value type". -/
def DefaultStringSequence {F : Type} (_ : ParentInfo) (keyA keyB : Bytes) (_ _ : V F) : Bool :=
  bytesLess keyA keyB

/-- Modelled from the spec: the order in which the members of an object are emitted (section
4.4; its source is missing). A member is its key, its value and the text of its value. Null
members are dropped under `omitNull`; a comparator orders all keys; a key sequence puts the
listed keys first, in the order of the list, followed by the others (the spec leaves their
order to the implementation; `testSortByStringSlice` expects them in ascending order of their
keys, which is the order taken here); with no policy the storage order is kept. -/
def orderMembers {F : Type} (opt : Opt F) (path : List Key) (ms : List (Bytes × V F × Bytes)) :
    List (Bytes × V F × Bytes) :=
  let ms := ms.filter (fun m => !(opt.OmitNull && m.2.1.IsNull))
  match opt.MarshalLessFunc with
  | some less => sortBy (fun a b => less { KeyPath := path } a.1 b.1 a.2.1 b.2.1) ms
  | none =>
    match opt.MarshalKeySequence with
    | some seq =>
      seq.eraseDups.filterMap (fun k => ms.find? (fun m => m.1 = k)) ++
        sortBy (fun a b => bytesLess a.1 b.1) (ms.filter (fun m => m.1 ∉ seq))
    | none => ms

/-- The texts `parts` joined by commas. -/
def joinComma : List Bytes → Bytes
  | [] => []
  | [p] => p
  | p :: q :: rest => (p ++ [0x2C]) ++ joinComma (q :: rest)

mutual
/-- Modelled from the spec: the serialization recursion of `Marshal` (section 4.4; its source is
missing): "Null → null; Bool → true/false; Number → raw bytes verbatim; String → quote +
escape(value) + quote; Array → [ + comma-joined recursive serialization of children in storage
order + ]; Object → \x7b + comma-joined quoted key : recursive serialization, in the order
selected, honoring omitNull + \x7d". A node that is none of the six variants is a malformed
tree and gives no output. `path` is the ancestor path of the node. -/
def marshalValue {F : Type} (opt : Opt F) : V F → List Key → Option Bytes
  | ⟨valueType, rawNumBytes, _, _, stringValue, _, _, boolValue, _, objectChildren, arrayChildren⟩, path =>
    match valueType with
    | .Null => some (ascii "null")
    | .Boolean => some (formatBool boolValue)
    | .Number => some rawNumBytes
    | .String => some (([0x22] ++ escapeStringToBuff stringValue []) ++ [0x22])
    | .Array =>
      match marshalElems opt arrayChildren path 0 with
      | none => none
      | some parts => some (([0x5B] ++ joinComma parts) ++ [0x5D])
    | .Object =>
      match marshalMembers opt objectChildren path with
      | none => none
      | some ms =>
        some (([0x7B] ++ joinComma ((orderMembers opt path ms).map
          (fun m => ((([0x22] ++ m.1) ++ [0x22]) ++ [0x3A]) ++ m.2.2))) ++ [0x7D])
    | _ => none
/-- The texts of the elements of an array, from index `i` on. -/
def marshalElems {F : Type} (opt : Opt F) : List (V F) → List Key → Nat → Option (List Bytes)
  | [], _, _ => some []
  | v :: rest, path, i =>
    match marshalValue opt v (path ++ [.idx i]), marshalElems opt rest path (i + 1) with
    | some p, some ps => some (p :: ps)
    | _, _ => none
/-- The members of an object, each with the text of its value, in storage order. -/
def marshalMembers {F : Type} (opt : Opt F) : List (Bytes × V F) → List Key →
    Option (List (Bytes × V F × Bytes))
  | [], _ => some []
  | (k, v) :: rest, path =>
    match marshalValue opt v (path ++ [.str k]), marshalMembers opt rest path with
    | some p, some ps => some ((k, v, p) :: ps)
    | _, _ => none
end

/-- Modelled from the spec: `Marshal(root, options)` (section 4.4; its source is missing), the
serialized value, or no output for a malformed tree. -/
def Marshal {F : Type} (root : V F) (opt : Opt F) : Option Bytes := marshalValue opt root []

/-- The empty option set of `Marshal`. -/
def noOpt {F : Type} : Opt F := { OmitNull := false, MarshalLessFunc := none, MarshalKeySequence := none }

/-- The array `testSortArray` of `sort_test.go` builds: `NewArray()` followed by
`AppendInt(i).InTheEnd()` for `i` from 0 to 9. -/
def testSortArrayInput {F : Type} (fl : Float64Ops F) : V F :=
  (List.range 10).foldl (fun arr i => appendInTheEnd arr (NewInt fl (i : ℤ))) (NewArray fl)

/-- The comparator of `testSortArray`: `v1.Int() > v2.Int()`. -/
def lessFuncDescending {F : Type} (v1 v2 : V F) : Bool := decide (v1.Int > v2.Int)

/-- The four uppercase hexadecimal digits of a 16-bit value: the text `XXXX` of `\uXXXX`. -/
def hex4 (x : Nat) : Bytes :=
  [hexDigitUpper (x / 0x1000 % 16), hexDigitUpper (x / 0x100 % 16), hexDigitUpper (x / 0x10 % 16),
   hexDigitUpper (x % 16)]

deriving instance DecidableEq for Except

/-! ## Number literals, as the claims speak of them -/

/-- A decimal digit. -/
def isDigit (c : Nat) : Bool := 0x30 ≤ c && c ≤ 0x39

/-- The mathematical value of a sequence of decimal digits. -/
def decimalValue (ds : Bytes) : Nat := ds.foldl (fun n c => n * 10 + (c - 0x30)) 0

/-- The number grammar of JSON (RFC 8259): `[-] int [frac] [exp]` with `int` either `0` or a
digit 1-9 followed by digits, `frac` a point and at least one digit, `exp` an `e` or `E`, an
optional sign and at least one digit. -/
def isJSONNumber (b : Bytes) : Bool :=
  let b1 := if b.head? = some 0x2D then b.drop 1 else b
  let intPart := b1.takeWhile isDigit
  let r1 := b1.dropWhile isDigit
  let intOk := !intPart.isEmpty && (intPart.head? != some 0x30 || intPart.length == 1)
  let fracOk := r1.head? != some 0x2E || !((r1.drop 1).takeWhile isDigit).isEmpty
  let r2 := if r1.head? = some 0x2E then (r1.drop 1).dropWhile isDigit else r1
  let expOk :=
    match r2 with
    | [] => true
    | e :: r3 =>
      let r4 := if r3.head? = some 0x2B ∨ r3.head? = some 0x2D then r3.drop 1 else r3
      (e == 0x65 || e == 0x45) && !r4.isEmpty && r4.all isDigit
  intOk && fracOk && expOk

/-- A decimal integer literal whose value fits the 64-bit type it is parsed into: a minus sign
and digits of magnitude at most `2^63`, or digits of value below `2^64`. -/
def IntegerLiteralInRange (lit : Bytes) : Prop :=
  (∃ ds, lit = 0x2D :: ds ∧ ds ≠ [] ∧ ds.all isDigit = true ∧ decimalValue ds ≤ 2 ^ 63) ∨
  (lit ≠ [] ∧ lit.all isDigit = true ∧ decimalValue lit < 2 ^ 64)

/-- A literal with a decimal point that starts with a digit or a minus sign and that
`strconv.ParseFloat` accepts. -/
def FloatLiteralAccepted {F : Type} (fl : Float64Ops F) (lit : Bytes) : Prop :=
  0x2E ∈ lit ∧ (∃ c cs, lit = c :: cs ∧ (isDigit c = true ∨ c = 0x2D)) ∧
  ∃ f, fl.ParseFloat lit = .ok f

/-! ## Strings as sequences of code points -/

/-- A Unicode scalar value: a code point up to U+10FFFF that is no surrogate. These are the
code points a valid Go string is made of. -/
def isScalarValue (r : Nat) : Bool := r < 0xD800 || (0xE000 ≤ r && r ≤ 0x10FFFF)

/-- The Go string (UTF-8) of a sequence of code points. -/
def utf8 (cps : List Nat) : Bytes := cps.flatMap EncodeRune

/-- A code point the escaper leaves in a form the JSON grammar accepts: anything from U+0020 on,
and the five control characters that have a two-character escape. The other control characters
are written raw. -/
def isEscapable (r : Nat) : Bool :=
  0x20 ≤ r || r == 0x08 || r == 0x09 || r == 0x0A || r == 0x0C || r == 0x0D

/-- A tokenizer that ignores white space behind its input: the callback traces of `ArrayEach`
and `ObjectEach` are the same with and without it. `jsonparser` is such a tokenizer. -/
def IgnoresTrailingSpace (jp : Tokenizer) : Prop :=
  ∀ data w : Bytes, w.all isSpace = true →
    jp.ArrayEach (data ++ w) = jp.ArrayEach data ∧ jp.ObjectEach (data ++ w) = jp.ObjectEach data

/-! ## Escaped text, as the claims speak of it -/

/-- Every double quote of `out` has a backslash right in front of it. -/
def QuotesEscaped (out : Bytes) : Prop :=
  ∀ i, out[i]? = some 0x22 → ∃ j, i = j + 1 ∧ out[j]? = some 0x5C

/-- The string scanner of the tokenizer passes over `u`: entered with an even run of
backslashes behind it, `stringEndLoop` reads all of `u` without finding the end of the string,
and an even run of backslashes is behind it again. -/
def ScansThrough (u : Bytes) : Prop :=
  ∀ (tail before : Bytes) (i : Nat) (esc : Bool), jsonparser.evenBackslashes before = true →
    jsonparser.evenBackslashes (u.reverse ++ before) = true ∧
    ∃ esc1, jsonparser.stringEndLoop (u ++ tail) before i esc =
      jsonparser.stringEndLoop tail (u.reverse ++ before) (i + u.length) esc1

/-- What the escaper's output is shown to be, piece by piece: no `<`, `>`, `&` or `%`, every
double quote behind a backslash, and passed over by the string scanner. -/
def EscapedSafe (u : Bytes) : Prop :=
  (∀ c ∈ u, c ≠ 0x3C ∧ c ≠ 0x3E ∧ c ≠ 0x26 ∧ c ≠ 0x25) ∧ QuotesEscaped u ∧ ScansThrough u

/-! ## The scenarios of `sort_test.go` -/

/-- The option set `Opt\x7bMarshalLessFunc: DefaultStringSequence\x7d` of `testSortMarshal`, which
is also what `OptDefaultStringSequence()` stands for. -/
def OptDefaultStringSequence {F : Type} : Opt F :=
  { OmitNull := false, MarshalLessFunc := some DefaultStringSequence, MarshalKeySequence := none }

/-- The object `testSortMarshal` builds: `NewObject()`, then for `i` from 0 to 9
`SetInt(i).At(iStr)` when `i&1 == 0` and `SetString(iStr).At(iStr)` otherwise. -/
def testSortMarshalInput {F : Type} (fl : Float64Ops F) : V F :=
  (List.range 10).foldl
    (fun v (i : Nat) =>
      if i &&& 1 = 0 then setAt v (formatInt (i : ℤ)) (NewInt fl (i : ℤ))
      else setAt v (formatInt (i : ℤ)) (NewString fl (formatInt (i : ℤ))))
    (NewObject fl)

/-- The text `orig` of `testSortMarshal`. -/
def testSortMarshalOrig : Bytes :=
  ascii "\x7b\n\t\t\"object!\":\x7b\n\t\t\t\"string!!!\": \"a string\",\n\t\t\t\"object!!\":\x7b\n\t\t\t\t\"array!!!!\":[\n\t\t\t\t\t1234,\n\t\t\t\t\t\x7b\n\t\t\t\t\t\t\"stringBB\":\"aa string\",\n\t\t\t\t\t\t\"stringA\":\"a string\",\n\t\t\t\t\t\x7d\n\t\t\t\t]\n\t\t\t\x7d,\n\t\t\t\"null\":null\n\t\t\x7d\n\t\x7d"

/-- The comparator `less` of `testSortMarshal`: `len(keyA) <= len(keyB)` (its logging left
out). -/
def testSortMarshalLess {F : Type} (_ : ParentInfo) (keyA keyB : Bytes) (_ _ : V F) : Bool :=
  decide (keyA.length ≤ keyB.length)

/-- The key sequence `seq` of `testSortByStringSlice`. -/
def testSortByStringSliceSeq : List Bytes :=
  [ascii "grandpa", ascii "grandma", ascii "father", ascii "mother", ascii "son",
   ascii "daughter"]

/-- The object `testSortByStringSlice` builds with `SetString(..).At(..)` and
`SetNull().At("relative")`. -/
def testSortByStringSliceInput {F : Type} (fl : Float64Ops F) : V F :=
  let v := NewObject fl
  let v := setAt v (ascii "friendB") (NewString fl (ascii "Beef"))
  let v := setAt v (ascii "friendA") (NewString fl (ascii "Fish"))
  let v := setAt v (ascii "daughter") (NewString fl (ascii "Mayonnaise"))
  let v := setAt v (ascii "son") (NewString fl (ascii "Ketchup"))
  let v := setAt v (ascii "grandpa") (NewString fl (ascii "Kentucky"))
  let v := setAt v (ascii "grandma") (NewString fl (ascii "McDonald"))
  let v := setAt v (ascii "father") (NewString fl (ascii "Hanberger"))
  let v := setAt v (ascii "mother") (NewString fl (ascii "Chips"))
  setAt v (ascii "relative") (NewNull fl)

/-! # Theorems -/

theorem hexUpperAux_small (fuel x : Nat) (acc : Bytes) (h : x < 16) :
    hexUpperAux (fuel + 1) x acc = hexDigitUpper x :: acc := by
  simp [hexUpperAux, h]

theorem hexUpperAux_step (fuel x : Nat) (acc : Bytes) (h : 16 ≤ x) :
    hexUpperAux (fuel + 1) x acc = hexUpperAux fuel (x / 16) (hexDigitUpper (x % 16) :: acc) := by
  simp [hexUpperAux, Nat.not_lt.mpr h]

theorem format04X_eq_hex4 (x : Nat) (h : x ≤ 0xFFFF) : format04X x = hex4 x := by
  unfold format04X hex4
  by_cases h1 : x < 16
  · rw [hexUpperAux_small _ _ _ h1]
    have e1 : x / 0x1000 % 16 = 0 := by omega
    have e2 : x / 0x100 % 16 = 0 := by omega
    have e3 : x / 0x10 % 16 = 0 := by omega
    have e4 : x % 16 = x := by omega
    simp [e1, e2, e3, e4, hexDigitUpper, List.replicate]
  · obtain ⟨k, rfl⟩ : ∃ k, x = k + 1 := ⟨x - 1, by omega⟩
    rw [hexUpperAux_step _ _ _ (by omega)]
    by_cases h2 : (k + 1) / 16 < 16
    · rw [hexUpperAux_small _ _ _ h2]
      have e1 : (k + 1) / 0x1000 % 16 = 0 := by omega
      have e2 : (k + 1) / 0x100 % 16 = 0 := by omega
      have e3 : (k + 1) / 0x10 % 16 = (k + 1) / 16 := by omega
      simp [e1, e2, e3, hexDigitUpper, List.replicate]
    · obtain ⟨j, rfl⟩ : ∃ j, k = j + 1 := ⟨k - 1, by omega⟩
      rw [hexUpperAux_step _ _ _ (by omega)]
      by_cases h3 : (j + 1 + 1) / 16 / 16 < 16
      · rw [hexUpperAux_small _ _ _ h3]
        have e1 : (j + 1 + 1) / 0x1000 % 16 = 0 := by omega
        have e2 : (j + 1 + 1) / 0x100 % 16 = (j + 1 + 1) / 16 / 16 := by omega
        have e3 : (j + 1 + 1) / 0x10 % 16 = (j + 1 + 1) / 16 % 16 := by omega
        simp [e1, e2, e3, hexDigitUpper, List.replicate]
      · obtain ⟨i, rfl⟩ : ∃ i, j = i + 1 := ⟨j - 1, by omega⟩
        rw [hexUpperAux_step _ _ _ (by omega)]
        have h4 : (i + 1 + 1 + 1) / 16 / 16 / 16 < 16 := by omega
        rw [hexUpperAux_small _ _ _ h4]
        have e1 : (i + 1 + 1 + 1) / 0x1000 % 16 = (i + 1 + 1 + 1) / 16 / 16 / 16 := by omega
        have e2 : (i + 1 + 1 + 1) / 0x100 % 16 = (i + 1 + 1 + 1) / 16 / 16 % 16 := by omega
        have e3 : (i + 1 + 1 + 1) / 0x10 % 16 = (i + 1 + 1 + 1) / 16 % 16 := by omega
        simp [e1, e2, e3, List.replicate]

theorem sprintfU04X_eq (x : Nat) (h : x ≤ 0xFFFF) : sprintfU04X x = [0x5C, 0x75] ++ hex4 x := by
  unfold sprintfU04X
  rw [format04X_eq_hex4 x h]

theorem and_3FF (x : Nat) : x &&& 0x3FF = x % 0x400 :=
  Nat.and_pow_two_sub_one_eq_mod x 10

theorem and_FFC00_shift (x : Nat) (h : x < 0x100000) : (x &&& 0xFFC00) >>> 10 = x >>> 10 := by
  apply Nat.eq_of_testBit_eq
  intro i
  simp only [Nat.testBit_shiftRight, Nat.testBit_and]
  by_cases hi : i < 10
  · have : Nat.testBit 0xFFC00 (10 + i) = true := by
      interval_cases i <;> decide
    simp [this]
  · have hx : x < 2 ^ (10 + i) :=
      lt_of_lt_of_le h (by
        calc (0x100000 : Nat) = 2 ^ 20 := by norm_num
          _ ≤ 2 ^ (10 + i) := Nat.pow_le_pow_right (by norm_num) (by omega))
    simp [Nat.testBit_lt_two_pow hx]

/-! ## Array sort -/

theorem insertBy_perm {α : Type} (less : α → α → Bool) (x : α) (l : List α) :
    (insertBy less x l).Perm (x :: l) := by
  induction l with
  | nil => exact List.Perm.refl _
  | cons y ys ih =>
    unfold insertBy
    split
    · exact (List.Perm.cons y ih).trans (List.Perm.swap x y ys)
    · exact List.Perm.refl _

theorem sortBy_perm {α : Type} (less : α → α → Bool) (l : List α) : (sortBy less l).Perm l := by
  induction l with
  | nil => exact List.Perm.refl _
  | cons x xs ih =>
    unfold sortBy
    exact (insertBy_perm less x _).trans (List.Perm.cons x ih)

theorem insertBy_pairwise {α : Type} (less : α → α → Bool)
    (hasym : ∀ a b, less a b = true → less b a = false)
    (htrans : ∀ a b c, less a b = false → less b c = false → less a c = false)
    (x : α) (l : List α) (hl : l.Pairwise (fun a b => less b a = false)) :
    (insertBy less x l).Pairwise (fun a b => less b a = false) := by
  induction l with
  | nil => simp [insertBy]
  | cons y ys ih =>
    rw [List.pairwise_cons] at hl
    unfold insertBy
    split
    · rename_i hyx
      rw [List.pairwise_cons]
      refine ⟨?_, ih hl.2⟩
      intro z hz
      have hz' : z ∈ x :: ys := (insertBy_perm less x ys).mem_iff.mp hz
      rcases List.mem_cons.mp hz' with rfl | hz''
      · exact hasym _ _ hyx
      · exact hl.1 z hz''
    · rename_i hyx
      have hyx' : less y x = false := by simpa using hyx
      rw [List.pairwise_cons]
      refine ⟨?_, List.pairwise_cons.mpr hl⟩
      intro z hz
      rcases List.mem_cons.mp hz with rfl | hz''
      · exact hyx'
      · exact htrans _ _ _ (hl.1 z hz'') hyx'

theorem sortBy_pairwise {α : Type} (less : α → α → Bool)
    (hasym : ∀ a b, less a b = true → less b a = false)
    (htrans : ∀ a b c, less a b = false → less b c = false → less a c = false)
    (l : List α) : (sortBy less l).Pairwise (fun a b => less b a = false) := by
  induction l with
  | nil => simp [sortBy]
  | cons x xs ih =>
    unfold sortBy
    exact insertBy_pairwise less hasym htrans x _ ih

/-! ## Claims on the string escaper -/

/-- C4 (the code departs from the claim): the escaped form of the one-character string U+00E9
(UTF-8 bytes C3 A9) is those two bytes unchanged, and they are not ASCII; the guard of
`escapeUnicodeToBuff` writes every code point up to U+0127 literally. -/
theorem escapeStringToBuff_latin1_not_ascii :
    escapeStringToBuff [0xC3, 0xA9] [] = [0xC3, 0xA9] ∧
    ¬ (∀ b ∈ escapeStringToBuff [0xC3, 0xA9] [], b < 0x80) := by
  decide

/-- C6: for a code point `r` with U+0127 < r <= U+FFFF the escaper appends exactly the six
bytes backslash, `u` and the four uppercase hexadecimal digits of `r`; for U+FFFF < r <=
U+10FFFF it appends two such escapes, for `hi = 0xD800 + ((r - 0x10000) >> 10)` and
`lo = 0xDC00 + ((r - 0x10000) & 0x3FF)`, where `hi` lies in [0xD800, 0xDBFF], `lo` in
[0xDC00, 0xDFFF], `0x10000 + (hi - 0xD800) * 0x400 + (lo - 0xDC00) = r`, and the UTF-16
decoder maps the pair back to `r`. -/
theorem escapeUnicodeToBuff_hex_and_surrogates (buf : Bytes) (r : Nat)
    (hlo : 0x127 < r) (hhi : r ≤ 0x10FFFF) :
    (r ≤ 0xFFFF →
      escapeUnicodeToBuff buf r = buf ++ ([0x5C, 0x75] ++ hex4 r) ∧
      (([0x5C, 0x75] ++ hex4 r) : Bytes).length = 6) ∧
    (0xFFFF < r →
      escapeUnicodeToBuff buf r =
        (buf ++ ([0x5C, 0x75] ++ hex4 (0xD800 + ((r - 0x10000) >>> 10)))) ++
          ([0x5C, 0x75] ++ hex4 (0xDC00 + ((r - 0x10000) &&& 0x3FF))) ∧
      0xD800 ≤ 0xD800 + ((r - 0x10000) >>> 10) ∧ 0xD800 + ((r - 0x10000) >>> 10) ≤ 0xDBFF ∧
      0xDC00 ≤ 0xDC00 + ((r - 0x10000) &&& 0x3FF) ∧ 0xDC00 + ((r - 0x10000) &&& 0x3FF) ≤ 0xDFFF ∧
      0x10000 + (0xD800 + ((r - 0x10000) >>> 10) - 0xD800) * 0x400 +
        (0xDC00 + ((r - 0x10000) &&& 0x3FF) - 0xDC00) = r ∧
      utf16DecodeRune (0xD800 + ((r - 0x10000) >>> 10)) (some (0xDC00 + ((r - 0x10000) &&& 0x3FF))) = r) := by
  constructor
  · intro h
    refine ⟨?_, by simp [hex4]⟩
    unfold escapeUnicodeToBuff
    rw [if_neg (by omega), if_pos h, sprintfU04X_eq r h]
  · intro h
    have hx : r - 0x10000 < 0x100000 := by omega
    have e1 : ((r - 0x10000) &&& 0xFFC00) >>> 10 = (r - 0x10000) >>> 10 := and_FFC00_shift _ hx
    have e2 : (r - 0x10000) >>> 10 = (r - 0x10000) / 0x400 := by
      rw [Nat.shiftRight_eq_div_pow]
    have e3 : (r - 0x10000) &&& 0x3FF = (r - 0x10000) % 0x400 := and_3FF _
    refine ⟨?_, ?_, ?_, ?_, ?_, ?_, ?_⟩
    · unfold escapeUnicodeToBuff
      rw [if_neg (by omega), if_neg (by omega)]
      simp only []
      rw [e1, sprintfU04X_eq _ (by rw [e2]; omega), sprintfU04X_eq _ (by rw [e3]; omega)]
      rw [Nat.add_comm ((r - 0x10000) >>> 10) 0xD800, Nat.add_comm ((r - 0x10000) &&& 0x3FF) 0xDC00]
    · omega
    · rw [e2]; omega
    · omega
    · rw [e3]; omega
    · rw [e2, e3]; omega
    · unfold utf16DecodeRune
      rw [e2, e3]
      simp only []
      rw [if_pos (by omega)]
      omega

/-- Witness of C6: U+4E2D is written as `\u4E2D` and U+1F600 as `\uD83D\uDE00`. -/
theorem escapeUnicodeToBuff_hex_and_surrogates_witness :
    escapeUnicodeToBuff [] 0x4E2D = ascii "\\u4E2D" ∧
    escapeUnicodeToBuff [] 0x1F600 = ascii "\\uD83D\\uDE00" :=
  ⟨((escapeUnicodeToBuff_hex_and_surrogates [] 0x4E2D (by decide) (by decide)).1 (by decide)).1.trans
      (by decide),
   ((escapeUnicodeToBuff_hex_and_surrogates [] 0x1F600 (by decide) (by decide)).2 (by decide)).1.trans
      (by decide)⟩

/-! ## Claims on the parser -/

/-- C3 (the code departs from the claim): `Unmarshal` of the string literal `"abc"` returns the
String variant holding `abc`, and `IsString()` is false for it, as are the other five type
predicates; `Unmarshal` of `null` returns the Null variant, for which both `IsString()` and
`IsNull()` are true. `IsString` compares the type tag with `jsonparser.Null`. -/
theorem IsString_tests_for_Null {F : Type} (fl : Float64Ops F) (jp : Tokenizer) :
    (Unmarshal fl jp (ascii "\"abc\"")).map
        (fun v => (v.valueType, v.stringValue, v.IsString,
          v.IsObject, v.IsArray, v.IsNumber, v.IsBoolean, v.IsNull)) =
      .ok (.String, ascii "abc", false, false, false, false, false, false) ∧
    (Unmarshal fl jp (ascii "null")).map
        (fun v => (v.valueType, v.IsString,
          v.IsObject, v.IsArray, v.IsNumber, v.IsBoolean, v.IsNull)) =
      .ok (.Null, true, false, false, false, false, true) :=
  ⟨rfl, rfl⟩

/-- C7 (the code departs from the claim): the array `["\q"]` has one element, a string with
the malformed escape `\q`, which `parseStringNoQuote` rejects; `Unmarshal` nevertheless
succeeds and returns an Array without children. The same holds for every tokenizer that reports
one String element whose text `parseStringNoQuote` rejects. In an object the same member value
makes the parse fail, as the claim says. -/
theorem newFromArray_drops_malformed_string {F : Type} (fl : Float64Ops F) :
    parseStringNoQuote (ascii "\\q") = .error .jsonUnmarshal ∧
    jsonparserTokenizer.ArrayEach (ascii "[\"\\q\"]") = [(ascii "\\q", .String)] ∧
    (Unmarshal fl jsonparserTokenizer (ascii "[\"\\q\"]")).map
        (fun v => (v.valueType, v.arrayChildren.length)) = .ok (.Array, 0) ∧
    (∀ (jp : Tokenizer) (depth : Nat) (b s : Bytes) (e : Error),
      jp.ArrayEach b = [(s, .String)] → parseStringNoQuote s = .error e →
      newFromArray fl jp (depth + 1) b = .ok { new fl with valueType := .Array }) ∧
    (Unmarshal fl jsonparserTokenizer (ascii "\x7b\"a\":\"\\q\"\x7d")).map
        (fun v => v.valueType) = .error .jsonUnmarshal := by
  refine ⟨by decide, by decide, rfl, ?_, rfl⟩
  intro jp depth b s e hb hs
  simp [newFromArray, hb, arrayCallback, hs]

/-! ## Claims on the array sort -/

/-- C9: for an Array node and a strict-less comparator (asymmetric, and with a transitive
complement, which is what a strict weak order is), the children after `SortArray` are a
permutation of the children before and no child is less than a child placed before it; the
array `[0,1,...,9]` sorted with `v1.Int() > v2.Int()` marshals to `[9,8,7,6,5,4,3,2,1,0]`. -/
theorem SortArray_perm_sorted {F : Type} (fl : Float64Ops F) (v : V F) (less : V F → V F → Bool)
    (hv : v.IsArray = true)
    (hasym : ∀ a b, less a b = true → less b a = false)
    (htrans : ∀ a b c, less a b = false → less b c = false → less a c = false) :
    (SortArray v (some less)).arrayChildren.Perm v.arrayChildren ∧
    (SortArray v (some less)).arrayChildren.Pairwise (fun a b => less b a = false) ∧
    Marshal (SortArray (testSortArrayInput fl) (some lessFuncDescending)) noOpt =
      some (ascii "[9,8,7,6,5,4,3,2,1,0]") := by
  have e : (SortArray v (some less)).arrayChildren = sortBy less v.arrayChildren := by
    simp [SortArray, hv]
  rw [e]
  exact ⟨sortBy_perm less _, sortBy_pairwise less hasym htrans _, rfl⟩

/-- Witness of C9: the array of `testSortArray` with its descending comparator. -/
theorem SortArray_perm_sorted_witness :
    (SortArray (testSortArrayInput decimalFloat) (some lessFuncDescending)).arrayChildren.Perm
      (testSortArrayInput decimalFloat).arrayChildren ∧
    (SortArray (testSortArrayInput decimalFloat) (some lessFuncDescending)).arrayChildren.Pairwise
      (fun a b => lessFuncDescending b a = false) ∧
    Marshal (SortArray (testSortArrayInput decimalFloat) (some lessFuncDescending)) noOpt =
      some (ascii "[9,8,7,6,5,4,3,2,1,0]") :=
  SortArray_perm_sorted decimalFloat (testSortArrayInput decimalFloat) lessFuncDescending rfl
    (by intro a b h; simp only [lessFuncDescending, decide_eq_true_eq, decide_eq_false_iff_not] at *; omega)
    (by intro a b c h1 h2; simp only [lessFuncDescending, decide_eq_false_iff_not] at *; omega)

/-- C10: `SortArray` on a node that is not an Array (with any comparator), or with a nil
comparator (on any node), returns the node exactly as it was; being a total function it does
not fail. -/
theorem SortArray_noop {F : Type} (v : V F) (lessFunc : Option (V F → V F → Bool))
    (h : v.IsArray = false ∨ lessFunc = none) : SortArray v lessFunc = v := by
  unfold SortArray
  rcases h with h | h
  · simp [h]
  · subst h
    split <;> rfl

/-- Witness of C10: the two calls of `testSortArrayError`, `NewInt(1).SortArray(f)` with a
comparator and `NewArray().SortArray(nil)`. -/
theorem SortArray_noop_witness :
    SortArray (NewInt decimalFloat 1) (some (fun _ _ => false)) = NewInt decimalFloat 1 ∧
    SortArray (NewArray decimalFloat) none = NewArray decimalFloat :=
  ⟨SortArray_noop _ _ (Or.inl rfl), SortArray_noop _ _ (Or.inr rfl)⟩

/-! ## strconv on decimal digits -/

theorem foldl_digits_ge (ds : Bytes) (n : Nat) :
    n ≤ ds.foldl (fun n c => n * 10 + (c - 0x30)) n := by
  induction ds generalizing n with
  | nil => exact Nat.le_refl _
  | cons c cs ih =>
    simp only [List.foldl_cons]
    exact Nat.le_trans (by omega) (ih _)

theorem parseUintLoop_ok (ds : Bytes) (n : Nat) (hd : ds.all isDigit = true)
    (hv : ds.foldl (fun n c => n * 10 + (c - 0x30)) n ≤ maxUint64) :
    parseUintLoop ds n = (ds.foldl (fun n c => n * 10 + (c - 0x30)) n, none) := by
  induction ds generalizing n with
  | nil => rfl
  | cons c cs ih =>
    simp only [List.all_cons, Bool.and_eq_true] at hd
    simp only [List.foldl_cons] at hv ⊢
    have hge := foldl_digits_ge cs (n * 10 + (c - 0x30))
    have hc : (decide (0x30 ≤ c) && decide (c ≤ 0x39)) = true := by
      simpa [isDigit] using hd.1
    have hm : maxUint64 = 18446744073709551615 := by decide
    unfold parseUintLoop
    rw [if_pos hc, if_neg (by rw [hm] at hv ⊢; omega)]
    simp only []
    rw [if_neg (by omega)]
    exact ih _ hd.2 hv

theorem parseUintLoop_range (ds : Bytes) (n : Nat) (hd : ds.all isDigit = true)
    (hv : maxUint64 < ds.foldl (fun n c => n * 10 + (c - 0x30)) n) (hn : n ≤ maxUint64) :
    parseUintLoop ds n = (maxUint64, some .strconvRange) := by
  induction ds generalizing n with
  | nil => simp only [List.foldl_nil] at hv; omega
  | cons c cs ih =>
    simp only [List.all_cons, Bool.and_eq_true] at hd
    simp only [List.foldl_cons] at hv
    have hc : (decide (0x30 ≤ c) && decide (c ≤ 0x39)) = true := by
      simpa [isDigit] using hd.1
    unfold parseUintLoop
    rw [if_pos hc]
    by_cases h1 : n ≥ maxUint64 / 10 + 1
    · rw [if_pos h1]
    · rw [if_neg h1]
      simp only []
      by_cases h2 : n * 10 + (c - 0x30) > maxUint64
      · rw [if_pos h2]
      · rw [if_neg h2]
        exact ih _ hd.2 hv (by omega)

theorem ParseUint_ok (ds : Bytes) (hne : ds ≠ []) (hd : ds.all isDigit = true)
    (hv : decimalValue ds ≤ maxUint64) : ParseUint ds = (decimalValue ds, none) := by
  unfold ParseUint
  rw [if_neg hne]
  exact parseUintLoop_ok ds 0 hd hv

theorem ParseUint_range (ds : Bytes) (hne : ds ≠ []) (hd : ds.all isDigit = true)
    (hv : maxUint64 < decimalValue ds) : ParseUint ds = (maxUint64, some .strconvRange) := by
  unfold ParseUint
  rw [if_neg hne]
  exact parseUintLoop_range ds 0 hd hv (Nat.zero_le _)

theorem ParseInt_neg_ok (ds : Bytes) (hne : ds ≠ []) (hd : ds.all isDigit = true)
    (hv : decimalValue ds ≤ 2 ^ 63) : ParseInt (0x2D :: ds) = (-(decimalValue ds : ℤ), none) := by
  have hm : maxUint64 = 18446744073709551615 := by decide
  have hu := ParseUint_ok ds hne hd (by rw [hm]; omega)
  simp only [ParseInt]
  simp [hu]
  omega

theorem not_mem_of_all_isDigit (ds : Bytes) (c : Nat) (hc : isDigit c = false)
    (hd : ds.all isDigit = true) : c ∉ ds := by
  intro h
  have := (List.all_eq_true.mp hd) c h
  rw [hc] at this
  exact Bool.noConfusion this

/-! ## Claim C1 -/

theorem unmarshalLoop_number {F : Type} (fl : Float64Ops F) (jp : Tokenizer) (depth : Nat)
    (c : Nat) (cs : Bytes) (hc : isDigit c = true ∨ c = 0x2D) :
    unmarshalLoop fl jp depth (c :: cs) = newFromNumber fl (c :: cs) := by
  have hc' : (0x30 ≤ c ∧ c ≤ 0x39) ∨ c = 0x2D := by
    rcases hc with h | h
    · left; simpa [isDigit] using h
    · right; exact h
  unfold unmarshalLoop
  rw [if_neg (by omega), if_neg (by omega), if_neg (by omega), if_pos hc']

theorem Unmarshal_number {F : Type} (fl : Float64Ops F) (jp : Tokenizer)
    (c : Nat) (cs : Bytes) (hc : isDigit c = true ∨ c = 0x2D) :
    Unmarshal fl jp (c :: cs) = newFromNumber fl (c :: cs) := by
  unfold Unmarshal
  rw [if_neg (by simp)]
  exact unmarshalLoop_number fl jp _ c cs hc

/-- C1 (as amended): for a number literal that is a decimal integer within the 64-bit range (a
minus sign and digits of magnitude at most 2^63, or digits of value below 2^64), or that
contains a decimal point and is accepted by `strconv.ParseFloat`, `Unmarshal` succeeds, the
result is a Number, and `String()` returns the literal byte for byte. -/
theorem Unmarshal_number_String_verbatim {F : Type} (fl : Float64Ops F) (jp : Tokenizer)
    (lit : Bytes) (h : IntegerLiteralInRange lit ∨ FloatLiteralAccepted fl lit) :
    ∃ v, Unmarshal fl jp lit = .ok v ∧ v.IsNumber = true ∧ v.String = lit := by
  rcases h with (⟨ds, rfl, hne, hd, hv⟩ | ⟨hne, hd, hv⟩) | ⟨hdot, ⟨c, cs, rfl, hc⟩, f, hf⟩
  · rw [Unmarshal_number fl jp _ _ (Or.inr rfl)]
    have hnodot : (0x2E : Nat) ∉ (0x2D :: ds : Bytes) := by
      intro h
      rcases List.mem_cons.mp h with h | h
      · omega
      · exact not_mem_of_all_isDigit ds 0x2E (by decide) hd h
    have hp := ParseInt_neg_ok ds hne hd hv
    simp only [newFromNumber, if_neg hnodot, parseInt, hp, if_true]
    exact ⟨_, rfl, rfl, rfl⟩
  · obtain ⟨c, cs, rfl⟩ := List.exists_cons_of_ne_nil hne
    have hcd : isDigit c = true := by
      simp only [List.all_cons, Bool.and_eq_true] at hd
      exact hd.1
    rw [Unmarshal_number fl jp _ _ (Or.inl hcd)]
    have hnodot : (0x2E : Nat) ∉ (c :: cs : Bytes) :=
      not_mem_of_all_isDigit _ 0x2E (by decide) hd
    have hm : maxUint64 = 18446744073709551615 := by decide
    have hp := ParseUint_ok (c :: cs) hne hd (by rw [hm]; omega)
    have hcm : ¬ (0x2D = c) := by
      simp only [isDigit, Bool.and_eq_true, decide_eq_true_eq] at hcd
      omega
    simp only [newFromNumber, if_neg hnodot, if_neg hcm, parseUint, hp]
    exact ⟨_, rfl, rfl, rfl⟩
  · rw [Unmarshal_number fl jp _ _ hc]
    simp only [newFromNumber, if_pos hdot, parseFloat, hf]
    exact ⟨_, rfl, rfl, rfl⟩

/-- Witness of C1: the literals `-12`, `12` and `-1.5`. -/
theorem Unmarshal_number_String_verbatim_witness :
    (∃ v, Unmarshal decimalFloat jsonparserTokenizer (ascii "-12") = .ok v ∧
      v.IsNumber = true ∧ v.String = ascii "-12") ∧
    (∃ v, Unmarshal decimalFloat jsonparserTokenizer (ascii "12") = .ok v ∧
      v.IsNumber = true ∧ v.String = ascii "12") ∧
    (∃ v, Unmarshal decimalFloat jsonparserTokenizer (ascii "-1.5") = .ok v ∧
      v.IsNumber = true ∧ v.String = ascii "-1.5") :=
  ⟨Unmarshal_number_String_verbatim decimalFloat jsonparserTokenizer (ascii "-12")
      (Or.inl (Or.inl ⟨ascii "12", rfl, by decide, by decide, by decide⟩)),
   Unmarshal_number_String_verbatim decimalFloat jsonparserTokenizer (ascii "12")
      (Or.inl (Or.inr ⟨by decide, by decide, by decide⟩)),
   Unmarshal_number_String_verbatim decimalFloat jsonparserTokenizer (ascii "-1.5")
      (Or.inr ⟨by decide, ⟨0x2D, ascii "1.5", rfl, Or.inr rfl⟩, _, rfl⟩)⟩

/-- Counterexample to C1 as stated: `1e5` and `18446744073709551616` are valid JSON number
literals, and `Unmarshal` rejects the first with a syntax error (no decimal point, so it goes to
`ParseUint`) and the second with a range error. -/
theorem Unmarshal_rejects_valid_number_literals :
    isJSONNumber (ascii "1e5") = true ∧
    Unmarshal decimalFloat jsonparserTokenizer (ascii "1e5") = .error .strconvSyntax ∧
    isJSONNumber (ascii "18446744073709551616") = true ∧
    Unmarshal decimalFloat jsonparserTokenizer (ascii "18446744073709551616") =
      .error .strconvRange :=
  ⟨by decide, rfl, by decide, rfl⟩

/-! ## UTF-8 -/

theorem EncodeRune_ne_nil (r : Nat) : EncodeRune r ≠ [] := by
  simp only [EncodeRune]
  split_ifs <;> simp

theorem EncodeRune_length_pos (r : Nat) : 0 < (EncodeRune r).length :=
  List.length_pos.mpr (EncodeRune_ne_nil r)

theorem DecodeRune_EncodeRune (r : Nat) (rest : Bytes) (hr : isScalarValue r = true) :
    DecodeRune (EncodeRune r ++ rest) = (r, (EncodeRune r).length) := by
  have hr' : r < 0xD800 ∨ (0xE000 ≤ r ∧ r ≤ 0x10FFFF) := by
    simpa [isScalarValue] using hr
  by_cases h1 : r ≤ 0x7F
  · have e : EncodeRune r = [r] := by simp [EncodeRune, h1]
    rw [e]
    simp only [List.singleton_append, DecodeRune, List.length_singleton]
    rw [if_pos (by omega)]
  · by_cases h2 : r ≤ 0x7FF
    · have e : EncodeRune r = [0xC0 + r / 0x40, 0x80 + r % 0x40] := by
        simp [EncodeRune, h1, h2]
      rw [e]
      simp only [List.cons_append, List.nil_append, DecodeRune, decodeRune2, List.length_cons,
        List.length_nil, isCont]
      rw [if_neg (by omega), if_neg (by omega), if_pos (by omega)]
      have hc : (decide (0x80 ≤ 0x80 + r % 0x40) && decide (0x80 + r % 0x40 ≤ 0xBF)) = true := by
        simp only [Bool.and_eq_true, decide_eq_true_eq]; omega
      rw [if_pos hc]
      congr 1
      omega
    · have hns : ¬ (r > 0x10FFFF ∨ (0xD800 ≤ r ∧ r ≤ 0xDFFF)) := by omega
      by_cases h3 : r ≤ 0xFFFF
      · have e : EncodeRune r = [0xE0 + r / 0x1000, 0x80 + r / 0x40 % 0x40, 0x80 + r % 0x40] := by
          simp only [EncodeRune, if_neg h1, if_neg h2]
          simp [hns, h3]
        rw [e]
        simp only [List.cons_append, List.nil_append, DecodeRune, decodeRune3, List.length_cons,
          List.length_nil, isCont]
        rw [if_neg (by omega), if_neg (by omega), if_neg (by omega), if_pos (by omega)]
        have hc1 : (if 0xE0 + r / 0x1000 = 0xE0 then 0xA0 else 0x80) ≤ 0x80 + r / 0x40 % 0x40 ∧
            0x80 + r / 0x40 % 0x40 ≤ (if 0xE0 + r / 0x1000 = 0xED then 0x9F else 0xBF) := by
          constructor
          · split <;> omega
          · split <;> omega
        have hc2 : (decide (0x80 ≤ 0x80 + r % 0x40) && decide (0x80 + r % 0x40 ≤ 0xBF)) = true := by
          simp only [Bool.and_eq_true, decide_eq_true_eq]; omega
        rw [if_pos hc1, if_pos hc2]
        congr 1
        omega
      · have e : EncodeRune r = [0xF0 + r / 0x40000, 0x80 + r / 0x1000 % 0x40,
            0x80 + r / 0x40 % 0x40, 0x80 + r % 0x40] := by
          simp only [EncodeRune, if_neg h1, if_neg h2]
          simp [hns, h3]
        rw [e]
        simp only [List.cons_append, List.nil_append, DecodeRune, decodeRune4, List.length_cons,
          List.length_nil, isCont]
        rw [if_neg (by omega), if_neg (by omega), if_neg (by omega), if_neg (by omega),
          if_pos (by omega)]
        have hc1 : (if 0xF0 + r / 0x40000 = 0xF0 then 0x90 else 0x80) ≤ 0x80 + r / 0x1000 % 0x40 ∧
            0x80 + r / 0x1000 % 0x40 ≤ (if 0xF0 + r / 0x40000 = 0xF4 then 0x8F else 0xBF) := by
          constructor
          · split <;> omega
          · split <;> omega
        have hc2 : (decide (0x80 ≤ 0x80 + r / 0x40 % 0x40) && decide (0x80 + r / 0x40 % 0x40 ≤ 0xBF)) = true := by
          simp only [Bool.and_eq_true, decide_eq_true_eq]; omega
        have hc3 : (decide (0x80 ≤ 0x80 + r % 0x40) && decide (0x80 + r % 0x40 ≤ 0xBF)) = true := by
          simp only [Bool.and_eq_true, decide_eq_true_eq]; omega
        rw [if_pos hc1, if_pos hc2, if_pos hc3]
        congr 1
        omega

theorem rangeRunes_utf8 (cps : List Nat) (hs : ∀ r ∈ cps, isScalarValue r = true)
    (fuel : Nat) (hf : (utf8 cps).length ≤ fuel) : rangeRunes fuel (utf8 cps) = cps := by
  induction cps generalizing fuel with
  | nil =>
    cases fuel <;> rfl
  | cons r cps ih =>
    have hr := hs r (List.mem_cons_self _ _)
    have hs' : ∀ x ∈ cps, isScalarValue x = true := fun x hx => hs x (List.mem_cons_of_mem _ hx)
    have e : utf8 (r :: cps) = EncodeRune r ++ utf8 cps := by simp [utf8]
    rw [e] at hf ⊢
    have hpos := EncodeRune_length_pos r
    obtain ⟨c, cs, hcs⟩ := List.exists_cons_of_ne_nil (EncodeRune_ne_nil r)
    obtain ⟨f, rfl⟩ : ∃ f, fuel = f + 1 := ⟨fuel - 1, by rw [List.length_append] at hf; omega⟩
    have hd := DecodeRune_EncodeRune r (utf8 cps) hr
    rw [hcs] at hd hf ⊢
    rw [List.cons_append] at hd hf ⊢
    unfold rangeRunes
    simp only [hd]
    rw [← List.cons_append, List.drop_left]
    rw [ih hs' f (by simp only [List.length_cons, List.length_append] at hf; omega)]

theorem runes_utf8 (cps : List Nat) (hs : ∀ r ∈ cps, isScalarValue r = true) :
    runes (utf8 cps) = cps :=
  rangeRunes_utf8 cps hs _ (Nat.le_refl _)

/-! ## The escaper writes rune by rune -/

theorem escapeUnicodeToBuff_low (buf : Bytes) (r : Nat) (h1 : r ≤ 0x127) :
    escapeUnicodeToBuff buf r = buf ++ EncodeRune r := by
  unfold escapeUnicodeToBuff
  rw [if_pos h1]

theorem escapeUnicodeToBuff_bmp (buf : Bytes) (r : Nat) (h1 : ¬ r ≤ 0x127) (h2 : r ≤ 0xFFFF) :
    escapeUnicodeToBuff buf r = buf ++ sprintfU04X r := by
  unfold escapeUnicodeToBuff
  rw [if_neg h1, if_pos h2]

theorem escapeUnicodeToBuff_high (buf : Bytes) (r : Nat) (h1 : ¬ r ≤ 0x127) (h2 : ¬ r ≤ 0xFFFF) :
    escapeUnicodeToBuff buf r =
      (buf ++ sprintfU04X ((((r - 0x10000) &&& 0xFFC00) >>> 10) + 0xD800)) ++
        sprintfU04X (((r - 0x10000) &&& 0x003FF) + 0xDC00) := by
  unfold escapeUnicodeToBuff
  rw [if_neg h1, if_neg h2]

theorem escapeUnicodeToBuff_append (buf : Bytes) (r : Nat) :
    escapeUnicodeToBuff buf r = buf ++ escapeUnicodeToBuff [] r := by
  by_cases h1 : r ≤ 0x127
  · rw [escapeUnicodeToBuff_low _ _ h1, escapeUnicodeToBuff_low _ _ h1, List.nil_append]
  · by_cases h2 : r ≤ 0xFFFF
    · rw [escapeUnicodeToBuff_bmp _ _ h1 h2, escapeUnicodeToBuff_bmp _ _ h1 h2, List.nil_append]
    · rw [escapeUnicodeToBuff_high _ _ h1 h2, escapeUnicodeToBuff_high _ _ h1 h2,
        List.nil_append, List.append_assoc]

theorem ite_append_left {c : Prop} [Decidable c] (buf a x y : Bytes) (h : x = buf ++ y) :
    (if c then buf ++ a else x) = buf ++ (if c then [] ++ a else y) := by
  by_cases hc : c
  · rw [if_pos hc, if_pos hc, List.nil_append]
  · rw [if_neg hc, if_neg hc, h]

theorem escapeRuneToBuff_append (buf : Bytes) (r : Nat) :
    escapeRuneToBuff buf r = buf ++ escapeRuneToBuff [] r := by
  unfold escapeRuneToBuff
  iterate 12 refine ite_append_left _ _ _ _ ?_
  exact escapeUnicodeToBuff_append buf r

theorem foldl_escapeRuneToBuff (rs : List Nat) (buf : Bytes) :
    rs.foldl escapeRuneToBuff buf = buf ++ rs.flatMap (escapeRuneToBuff []) := by
  induction rs generalizing buf with
  | nil => simp
  | cons r rs ih =>
    rw [List.foldl_cons, ih, escapeRuneToBuff_append, List.flatMap_cons, List.append_assoc]

theorem escapeStringToBuff_eq (s buf : Bytes) :
    escapeStringToBuff s buf = buf ++ (runes s).flatMap (escapeRuneToBuff []) :=
  foldl_escapeRuneToBuff _ _

theorem escapeStringToBuff_utf8 (cps : List Nat) (hs : ∀ r ∈ cps, isScalarValue r = true)
    (buf : Bytes) :
    escapeStringToBuff (utf8 cps) buf = buf ++ cps.flatMap (escapeRuneToBuff []) := by
  rw [escapeStringToBuff_eq, runes_utf8 cps hs]

theorem escapeStringToBuff_single (r : Nat) (hr : isScalarValue r = true) :
    escapeStringToBuff (EncodeRune r) [] = escapeRuneToBuff [] r := by
  have := escapeStringToBuff_utf8 [r] (by simpa using hr) []
  simpa [utf8] using this

/-- C5: the one-character strings `<`, `>`, `&`, `%`, `/`, `"` and `\` are escaped to
`\u003C`, `\u003E`, `\u0026`, `\u0025`, `\/`, `\"` and `\\`; backspace, form feed, tab,
newline and carriage return to `\b`, `\f`, `\t`, `\n` and `\r`; and the escaped form of a
string of code points is the concatenation, in order, of the escaped forms of its
one-code-point strings (written after whatever the buffer already holds). -/
theorem escapeStringToBuff_table_and_concat (cps : List Nat) (buf : Bytes)
    (hs : ∀ r ∈ cps, isScalarValue r = true) :
    escapeStringToBuff (ascii "<") [] = ascii "\\u003C" ∧
    escapeStringToBuff (ascii ">") [] = ascii "\\u003E" ∧
    escapeStringToBuff (ascii "&") [] = ascii "\\u0026" ∧
    escapeStringToBuff (ascii "%") [] = ascii "\\u0025" ∧
    escapeStringToBuff (ascii "/") [] = ascii "\\/" ∧
    escapeStringToBuff (ascii "\"") [] = ascii "\\\"" ∧
    escapeStringToBuff (ascii "\\") [] = ascii "\\\\" ∧
    escapeStringToBuff [0x08] [] = ascii "\\b" ∧
    escapeStringToBuff [0x0C] [] = ascii "\\f" ∧
    escapeStringToBuff [0x09] [] = ascii "\\t" ∧
    escapeStringToBuff [0x0A] [] = ascii "\\n" ∧
    escapeStringToBuff [0x0D] [] = ascii "\\r" ∧
    escapeStringToBuff (utf8 cps) buf =
      buf ++ cps.flatMap (fun r => escapeStringToBuff (utf8 [r]) []) := by
  refine ⟨by decide, by decide, by decide, by decide, by decide, by decide, by decide,
    by decide, by decide, by decide, by decide, by decide, ?_⟩
  rw [escapeStringToBuff_utf8 cps hs]
  congr 1
  apply List.flatMap_congr
  intro r hr
  have := escapeStringToBuff_single r (hs r hr)
  simpa [utf8] using this.symm

/-- Witness of C5: the string `a<é` followed by U+1F600, written after `x`. -/
theorem escapeStringToBuff_table_and_concat_witness :
    escapeStringToBuff (utf8 [0x61, 0x3C, 0xE9, 0x1F600]) (ascii "x") =
      ascii "x" ++ [0x61, 0x3C, 0xE9, 0x1F600].flatMap (fun r => escapeStringToBuff (utf8 [r]) []) :=
  (escapeStringToBuff_table_and_concat [0x61, 0x3C, 0xE9, 0x1F600] (ascii "x") (by decide)).2.2.2.2.2.2.2.2.2.2.2.2

/-! ## The depth bound does not change a successful parse -/

theorem arrayCallback_err {F : Type} (fl : Float64Ops F)
    (fO fA : Bytes → Except Error (V F)) (st : ArrayState F) (v : Bytes) (t : ValueType)
    (h : st.err ≠ none) : arrayCallback fl fO fA st v t = st := by
  unfold arrayCallback
  rw [if_pos h]

theorem foldl_arrayCallback_err {F : Type} (fl : Float64Ops F)
    (fO fA : Bytes → Except Error (V F)) (l : List (Bytes × ValueType)) (st : ArrayState F)
    (h : st.err ≠ none) :
    l.foldl (fun st vt => arrayCallback fl fO fA st vt.1 vt.2) st = st := by
  induction l with
  | nil => rfl
  | cons x xs ih =>
    rw [List.foldl_cons, arrayCallback_err fl fO fA st x.1 x.2 h]
    exact ih

theorem arrayCallback_mono {F : Type} (fl : Float64Ops F)
    (fO fA gO gA : Bytes → Except Error (V F))
    (hO : ∀ b v, fO b = .ok v → gO b = .ok v) (hA : ∀ b v, fA b = .ok v → gA b = .ok v)
    (st : ArrayState F) (v : Bytes) (t : ValueType)
    (h : (arrayCallback fl fO fA st v t).err = none) :
    arrayCallback fl gO gA st v t = arrayCallback fl fO fA st v t := by
  by_cases hst : st.err ≠ none
  · rw [arrayCallback_err fl gO gA st v t hst, arrayCallback_err fl fO fA st v t hst]
  · simp only [arrayCallback, if_neg hst] at h ⊢
    cases t with
    | Object =>
      simp only [] at h ⊢
      cases hf : fO v with
      | error e => rw [hf] at h; simp at h
      | ok c => rw [hO v c hf]
    | Array =>
      simp only [] at h ⊢
      cases hf : fA v with
      | error e => rw [hf] at h; simp at h
      | ok c => rw [hA v c hf]
    | _ => rfl

theorem foldl_arrayCallback_mono {F : Type} (fl : Float64Ops F)
    (fO fA gO gA : Bytes → Except Error (V F))
    (hO : ∀ b v, fO b = .ok v → gO b = .ok v) (hA : ∀ b v, fA b = .ok v → gA b = .ok v)
    (l : List (Bytes × ValueType)) (st : ArrayState F)
    (h : (l.foldl (fun st vt => arrayCallback fl fO fA st vt.1 vt.2) st).err = none) :
    l.foldl (fun st vt => arrayCallback fl gO gA st vt.1 vt.2) st =
      l.foldl (fun st vt => arrayCallback fl fO fA st vt.1 vt.2) st := by
  induction l generalizing st with
  | nil => rfl
  | cons x xs ih =>
    rw [List.foldl_cons] at h
    rw [List.foldl_cons, List.foldl_cons]
    have hx : (arrayCallback fl fO fA st x.1 x.2).err = none := by
      by_contra hne
      rw [foldl_arrayCallback_err fl fO fA xs _ hne] at h
      exact hne h
    rw [arrayCallback_mono fl fO fA gO gA hO hA st x.1 x.2 hx]
    exact ih _ h

theorem objectCallback_mono {F : Type} (fl : Float64Ops F)
    (fO fA gO gA : Bytes → Except Error (V F))
    (hO : ∀ b v, fO b = .ok v → gO b = .ok v) (hA : ∀ b v, fA b = .ok v → gA b = .ok v)
    (o : V F) (k v : Bytes) (t : ValueType) (o1 : V F)
    (h : objectCallback fl fO fA o k v t = .ok o1) :
    objectCallback fl gO gA o k v t = .ok o1 := by
  unfold objectCallback at h ⊢
  cases hk : parseStringNoQuote k with
  | error e => rw [hk] at h; simp at h
  | ok key =>
    rw [hk] at h
    simp only [] at h ⊢
    cases t with
    | Object =>
      simp only [] at h ⊢
      cases hf : fO v with
      | error e => rw [hf] at h; simp at h
      | ok c => rw [hf] at h; rw [hO v c hf]; exact h
    | Array =>
      simp only [] at h ⊢
      cases hf : fA v with
      | error e => rw [hf] at h; simp at h
      | ok c => rw [hf] at h; rw [hA v c hf]; exact h
    | _ => exact h

theorem objectEachLoop_mono {F : Type}
    (cbF cbG : V F → Bytes → Bytes → ValueType → Except Error (V F))
    (hcb : ∀ o k v t o1, cbF o k v t = .ok o1 → cbG o k v t = .ok o1)
    (l : List (Bytes × Bytes × ValueType)) (o o1 : V F)
    (h : objectEachLoop cbF l o = .ok o1) : objectEachLoop cbG l o = .ok o1 := by
  induction l generalizing o with
  | nil => exact h
  | cons x xs ih =>
    obtain ⟨k, v, t⟩ := x
    unfold objectEachLoop at h ⊢
    cases hc : cbF o k v t with
    | error e => rw [hc] at h; simp at h
    | ok o2 =>
      rw [hc] at h
      rw [hcb o k v t o2 hc]
      exact ih o2 h

theorem newFrom_depth_succ {F : Type} (fl : Float64Ops F) (jp : Tokenizer) (depth : Nat) :
    (∀ b v, newFromObject fl jp depth b = .ok v → newFromObject fl jp (depth + 1) b = .ok v) ∧
    (∀ b v, newFromArray fl jp depth b = .ok v → newFromArray fl jp (depth + 1) b = .ok v) := by
  induction depth with
  | zero =>
    constructor
    · intro b v h; simp [newFromObject] at h
    · intro b v h; simp [newFromArray] at h
  | succ d ih =>
    constructor
    · intro b v h
      rw [newFromObject] at h ⊢
      simp only [] at h ⊢
      cases hl : objectEachLoop (objectCallback fl (newFromObject fl jp d) (newFromArray fl jp d))
          (jp.ObjectEach b).1 { new fl with valueType := .Object } with
      | error e => rw [hl] at h; simp at h
      | ok o1 =>
        rw [hl] at h
        rw [objectEachLoop_mono _ _
          (objectCallback_mono fl _ _ _ _ ih.1 ih.2) _ _ _ hl]
        exact h
    · intro b v h
      rw [newFromArray] at h ⊢
      simp only [] at h ⊢
      have hn : ((jp.ArrayEach b).foldl
          (fun st vt => arrayCallback fl (newFromObject fl jp d) (newFromArray fl jp d) st vt.1 vt.2)
          { o := { new fl with valueType := .Array }, err := none }).err = none := by
        cases he : ((jp.ArrayEach b).foldl
          (fun st vt => arrayCallback fl (newFromObject fl jp d) (newFromArray fl jp d) st vt.1 vt.2)
          { o := { new fl with valueType := .Array }, err := none }).err with
        | none => rfl
        | some e => rw [he] at h; simp at h
      rw [foldl_arrayCallback_mono fl _ _ _ _ ih.1 ih.2 _ _ hn]
      exact h

theorem newFromObject_depth_le {F : Type} (fl : Float64Ops F) (jp : Tokenizer) (d k : Nat)
    (b : Bytes) (v : V F) (h : newFromObject fl jp d b = .ok v) :
    newFromObject fl jp (d + k) b = .ok v := by
  induction k with
  | zero => exact h
  | succ k ih => exact (newFrom_depth_succ fl jp (d + k)).1 b v ih

theorem newFromArray_depth_le {F : Type} (fl : Float64Ops F) (jp : Tokenizer) (d k : Nat)
    (b : Bytes) (v : V F) (h : newFromArray fl jp d b = .ok v) :
    newFromArray fl jp (d + k) b = .ok v := by
  induction k with
  | zero => exact h
  | succ k ih => exact (newFrom_depth_succ fl jp (d + k)).2 b v ih

theorem unmarshalLoop_depth_le {F : Type} (fl : Float64Ops F) (jp : Tokenizer) (d k : Nat)
    (b : Bytes) (v : V F) (h : unmarshalLoop fl jp d b = .ok v) :
    unmarshalLoop fl jp (d + k) b = .ok v := by
  induction b with
  | nil => simp [unmarshalLoop] at h
  | cons c cs ih =>
    unfold unmarshalLoop at h ⊢
    by_cases h1 : c = 0x20 ∨ c = 0x0D ∨ c = 0x0A ∨ c = 0x09
    · rw [if_pos h1] at h ⊢
      exact ih h
    · rw [if_neg h1] at h ⊢
      by_cases h2 : c = 0x7B
      · rw [if_pos h2] at h ⊢
        exact newFromObject_depth_le fl jp d k _ v h
      · rw [if_neg h2] at h ⊢
        by_cases h3 : c = 0x5B
        · rw [if_pos h3] at h ⊢
          exact newFromArray_depth_le fl jp d k _ v h
        · rw [if_neg h3] at h ⊢
          exact h

theorem unmarshalLoop_skip_space {F : Type} (fl : Float64Ops F) (jp : Tokenizer) (d : Nat)
    (w b : Bytes) (hw : w.all isSpace = true) :
    unmarshalLoop fl jp d (w ++ b) = unmarshalLoop fl jp d b := by
  induction w with
  | nil => rfl
  | cons c cs ih =>
    simp only [List.all_cons, Bool.and_eq_true] at hw
    have hc : c = 0x20 ∨ c = 0x0D ∨ c = 0x0A ∨ c = 0x09 := by
      have := hw.1
      simp only [isSpace, Bool.or_eq_true, beq_iff_eq] at this
      omega
    rw [List.cons_append, unmarshalLoop, if_pos hc]
    exact ih hw.2

theorem unmarshalLoop_dropWhile {F : Type} (fl : Float64Ops F) (jp : Tokenizer) (d : Nat)
    (b : Bytes) :
    unmarshalLoop fl jp d b = unmarshalLoop fl jp d (b.dropWhile isSpace) := by
  induction b with
  | nil => rfl
  | cons c cs ih =>
    by_cases hc : isSpace c = true
    · have hc' : c = 0x20 ∨ c = 0x0D ∨ c = 0x0A ∨ c = 0x09 := by
        simp only [isSpace, Bool.or_eq_true, beq_iff_eq] at hc
        omega
      rw [List.dropWhile_cons_of_pos hc, unmarshalLoop, if_pos hc']
      exact ih
    · rw [List.dropWhile_cons_of_neg hc]

/-! ## White space after a string literal -/

theorem isSpace_cases (c : Nat) (h : isSpace c = true) :
    c = 0x20 ∨ c = 0x09 ∨ c = 0x0D ∨ c = 0x0A := by
  simp only [isSpace, Bool.or_eq_true, beq_iff_eq] at h
  omega

theorem isSpace_lt (c : Nat) (h : isSpace c = true) : c < 0x80 := by
  rcases isSpace_cases c h with h | h | h | h <;> omega

theorem hexVal_space (c : Nat) (h : isSpace c = true) : hexVal c = none := by
  rcases isSpace_cases c h with h | h | h | h <;> subst h <;> decide

theorem isCont_of_lt (c : Nat) (h : c < 0x80) : isCont c = false := by
  simp only [isCont, Bool.and_eq_false_imp, decide_eq_true_eq, decide_eq_false_iff_not]
  omega

theorem decodeRune2_size (p0 : Nat) (rest : Bytes) :
    (decodeRune2 p0 rest).2 ≤ rest.length + 1 ∧ 0 < (decodeRune2 p0 rest).2 := by
  rcases rest with _ | ⟨b1, rest⟩ <;> simp only [decodeRune2]
  · simp
  · split_ifs <;> simp

theorem decodeRune3_size (p0 : Nat) (rest : Bytes) :
    (decodeRune3 p0 rest).2 ≤ rest.length + 1 ∧ 0 < (decodeRune3 p0 rest).2 := by
  rcases rest with _ | ⟨b1, _ | ⟨b2, rest⟩⟩ <;> simp only [decodeRune3]
  · simp
  · simp
  · split_ifs <;> simp

theorem decodeRune4_size (p0 : Nat) (rest : Bytes) :
    (decodeRune4 p0 rest).2 ≤ rest.length + 1 ∧ 0 < (decodeRune4 p0 rest).2 := by
  rcases rest with _ | ⟨b1, _ | ⟨b2, _ | ⟨b3, rest⟩⟩⟩ <;> simp only [decodeRune4]
  · simp
  · simp
  · simp
  · split_ifs <;> simp

theorem DecodeRune_size_le (p : Bytes) : (DecodeRune p).2 ≤ p.length := by
  rcases p with _ | ⟨p0, rest⟩
  · simp [DecodeRune]
  · simp only [DecodeRune, List.length_cons]
    split_ifs
    · simp
    · simp
    · exact (decodeRune2_size p0 rest).1
    · exact (decodeRune3_size p0 rest).1
    · exact (decodeRune4_size p0 rest).1
    · simp

theorem DecodeRune_size_pos (p : Bytes) (hp : p ≠ []) : 0 < (DecodeRune p).2 := by
  rcases p with _ | ⟨p0, rest⟩
  · exact absurd rfl hp
  · simp only [DecodeRune]
    split_ifs
    · simp
    · simp
    · exact (decodeRune2_size p0 rest).2
    · exact (decodeRune3_size p0 rest).2
    · exact (decodeRune4_size p0 rest).2
    · simp

theorem decodeRune2_append_space (p0 : Nat) (rest w : Bytes) (hw : ∀ c ∈ w, c < 0x80) :
    decodeRune2 p0 (rest ++ w) = decodeRune2 p0 rest := by
  rcases rest with _ | ⟨b1, rest⟩
  · rcases w with _ | ⟨w0, w⟩
    · rfl
    · simp [decodeRune2, isCont_of_lt w0 (hw w0 (List.mem_cons_self _ _))]
  · rfl

theorem decodeRune3_append_space (p0 : Nat) (rest w : Bytes) (hw : ∀ c ∈ w, c < 0x80) :
    decodeRune3 p0 (rest ++ w) = decodeRune3 p0 rest := by
  rcases rest with _ | ⟨b1, _ | ⟨b2, rest⟩⟩
  · rcases w with _ | ⟨w0, _ | ⟨w1, w⟩⟩
    · rfl
    · rfl
    · have h0 := hw w0 (List.mem_cons_self _ _)
      simp only [List.nil_append, decodeRune3]
      rw [if_neg (by split_ifs <;> omega)]
  · rcases w with _ | ⟨w0, w⟩
    · rfl
    · have h0 := hw w0 (List.mem_cons_self _ _)
      simp [decodeRune3, isCont_of_lt w0 h0]
  · rfl

theorem decodeRune4_append_space (p0 : Nat) (rest w : Bytes) (hw : ∀ c ∈ w, c < 0x80) :
    decodeRune4 p0 (rest ++ w) = decodeRune4 p0 rest := by
  rcases rest with _ | ⟨b1, _ | ⟨b2, _ | ⟨b3, rest⟩⟩⟩
  · rcases w with _ | ⟨w0, _ | ⟨w1, _ | ⟨w2, w⟩⟩⟩
    · rfl
    · rfl
    · rfl
    · have h0 := hw w0 (List.mem_cons_self _ _)
      simp only [List.nil_append, decodeRune4]
      rw [if_neg (by split_ifs <;> omega)]
  · rcases w with _ | ⟨w0, _ | ⟨w1, w⟩⟩
    · rfl
    · rfl
    · have h0 := hw w0 (List.mem_cons_self _ _)
      simp [decodeRune4, isCont_of_lt w0 h0]
  · rcases w with _ | ⟨w0, w⟩
    · rfl
    · have h0 := hw w0 (List.mem_cons_self _ _)
      simp [decodeRune4, isCont_of_lt w0 h0]
  · rfl

theorem DecodeRune_append_space (p w : Bytes) (hp : p ≠ []) (hw : ∀ c ∈ w, c < 0x80) :
    DecodeRune (p ++ w) = DecodeRune p := by
  rcases p with _ | ⟨p0, rest⟩
  · exact absurd rfl hp
  · simp only [List.cons_append, DecodeRune]
    rw [decodeRune2_append_space p0 rest w hw, decodeRune3_append_space p0 rest w hw,
      decodeRune4_append_space p0 rest w hw]

theorem getu4_space_at (t : Bytes) (i : Nat) (hi : i < 6)
    (h : ∀ x, t[i]? = some x → isSpace x = true) : getu4 t = none := by
  rcases t with _ | ⟨s0, _ | ⟨s1, _ | ⟨a, _ | ⟨b, _ | ⟨c, _ | ⟨d, rest⟩⟩⟩⟩⟩⟩
  case cons.cons.cons.cons.cons.cons =>
    simp only [getu4]
    interval_cases i
    · have := isSpace_cases s0 (h s0 (by simp))
      rw [if_neg (by omega)]
    · have := isSpace_cases s1 (h s1 (by simp))
      rw [if_neg (by omega)]
    · split_ifs
      · rw [hexVal_space a (h a (by simp))]
      · rfl
    · split_ifs
      · rw [hexVal_space b (h b (by simp))]
        cases hexVal a <;> rfl
      · rfl
    · split_ifs
      · rw [hexVal_space c (h c (by simp))]
        cases hexVal a <;> cases hexVal b <;> rfl
      · rfl
    · split_ifs
      · rw [hexVal_space d (h d (by simp))]
        cases hexVal a <;> cases hexVal b <;> cases hexVal c <;> rfl
      · rfl
  all_goals rfl

theorem getu4_length (s : Bytes) (r : Nat) (h : getu4 s = some r) : 6 ≤ s.length := by
  rcases s with _ | ⟨s0, _ | ⟨s1, _ | ⟨a, _ | ⟨b, _ | ⟨c, _ | ⟨d, rest⟩⟩⟩⟩⟩⟩
  case cons.cons.cons.cons.cons.cons => simp
  all_goals simp [getu4] at h

theorem getu4_append_of_length (s w : Bytes) (h : 6 ≤ s.length) : getu4 (s ++ w) = getu4 s := by
  rcases s with _ | ⟨s0, _ | ⟨s1, _ | ⟨a, _ | ⟨b, _ | ⟨c, _ | ⟨d, rest⟩⟩⟩⟩⟩⟩
  case cons.cons.cons.cons.cons.cons => rfl
  all_goals simp at h

theorem getu4_append_space (s w : Bytes) (hw : w.all isSpace = true) :
    getu4 (s ++ w) = getu4 s := by
  by_cases h : 6 ≤ s.length
  · exact getu4_append_of_length s w h
  · have hs : getu4 s = none := by
      cases hg : getu4 s with
      | none => rfl
      | some r => exact absurd (getu4_length s r hg) h
    rw [hs]
    apply getu4_space_at (s ++ w) s.length (by omega)
    intro x hx
    rw [List.getElem?_append_right (Nat.le_refl _), Nat.sub_self] at hx
    rcases w with _ | ⟨w0, w⟩
    · simp at hx
    · simp only [List.getElem?_cons_zero, Option.some.injEq] at hx
      subst hx
      simp only [List.all_cons, Bool.and_eq_true] at hw
      exact hw.1

theorem all_isSpace_lt (w : Bytes) (hw : w.all isSpace = true) : ∀ c ∈ w, c < 0x80 :=
  fun c hc => isSpace_lt c (List.all_eq_true.mp hw c hc)

/-- One step over a literal body followed by white space `w` is the step over the body, with
`w` appended to what is left. -/
theorem unquoteStep_append_space (s w : Bytes) (hw : w.all isSpace = true) :
    (∀ tail, unquoteStep s = .closed tail → unquoteStep (s ++ w) = .closed (tail ++ w)) ∧
    (∀ bs rest, unquoteStep s = .decoded bs rest →
      unquoteStep (s ++ w) = .decoded bs (rest ++ w)) := by
  rcases s with _ | ⟨c, cs⟩
  · constructor <;> intros <;> simp [unquoteStep] at *
  · by_cases h1 : c = 0x22
    · simp only [List.cons_append, unquoteStep, if_pos h1]
      constructor
      · intro tail h; cases h; rfl
      · intro bs rest h; cases h
    · by_cases h2 : c = 0x5C
      · rcases cs with _ | ⟨e, es⟩
        · constructor <;> intros <;> simp [unquoteStep, h1, h2] at *
        · simp only [List.cons_append, unquoteStep, if_neg h1, if_pos h2]
          by_cases e1 : e = 0x22 ∨ e = 0x5C ∨ e = 0x2F
          · simp only [if_pos e1]
            constructor
            · intro tail h; cases h
            · intro bs rest h; cases h; rfl
          simp only [if_neg e1]
          by_cases e2 : e = 0x62
          · simp only [if_pos e2]
            constructor
            · intro tail h; cases h
            · intro bs rest h; cases h; rfl
          simp only [if_neg e2]
          by_cases e3 : e = 0x66
          · simp only [if_pos e3]
            constructor
            · intro tail h; cases h
            · intro bs rest h; cases h; rfl
          simp only [if_neg e3]
          by_cases e4 : e = 0x6E
          · simp only [if_pos e4]
            constructor
            · intro tail h; cases h
            · intro bs rest h; cases h; rfl
          simp only [if_neg e4]
          by_cases e5 : e = 0x72
          · simp only [if_pos e5]
            constructor
            · intro tail h; cases h
            · intro bs rest h; cases h; rfl
          simp only [if_neg e5]
          by_cases e6 : e = 0x74
          · simp only [if_pos e6]
            constructor
            · intro tail h; cases h
            · intro bs rest h; cases h; rfl
          simp only [if_neg e6]
          by_cases e7 : e = 0x75
          · simp only [if_pos e7]
            cases hg : getu4 (c :: e :: es) with
            | none =>
              constructor
              · intro tail h; cases h
              · intro bs rest h; cases h
            | some rr =>
              have hlen := getu4_length _ _ hg
              have hg' : getu4 (c :: e :: (es ++ w)) = some rr := by
                have := getu4_append_of_length (c :: e :: es) w hlen
                rw [← hg, ← this]; rfl
              have hdrop : (es ++ w).drop 4 = es.drop 4 ++ w :=
                List.drop_append_of_le_length (by simp only [List.length_cons] at hlen; omega)
              rw [hg']
              simp only [hdrop, getu4_append_space _ w hw]
              by_cases hs : 0xD800 ≤ rr ∧ rr < 0xE000
              · simp only [if_pos hs]
                by_cases hd : utf16DecodeRune rr (getu4 (es.drop 4)) ≠ 0xFFFD
                · simp only [if_pos hd]
                  have h6 : 6 ≤ (es.drop 4).length := by
                    cases hq : getu4 (es.drop 4) with
                    | none => rw [hq] at hd; simp [utf16DecodeRune] at hd
                    | some r2 => exact getu4_length _ _ hq
                  rw [List.drop_append_of_le_length h6]
                  constructor
                  · intro tail h; cases h
                  · intro bs rest h; cases h; rfl
                · simp only [if_neg hd]
                  constructor
                  · intro tail h; cases h
                  · intro bs rest h; cases h; rfl
              · simp only [if_neg hs]
                constructor
                · intro tail h; cases h
                · intro bs rest h; cases h; rfl
          · simp only [if_neg e7]
            constructor
            · intro tail h; cases h
            · intro bs rest h; cases h
      · simp only [List.cons_append, unquoteStep, if_neg h1, if_neg h2]
        by_cases h3 : c < 0x20
        · simp only [if_pos h3]
          constructor
          · intro tail h; cases h
          · intro bs rest h; cases h
        simp only [if_neg h3]
        by_cases h4 : c < 0x80
        · simp only [if_pos h4]
          constructor
          · intro tail h; cases h
          · intro bs rest h; cases h; rfl
        simp only [if_neg h4]
        have hd : DecodeRune (c :: (cs ++ w)) = DecodeRune (c :: cs) := by
          have := DecodeRune_append_space (c :: cs) w (by simp) (all_isSpace_lt w hw)
          rw [← this]; rfl
        have hle := DecodeRune_size_le (c :: cs)
        constructor
        · intro tail h; cases h
        · intro bs rest h
          cases h
          rw [hd]
          congr 1
          rw [← List.cons_append]
          exact List.drop_append_of_le_length hle

theorem unquoteLoop_append_space (fuel : Nat) (s out w : Bytes) (r : Bytes × Bytes)
    (hw : w.all isSpace = true) (h : unquoteLoop fuel s out = some r) (k : Nat) :
    unquoteLoop (fuel + k) (s ++ w) out = some (r.1, r.2 ++ w) := by
  induction fuel generalizing s out with
  | zero => simp [unquoteLoop] at h
  | succ f ih =>
    have e : f + 1 + k = (f + k) + 1 := by omega
    rw [e]
    unfold unquoteLoop at h ⊢
    have hs := unquoteStep_append_space s w hw
    cases hst : unquoteStep s with
    | closed tail =>
      rw [hst] at h
      rw [hs.1 tail hst]
      cases h
      rfl
    | decoded bs rest =>
      rw [hst] at h
      rw [hs.2 bs rest hst]
      exact ih _ _ h
    | invalid =>
      rw [hst] at h
      cases h

/-! ## Claim C8 -/

theorem dropWhile_append_of_ne_nil (p : Nat → Bool) (l m : Bytes) (h : l.dropWhile p ≠ []) :
    (l ++ m).dropWhile p = l.dropWhile p ++ m := by
  induction l with
  | nil => exact absurd rfl h
  | cons c cs ih =>
    by_cases hc : p c = true
    · rw [List.dropWhile_cons_of_pos hc] at h
      rw [List.cons_append, List.dropWhile_cons_of_pos hc, List.dropWhile_cons_of_pos hc]
      exact ih h
    · rw [List.cons_append, List.dropWhile_cons_of_neg hc, List.dropWhile_cons_of_neg hc]
      rfl

theorem dropWhile_append_all (p : Nat → Bool) (w l : Bytes) (hw : w.all p = true) :
    (w ++ l).dropWhile p = l.dropWhile p := by
  induction w with
  | nil => rfl
  | cons c cs ih =>
    simp only [List.all_cons, Bool.and_eq_true] at hw
    rw [List.cons_append, List.dropWhile_cons_of_pos hw.1]
    exact ih hw.2

theorem jsonUnmarshalString_append_space (cs w : Bytes) (s : Bytes)
    (hw : w.all isSpace = true) (h : jsonUnmarshalString (0x22 :: cs) = .ok s) :
    jsonUnmarshalString (0x22 :: (cs ++ w)) = .ok s := by
  have hq : isSpace 0x22 = false := by decide
  have hnq : ¬ (isSpace 0x22 = true) := by rw [hq]; exact Bool.false_ne_true
  simp only [jsonUnmarshalString, List.dropWhile_cons_of_neg hnq, if_true] at h ⊢
  cases hu : unquoteLoop (cs.length + 1) cs [] with
  | none => rw [hu] at h; simp at h
  | some r =>
    rw [hu] at h
    have e : (cs ++ w).length + 1 = cs.length + 1 + w.length := by
      rw [List.length_append]; omega
    rw [e, unquoteLoop_append_space _ _ _ _ r hw hu w.length]
    obtain ⟨s', tail⟩ := r
    simp only [] at h ⊢
    by_cases ht : tail.all isSpace = true
    · rw [if_pos ht] at h
      rw [if_pos (by rw [List.all_append, ht, hw]; rfl)]
      exact h
    · rw [if_neg ht] at h
      cases h

theorem parseString_append_space (cs w : Bytes) (s : Bytes)
    (hw : w.all isSpace = true) (h : parseString (0x22 :: cs) = .ok s) :
    parseString (0x22 :: (cs ++ w)) = .ok s := by
  unfold parseString at h ⊢
  by_cases hl : (0x22 :: cs : Bytes).length < 2
  · rw [if_pos hl] at h; cases h
  · rw [if_neg hl] at h
    rw [if_neg (by simp only [List.length_cons, List.length_append] at hl ⊢; omega)]
    exact jsonUnmarshalString_append_space cs w s hw h

theorem newFromString_append_space {F : Type} (fl : Float64Ops F) (cs w : Bytes) (v : V F)
    (hw : w.all isSpace = true) (h : newFromString fl (0x22 :: cs) = .ok v) :
    newFromString fl (0x22 :: (cs ++ w)) = .ok v := by
  unfold newFromString at h ⊢
  cases hp : parseString (0x22 :: cs) with
  | error e => rw [hp] at h; cases h
  | ok s =>
    rw [hp] at h
    rw [parseString_append_space cs w s hw hp]
    exact h

theorem newFromArray_congr {F : Type} (fl : Float64Ops F) (jp : Tokenizer) (d : Nat)
    (x y : Bytes) (h : jp.ArrayEach x = jp.ArrayEach y) :
    newFromArray fl jp d x = newFromArray fl jp d y := by
  cases d with
  | zero => simp [newFromArray]
  | succ d => simp only [newFromArray, h]

theorem newFromObject_congr {F : Type} (fl : Float64Ops F) (jp : Tokenizer) (d : Nat)
    (x y : Bytes) (h : jp.ObjectEach x = jp.ObjectEach y) :
    newFromObject fl jp d x = newFromObject fl jp d y := by
  cases d with
  | zero => simp [newFromObject]
  | succ d => simp only [newFromObject, h]

theorem unmarshalLoop_nil_of_ok {F : Type} (fl : Float64Ops F) (jp : Tokenizer) (d : Nat)
    (b : Bytes) (v : V F) (h : unmarshalLoop fl jp d b = .ok v) : b.dropWhile isSpace ≠ [] := by
  intro hnil
  rw [unmarshalLoop_dropWhile, hnil] at h
  simp [unmarshalLoop] at h

/-! ### The variant of a parsed value -/

theorem arrayCallback_valueType {F : Type} (fl : Float64Ops F)
    (fO fA : Bytes → Except Error (V F)) (st : ArrayState F) (v : Bytes) (t : ValueType) :
    (arrayCallback fl fO fA st v t).o.valueType = st.o.valueType := by
  unfold arrayCallback
  split_ifs
  · rfl
  · simp only []
    split <;> first
      | rfl
      | (split <;> rfl)

theorem foldl_arrayCallback_valueType {F : Type} (fl : Float64Ops F)
    (fO fA : Bytes → Except Error (V F)) (l : List (Bytes × ValueType)) (st : ArrayState F) :
    (l.foldl (fun st vt => arrayCallback fl fO fA st vt.1 vt.2) st).o.valueType =
      st.o.valueType := by
  induction l generalizing st with
  | nil => rfl
  | cons x xs ih =>
    rw [List.foldl_cons, ih, arrayCallback_valueType]

theorem objectCallback_valueType {F : Type} (fl : Float64Ops F)
    (fO fA : Bytes → Except Error (V F)) (o : V F) (k v : Bytes) (t : ValueType) (o1 : V F)
    (h : objectCallback fl fO fA o k v t = .ok o1) : o1.valueType = o.valueType := by
  unfold objectCallback at h
  split at h
  · cases h
  · simp only [] at h
    split at h
    all_goals first
      | (split at h
         · cases h
         · cases h; rfl)
      | cases h

theorem objectEachLoop_valueType {F : Type} (fl : Float64Ops F)
    (fO fA : Bytes → Except Error (V F)) (l : List (Bytes × Bytes × ValueType)) (o o1 : V F)
    (h : objectEachLoop (objectCallback fl fO fA) l o = .ok o1) : o1.valueType = o.valueType := by
  induction l generalizing o with
  | nil => simp only [objectEachLoop, Except.ok.injEq] at h; rw [← h]
  | cons x xs ih =>
    obtain ⟨k, v, t⟩ := x
    unfold objectEachLoop at h
    cases hc : objectCallback fl fO fA o k v t with
    | error e => rw [hc] at h; cases h
    | ok o2 =>
      rw [hc] at h
      rw [ih o2 h, objectCallback_valueType fl fO fA o k v t o2 hc]

theorem newFromArray_valueType {F : Type} (fl : Float64Ops F) (jp : Tokenizer) (d : Nat)
    (b : Bytes) (v : V F) (h : newFromArray fl jp d b = .ok v) : v.valueType = .Array := by
  cases d with
  | zero => simp [newFromArray] at h
  | succ d =>
    rw [newFromArray] at h
    simp only [] at h
    split at h
    · cases h
    · simp only [Except.ok.injEq] at h
      rw [← h, foldl_arrayCallback_valueType]

theorem newFromObject_valueType {F : Type} (fl : Float64Ops F) (jp : Tokenizer) (d : Nat)
    (b : Bytes) (v : V F) (h : newFromObject fl jp d b = .ok v) : v.valueType = .Object := by
  cases d with
  | zero => simp [newFromObject] at h
  | succ d =>
    rw [newFromObject] at h
    simp only [] at h
    cases hl : objectEachLoop (objectCallback fl (newFromObject fl jp d) (newFromArray fl jp d))
        (jp.ObjectEach b).1 { new fl with valueType := .Object } with
    | error e => rw [hl] at h; cases h
    | ok o1 =>
      rw [hl] at h
      have := objectEachLoop_valueType fl _ _ _ _ _ hl
      simp only [] at h
      cases h2 : (jp.ObjectEach b).2 with
      | some e => rw [h2] at h; cases h
      | none =>
        rw [h2] at h
        cases h
        exact this

theorem newFromNumber_valueType {F : Type} (fl : Float64Ops F) (b : Bytes) (v : V F)
    (h : newFromNumber fl b = .ok v) : v.valueType = .Number := by
  unfold newFromNumber at h
  simp only [] at h
  split_ifs at h
  · split at h
    · cases h
    · cases h; rfl
  · split at h
    · cases h
    · split_ifs at h
      · split at h
        · cases h
        · cases h; rfl
      · split at h
        · cases h
        · cases h; rfl

theorem newFromString_valueType {F : Type} (fl : Float64Ops F) (b : Bytes) (v : V F)
    (h : newFromString fl b = .ok v) : v.valueType = .String := by
  unfold newFromString at h
  simp only [] at h
  split at h
  · cases h
  · cases h; rfl

theorem newFromTrue_valueType {F : Type} (fl : Float64Ops F) (b : Bytes) (v : V F)
    (h : newFromTrue fl b = .ok v) : v.valueType = .Boolean := by
  unfold newFromTrue at h
  split_ifs at h
  cases h; rfl

theorem newFromFalse_valueType {F : Type} (fl : Float64Ops F) (b : Bytes) (v : V F)
    (h : newFromFalse fl b = .ok v) : v.valueType = .Boolean := by
  unfold newFromFalse at h
  split_ifs at h
  cases h; rfl

theorem newFromNull_valueType {F : Type} (fl : Float64Ops F) (b : Bytes) (v : V F)
    (h : newFromNull fl b = .ok v) : v.valueType = .Null := by
  unfold newFromNull at h
  split_ifs at h
  cases h; rfl

/-- The variant of the value `Unmarshal` returns is fixed by the first byte that is no white
space. -/
theorem unmarshalLoop_valueType {F : Type} (fl : Float64Ops F) (jp : Tokenizer) (d : Nat)
    (c : Nat) (cs : Bytes) (v : V F) (hc : isSpace c = false)
    (h : unmarshalLoop fl jp d (c :: cs) = .ok v) :
    (v.valueType = .String → c = 0x22) ∧ (v.valueType = .Array → c = 0x5B) ∧
    (v.valueType = .Object → c = 0x7B) := by
  have hns : ¬ (c = 0x20 ∨ c = 0x0D ∨ c = 0x0A ∨ c = 0x09) := by
    intro hh
    have : isSpace c = true := by
      simp only [isSpace, Bool.or_eq_true, beq_iff_eq]; omega
    rw [hc] at this; cases this
  unfold unmarshalLoop at h
  rw [if_neg hns] at h
  by_cases h1 : c = 0x7B
  · rw [if_pos h1] at h
    have := newFromObject_valueType fl jp _ _ v h
    rw [this]
    refine ⟨?_, ?_, ?_⟩ <;> intro hh <;> first | exact h1 | cases hh
  rw [if_neg h1] at h
  by_cases h2 : c = 0x5B
  · rw [if_pos h2] at h
    have := newFromArray_valueType fl jp _ _ v h
    rw [this]
    refine ⟨?_, ?_, ?_⟩ <;> intro hh <;> first | exact h2 | cases hh
  rw [if_neg h2] at h
  by_cases h3 : (0x30 ≤ c ∧ c ≤ 0x39) ∨ c = 0x2D
  · rw [if_pos h3] at h
    have := newFromNumber_valueType fl _ v h
    rw [this]
    refine ⟨?_, ?_, ?_⟩ <;> intro hh <;> cases hh
  rw [if_neg h3] at h
  by_cases h4 : c = 0x22
  · rw [if_pos h4] at h
    have := newFromString_valueType fl _ v h
    rw [this]
    refine ⟨?_, ?_, ?_⟩ <;> intro hh <;> first | exact h4 | cases hh
  rw [if_neg h4] at h
  by_cases h5 : c = 0x74
  · rw [if_pos h5] at h
    have := newFromTrue_valueType fl _ v h
    rw [this]
    refine ⟨?_, ?_, ?_⟩ <;> intro hh <;> cases hh
  rw [if_neg h5] at h
  by_cases h6 : c = 0x66
  · rw [if_pos h6] at h
    have := newFromFalse_valueType fl _ v h
    rw [this]
    refine ⟨?_, ?_, ?_⟩ <;> intro hh <;> cases hh
  rw [if_neg h6] at h
  by_cases h7 : c = 0x6E
  · rw [if_pos h7] at h
    have := newFromNull_valueType fl _ v h
    rw [this]
    refine ⟨?_, ?_, ?_⟩ <;> intro hh <;> cases hh
  rw [if_neg h7] at h
  cases h

theorem dropWhile_head_not (p : Nat → Bool) (l : Bytes) (c : Nat) (cs : Bytes)
    (h : l.dropWhile p = c :: cs) : p c = false := by
  induction l with
  | nil => cases h
  | cons x xs ih =>
    by_cases hx : p x = true
    · rw [List.dropWhile_cons_of_pos hx] at h
      exact ih h
    · rw [List.dropWhile_cons_of_neg hx] at h
      cases h
      simpa using hx

/-- C8 (as amended): `Unmarshal` tolerates white space (space, `\r`, `\n`, `\t`) in front of
every value, and behind a top-level string, array or object (with a tokenizer that, like
`jsonparser`, ignores what follows the closing bracket): for every input `b` that `Unmarshal`
parses to `v` and all white-space strings `w1`, `w2`, `Unmarshal(w1 ++ b ++ w2)` yields `v`
when `v` is a String, an Array or an Object, or `w2` is empty. (White space behind a top-level
`true`, `false`, `null` or number makes `Unmarshal` fail: these literals have to match
exactly.) -/
theorem Unmarshal_surrounding_space {F : Type} (fl : Float64Ops F) (jp : Tokenizer)
    (b w1 w2 : Bytes) (v : V F)
    (hb : Unmarshal fl jp b = .ok v)
    (hw1 : w1.all isSpace = true) (hw2 : w2.all isSpace = true)
    (h2 : w2 = [] ∨ v.valueType = .String ∨
      ((v.valueType = .Array ∨ v.valueType = .Object) ∧ IgnoresTrailingSpace jp)) :
    Unmarshal fl jp (w1 ++ b ++ w2) = .ok v := by
  unfold Unmarshal at hb ⊢
  by_cases hlen : b.length = 0
  · rw [if_pos hlen] at hb; cases hb
  rw [if_neg hlen] at hb
  rw [if_neg (by simp only [List.length_append]; omega)]
  have hne := unmarshalLoop_nil_of_ok fl jp _ b v hb
  have hdeep : unmarshalLoop fl jp ((w1 ++ b ++ w2).length + 1) b = .ok v := by
    have := unmarshalLoop_depth_le fl jp (b.length + 1) (w1.length + w2.length) b v hb
    have e : (w1 ++ b ++ w2).length + 1 = b.length + 1 + (w1.length + w2.length) := by
      simp only [List.length_append]; omega
    rw [e]; exact this
  generalize (w1 ++ b ++ w2).length + 1 = D at hdeep ⊢
  rw [unmarshalLoop_dropWhile, List.append_assoc, dropWhile_append_all _ _ _ hw1,
    dropWhile_append_of_ne_nil _ _ _ hne]
  rw [unmarshalLoop_dropWhile] at hdeep
  obtain ⟨c, cs, hcs⟩ := List.exists_cons_of_ne_nil hne
  have hc := dropWhile_head_not _ _ _ _ hcs
  rw [hcs] at hdeep ⊢
  have hty := unmarshalLoop_valueType fl jp D c cs v hc hdeep
  rw [List.cons_append]
  rcases h2 with h | h | ⟨h | h, hjp⟩
  · subst h
    rw [List.append_nil]
    exact hdeep
  · have hq := hty.1 h
    subst hq
    have e1 : ∀ x : Bytes, unmarshalLoop fl jp D (0x22 :: x) = newFromString fl (0x22 :: x) := by
      intro x; simp [unmarshalLoop]
    rw [e1] at hdeep ⊢
    exact newFromString_append_space fl cs w2 v hw2 hdeep
  · have hq := hty.2.1 h
    subst hq
    have e1 : ∀ x : Bytes, unmarshalLoop fl jp D (0x5B :: x) = newFromArray fl jp D (0x5B :: x) := by
      intro x; simp [unmarshalLoop]
    rw [e1] at hdeep ⊢
    rw [← List.cons_append, newFromArray_congr fl jp D _ _ (hjp _ w2 hw2).1]
    exact hdeep
  · have hq := hty.2.2 h
    subst hq
    have e1 : ∀ x : Bytes, unmarshalLoop fl jp D (0x7B :: x) = newFromObject fl jp D (0x7B :: x) := by
      intro x; simp [unmarshalLoop]
    rw [e1] at hdeep ⊢
    rw [← List.cons_append, newFromObject_congr fl jp D _ _ (hjp _ w2 hw2).2]
    exact hdeep

/-- Counterexample to C8 as stated: `Unmarshal` parses `true`, `null` and `12`, and fails on
each of them followed by one space. -/
theorem Unmarshal_rejects_trailing_space_after_scalar :
    (Unmarshal decimalFloat jsonparserTokenizer (ascii "true")).map (fun v => (v.valueType, v.boolValue))
      = .ok (.Boolean, true) ∧
    Unmarshal decimalFloat jsonparserTokenizer (ascii "true" ++ ascii " ") = .error .ErrNotValidBoolValue ∧
    (Unmarshal decimalFloat jsonparserTokenizer (ascii "null")).map (fun v => v.valueType) = .ok .Null ∧
    Unmarshal decimalFloat jsonparserTokenizer (ascii "null" ++ ascii " ") = .error .ErrNotValidNulllValue ∧
    (Unmarshal decimalFloat jsonparserTokenizer (ascii "12")).map (fun v => (v.valueType, v.uint64Value))
      = .ok (.Number, 12) ∧
    Unmarshal decimalFloat jsonparserTokenizer (ascii "12" ++ ascii " ") = .error .strconvSyntax :=
  ⟨rfl, rfl, rfl, rfl, rfl, rfl⟩

/-! ## Escaping then unescaping -/

theorem hexVal_hexDigitUpper (d : Nat) (h : d < 16) : hexVal (hexDigitUpper d) = some d := by
  interval_cases d <;> rfl

theorem getu4_sprintfU04X (x : Nat) (rest : Bytes) (h : x ≤ 0xFFFF) :
    getu4 (sprintfU04X x ++ rest) = some x := by
  rw [sprintfU04X_eq x h]
  simp only [hex4, List.cons_append, List.nil_append, getu4, and_self, if_true]
  rw [hexVal_hexDigitUpper _ (Nat.mod_lt _ (by norm_num)),
    hexVal_hexDigitUpper _ (Nat.mod_lt _ (by norm_num)),
    hexVal_hexDigitUpper _ (Nat.mod_lt _ (by norm_num)),
    hexVal_hexDigitUpper _ (Nat.mod_lt _ (by norm_num))]
  simp only [Option.some.injEq]
  omega

theorem sprintfU04X_cons (x : Nat) (h : x ≤ 0xFFFF) :
    ∃ a b c d, sprintfU04X x = [0x5C, 0x75, a, b, c, d] := by
  rw [sprintfU04X_eq x h]
  exact ⟨_, _, _, _, rfl⟩

theorem unquoteStep_u4 (x : Nat) (rest : Bytes) (h : x ≤ 0xFFFF)
    (hs : ¬ (0xD800 ≤ x ∧ x < 0xE000)) :
    unquoteStep (sprintfU04X x ++ rest) = .decoded (EncodeRune x) rest := by
  have hg := getu4_sprintfU04X x rest h
  obtain ⟨a, b, c, d, e⟩ := sprintfU04X_cons x h
  rw [e] at hg ⊢
  simp only [List.cons_append, List.nil_append] at hg ⊢
  simp only [unquoteStep, hg]
  simp [hs]

theorem unquoteStep_surrogates (hi lo : Nat) (rest : Bytes)
    (h1 : 0xD800 ≤ hi) (h2 : hi ≤ 0xDBFF) (h3 : 0xDC00 ≤ lo) (h4 : lo ≤ 0xDFFF) :
    unquoteStep (sprintfU04X hi ++ (sprintfU04X lo ++ rest)) =
      .decoded (EncodeRune (utf16DecodeRune hi (some lo))) rest := by
  have hg := getu4_sprintfU04X hi (sprintfU04X lo ++ rest) (by omega)
  have hg2 := getu4_sprintfU04X lo rest (by omega)
  obtain ⟨a, b, c, d, e⟩ := sprintfU04X_cons hi (by omega)
  obtain ⟨a', b', c', d', e'⟩ := sprintfU04X_cons lo (by omega)
  rw [e] at hg ⊢
  rw [e'] at hg hg2 ⊢
  simp only [List.cons_append, List.nil_append] at hg hg2 ⊢
  have hne : utf16DecodeRune hi (some lo) ≠ 0xFFFD := by
    simp only [utf16DecodeRune]
    rw [if_pos ⟨h1, by omega, h3, by omega⟩]
    omega
  have hsur : 0xD800 ≤ hi ∧ hi < 0xE000 := ⟨h1, by omega⟩
  simp only [unquoteStep, hg]
  simp [hg2, hsur, hne]

theorem unquoteStep_raw (r : Nat) (rest : Bytes) (hr : isScalarValue r = true)
    (h20 : 0x20 ≤ r) (hq : r ≠ 0x22) (hb : r ≠ 0x5C) :
    unquoteStep (EncodeRune r ++ rest) = .decoded (EncodeRune r) rest := by
  by_cases h7 : r < 0x80
  · have e : EncodeRune r = [r] := by simp [EncodeRune, Nat.le_of_lt_succ h7]
    rw [e]
    simp only [List.cons_append, List.nil_append, unquoteStep]
    rw [if_neg hq, if_neg hb, if_neg (by omega), if_pos h7]
  · have hd := DecodeRune_EncodeRune r rest hr
    obtain ⟨c, cs, hcs⟩ := List.exists_cons_of_ne_nil (EncodeRune_ne_nil r)
    have hc : 0x80 ≤ c := by
      have : c = (EncodeRune r).headD 0 := by rw [hcs]; rfl
      rw [this]
      simp only [EncodeRune]
      split_ifs <;> simp only [List.headD_cons] <;> omega
    have hdrop : (EncodeRune r ++ rest).drop (EncodeRune r).length = rest := List.drop_left _ _
    rw [hcs] at hd hdrop ⊢
    simp only [List.cons_append] at hd hdrop ⊢
    simp only [unquoteStep]
    rw [if_neg (by omega), if_neg (by omega), if_neg (by omega), if_neg (by omega), hd]
    simp only [hdrop]
    rw [hcs]

theorem unquoteStep_escapeRune (r : Nat) (rest : Bytes) (hr : isScalarValue r = true)
    (hc : isEscapable r = true) :
    unquoteStep (escapeRuneToBuff [] r ++ rest) = .decoded (EncodeRune r) rest := by
  have hr' : r < 0xD800 ∨ (0xE000 ≤ r ∧ r ≤ 0x10FFFF) := by
    simpa [isScalarValue] using hr
  have hc' : 0x20 ≤ r ∨ r = 0x08 ∨ r = 0x09 ∨ r = 0x0A ∨ r = 0x0C ∨ r = 0x0D := by
    simp only [isEscapable, Bool.or_eq_true, decide_eq_true_eq, beq_iff_eq] at hc
    omega
  unfold escapeRuneToBuff
  by_cases c1 : r = 0x22
  · subst c1; rfl
  rw [if_neg c1]
  by_cases c2 : r = 0x2F
  · subst c2; rfl
  rw [if_neg c2]
  by_cases c3 : r = 0x5C
  · subst c3; rfl
  rw [if_neg c3]
  by_cases c4 : r = 0x08
  · subst c4; rfl
  rw [if_neg c4]
  by_cases c5 : r = 0x0C
  · subst c5; rfl
  rw [if_neg c5]
  by_cases c6 : r = 0x09
  · subst c6; rfl
  rw [if_neg c6]
  by_cases c7 : r = 0x0A
  · subst c7; rfl
  rw [if_neg c7]
  by_cases c8 : r = 0x0D
  · subst c8; rfl
  rw [if_neg c8]
  by_cases c9 : r = 0x3C
  · subst c9; rfl
  rw [if_neg c9]
  by_cases c10 : r = 0x3E
  · subst c10; rfl
  rw [if_neg c10]
  by_cases c11 : r = 0x26
  · subst c11; rfl
  rw [if_neg c11]
  by_cases c12 : r = 0x25
  · subst c12; rfl
  rw [if_neg c12]
  by_cases h1 : r ≤ 0x127
  · rw [escapeUnicodeToBuff_low _ _ h1, List.nil_append]
    exact unquoteStep_raw r rest hr (by omega) c1 c3
  · by_cases h2 : r ≤ 0xFFFF
    · rw [escapeUnicodeToBuff_bmp _ _ h1 h2, List.nil_append]
      exact unquoteStep_u4 r rest h2 (by omega)
    · rw [escapeUnicodeToBuff_high _ _ h1 h2, List.nil_append, List.append_assoc]
      have hx : r - 0x10000 < 0x100000 := by omega
      have e1 : ((r - 0x10000) &&& 0xFFC00) >>> 10 = (r - 0x10000) / 0x400 := by
        rw [and_FFC00_shift _ hx, Nat.shiftRight_eq_div_pow]
      have e3 : (r - 0x10000) &&& 0x3FF = (r - 0x10000) % 0x400 := and_3FF _
      rw [e1, e3]
      have hdec : utf16DecodeRune ((r - 0x10000) / 0x400 + 0xD800)
          (some ((r - 0x10000) % 0x400 + 0xDC00)) = r := by
        simp only [utf16DecodeRune]
        rw [if_pos (by omega)]
        omega
      rw [unquoteStep_surrogates _ _ rest (by omega) (by omega) (by omega) (by omega), hdec]

theorem escapeRuneToBuff_ne_nil (r : Nat) (hr : isScalarValue r = true)
    (hc : isEscapable r = true) : escapeRuneToBuff [] r ≠ [] := by
  intro h
  have := unquoteStep_escapeRune r [] hr hc
  rw [h] at this
  simp [unquoteStep] at this

theorem unquoteLoop_escaped (cps : List Nat)
    (hs : ∀ r ∈ cps, isScalarValue r = true ∧ isEscapable r = true)
    (fuel : Nat) (hf : cps.length + 1 ≤ fuel) (out tail : Bytes) :
    unquoteLoop fuel (cps.flatMap (escapeRuneToBuff []) ++ 0x22 :: tail) out =
      some (out ++ utf8 cps, tail) := by
  induction cps generalizing fuel out with
  | nil =>
    obtain ⟨f, rfl⟩ : ∃ f, fuel = f + 1 := ⟨fuel - 1, by simp at hf; omega⟩
    simp [unquoteLoop, unquoteStep, utf8]
  | cons r cps ih =>
    obtain ⟨f, rfl⟩ : ∃ f, fuel = f + 1 := ⟨fuel - 1, by omega⟩
    have hr := hs r (List.mem_cons_self _ _)
    rw [List.flatMap_cons, List.append_assoc]
    unfold unquoteLoop
    rw [unquoteStep_escapeRune r _ hr.1 hr.2]
    simp only []
    rw [ih (fun x hx => hs x (List.mem_cons_of_mem _ hx)) f
      (by simp only [List.length_cons] at hf; omega)]
    simp [utf8]

theorem flatMap_escape_length (cps : List Nat)
    (hs : ∀ r ∈ cps, isScalarValue r = true ∧ isEscapable r = true) :
    cps.length ≤ (cps.flatMap (escapeRuneToBuff [])).length := by
  induction cps with
  | nil => simp
  | cons r cps ih =>
    have hr := hs r (List.mem_cons_self _ _)
    have hpos := List.length_pos.mpr (escapeRuneToBuff_ne_nil r hr.1 hr.2)
    have := ih (fun x hx => hs x (List.mem_cons_of_mem _ hx))
    simp only [List.flatMap_cons, List.length_append, List.length_cons]
    omega

theorem parseStringNoQuote_escapeStringToBuff (cps : List Nat)
    (hs : ∀ r ∈ cps, isScalarValue r = true ∧ isEscapable r = true) :
    parseStringNoQuote (escapeStringToBuff (utf8 cps) []) = .ok (utf8 cps) := by
  rw [escapeStringToBuff_utf8 cps (fun r hr => (hs r hr).1), List.nil_append]
  have hlen := flatMap_escape_length cps hs
  have hq : isSpace 0x22 = false := by decide
  have hnq : ¬ (isSpace 0x22 = true) := by rw [hq]; exact Bool.false_ne_true
  have e : EncodeRune 0x22 = [0x22] := by decide
  simp only [parseStringNoQuote, e, List.nil_append, List.singleton_append, List.cons_append]
  unfold parseString
  rw [if_neg (by simp)]
  simp only [jsonUnmarshalString, List.dropWhile_cons_of_neg hnq, if_true]
  rw [unquoteLoop_escaped cps hs _ (by simp only [List.length_append, List.length_singleton]; omega)]
  simp

/-- C2 (the code departs from the claim): the escaped form of the one-character string U+0001
is the raw byte 01, which no JSON string literal may hold, so `parseStringNoQuote` fails on it;
the escaper has a two-character escape for five control characters and writes the other 27
unescaped. For every string of valid code points that holds none of those 27 control
characters, unescaping the escaped form does return the string. -/
theorem escape_unescape_control_character :
    escapeStringToBuff (utf8 [0x01]) [] = [0x01] ∧
    parseStringNoQuote (escapeStringToBuff (utf8 [0x01]) []) = .error .jsonUnmarshal ∧
    (∀ cps : List Nat, (∀ r ∈ cps, isScalarValue r = true ∧ isEscapable r = true) →
      parseStringNoQuote (escapeStringToBuff (utf8 cps) []) = .ok (utf8 cps)) :=
  ⟨by decide, by decide, parseStringNoQuote_escapeStringToBuff⟩

/-! ## jsonparser and white space behind the input -/

namespace jsonparser

theorem isSpace_iff (c : Nat) :
    isSpace c = true ↔ (c = 0x20 ∨ c = 0x0A ∨ c = 0x0D ∨ c = 0x09) := by
  simp only [isSpace, Bool.or_eq_true, beq_iff_eq]
  omega

theorem nextToken_space (w : Bytes) (hw : w.all isSpace = true) : nextToken w = none := by
  induction w with
  | nil => rfl
  | cons c cs ih =>
    simp only [List.all_cons, Bool.and_eq_true] at hw
    simp only [nextToken, if_pos ((isSpace_iff c).mp hw.1), ih hw.2, Option.map_none']

theorem nextToken_append_space (d w : Bytes) (hw : w.all isSpace = true) :
    nextToken (d ++ w) = nextToken d := by
  induction d with
  | nil => simp only [List.nil_append, nextToken_space w hw, nextToken]
  | cons c cs ih =>
    rw [List.cons_append]
    simp only [nextToken, ih]

theorem nextToken_lt (d : Bytes) (n : Nat) (h : nextToken d = some n) : n < d.length := by
  induction d generalizing n with
  | nil => simp [nextToken] at h
  | cons c cs ih =>
    simp only [nextToken] at h
    split_ifs at h with hc
    · cases hn : nextToken cs with
      | none => rw [hn] at h; simp at h
      | some m =>
        rw [hn] at h
        simp only [Option.map_some', Option.some.injEq] at h
        have := ih m hn
        simp only [List.length_cons]
        omega
    · simp only [Option.some.injEq] at h
      simp only [List.length_cons]
      omega

theorem tokenEnd_le (d : Bytes) : tokenEnd d ≤ d.length := by
  induction d with
  | nil => simp [tokenEnd]
  | cons c cs ih =>
    simp only [tokenEnd, List.length_cons]
    split_ifs <;> omega

theorem tokenEnd_append_space (d w : Bytes) (hw : w.all isSpace = true) :
    tokenEnd (d ++ w) = tokenEnd d := by
  induction d with
  | nil =>
    rcases w with _ | ⟨c, cs⟩
    · rfl
    · simp only [List.all_cons, Bool.and_eq_true] at hw
      have := (isSpace_iff c).mp hw.1
      simp only [List.nil_append, tokenEnd]
      rw [if_pos (by omega)]
  | cons c cs ih =>
    rw [List.cons_append]
    simp only [tokenEnd, ih]

theorem stringEndLoop_space (w before : Bytes) (i : Nat) (escaped : Bool)
    (hw : w.all isSpace = true) : stringEndLoop w before i escaped = (none, escaped) := by
  induction w generalizing before i with
  | nil => rfl
  | cons c cs ih =>
    simp only [List.all_cons, Bool.and_eq_true] at hw
    have := (isSpace_iff c).mp hw.1
    simp only [stringEndLoop]
    rw [if_neg (by omega), if_neg (by omega)]
    exact ih _ _ hw.2

theorem stringEndLoop_append_space (d w before : Bytes) (i : Nat) (escaped : Bool)
    (hw : w.all isSpace = true) :
    stringEndLoop (d ++ w) before i escaped = stringEndLoop d before i escaped := by
  induction d generalizing before i escaped with
  | nil => simp only [List.nil_append, stringEndLoop_space w before i escaped hw, stringEndLoop]
  | cons c cs ih =>
    rw [List.cons_append]
    simp only [stringEndLoop, ih]

theorem stringEnd_append_space (d w : Bytes) (hw : w.all isSpace = true) :
    stringEnd (d ++ w) = stringEnd d :=
  stringEndLoop_append_space d w [] 0 false hw

theorem stringEndLoop_le (d before : Bytes) (i : Nat) (escaped : Bool) (n : Nat)
    (h : (stringEndLoop d before i escaped).1 = some n) : i + 1 ≤ n ∧ n ≤ i + d.length := by
  induction d generalizing before i escaped with
  | nil => simp [stringEndLoop] at h
  | cons c cs ih =>
    simp only [stringEndLoop] at h
    simp only [List.length_cons]
    split_ifs at h
    · simp only [Option.some.injEq] at h; omega
    · simp only [Option.some.injEq] at h; omega
    · have := ih _ _ _ h; omega
    · have := ih _ _ _ h; omega
    · have := ih _ _ _ h; omega

theorem stringEnd_le (d : Bytes) (n : Nat) (h : (stringEnd d).1 = some n) :
    1 ≤ n ∧ n ≤ d.length := by
  have := stringEndLoop_le d [] 0 false n h
  omega

theorem byteAt_append (d w : Bytes) (i : Nat) (h : i < d.length) :
    byteAt (d ++ w) i = byteAt d i := by
  simp only [byteAt]
  exact List.getD_append d w 0 i h

theorem byteAt_append_space (d w : Bytes) (i : Nat) (h1 : d.length ≤ i)
    (h2 : i < (d ++ w).length) (hw : w.all isSpace = true) :
    isSpace (byteAt (d ++ w) i) = true := by
  simp only [byteAt]
  rw [List.getD_append_right d w 0 i h1]
  have hj : i - d.length < w.length := by
    rw [List.length_append] at h2; omega
  rw [List.getD_eq_getElem w 0 hj]
  exact List.all_eq_true.mp hw _ (List.getElem_mem _)

theorem blockEndLoop_over_space (d w : Bytes) (o c : Nat) (hw : w.all isSpace = true)
    (ho : isSpace o = false) (hc : isSpace c = false) (fuel i : Nat) (level : ℤ)
    (hi : d.length ≤ i) : blockEndLoop (d ++ w) o c fuel i level = none := by
  induction fuel generalizing i level with
  | zero => rfl
  | succ f ih =>
    unfold blockEndLoop
    by_cases hlt : i < (d ++ w).length
    · rw [if_pos hlt]
      have hs := byteAt_append_space d w i hi hlt hw
      have h1 : byteAt (d ++ w) i ≠ 0x22 := by
        intro h; rw [h] at hs; exact absurd hs (by decide)
      have h2 : byteAt (d ++ w) i ≠ o := by
        intro h; rw [h, ho] at hs; exact absurd hs (by decide)
      have h3 : byteAt (d ++ w) i ≠ c := by
        intro h; rw [h, hc] at hs; exact absurd hs (by decide)
      rw [if_neg h1, if_neg h2, if_neg h3]
      exact ih _ _ (by omega)
    · rw [if_neg hlt]

theorem blockEndLoop_append_space (d w : Bytes) (o c : Nat) (hw : w.all isSpace = true)
    (ho : isSpace o = false) (hc : isSpace c = false) (fuel k i : Nat) (level : ℤ)
    (hi : i ≤ d.length) (hf : d.length + 1 ≤ fuel + i) :
    blockEndLoop (d ++ w) o c (fuel + k) i level = blockEndLoop d o c fuel i level := by
  induction fuel generalizing i level with
  | zero => omega
  | succ f ih =>
    have e : f + 1 + k = (f + k) + 1 := by omega
    rw [e]
    by_cases hlt : i < d.length
    · have hlt' : i < (d ++ w).length := by rw [List.length_append]; omega
      have hdrop : (d ++ w).drop (i + 1) = d.drop (i + 1) ++ w :=
        List.drop_append_of_le_length (by omega)
      unfold blockEndLoop
      rw [if_pos hlt, if_pos hlt', byteAt_append d w i hlt, hdrop, stringEnd_append_space _ _ hw]
      by_cases h1 : byteAt d i = 0x22
      · rw [if_pos h1, if_pos h1]
        cases hse : (stringEnd (d.drop (i + 1))).1 with
        | none => rfl
        | some se =>
          have hle := stringEnd_le _ _ hse
          simp only [List.length_drop] at hle
          simp only []
          exact ih _ _ (by omega) (by omega)
      · rw [if_neg h1, if_neg h1]
        by_cases h2 : byteAt d i = o
        · rw [if_pos h2, if_pos h2]
          exact ih _ _ (by omega) (by omega)
        · rw [if_neg h2, if_neg h2]
          by_cases h3 : byteAt d i = c
          · rw [if_pos h3, if_pos h3]
            by_cases h4 : level - 1 = 0
            · rw [if_pos h4, if_pos h4]
            · rw [if_neg h4, if_neg h4]
              exact ih _ _ (by omega) (by omega)
          · rw [if_neg h3, if_neg h3]
            exact ih _ _ (by omega) (by omega)
    · rw [blockEndLoop_over_space d w o c hw ho hc _ _ _ (by omega)]
      unfold blockEndLoop
      rw [if_neg hlt]

theorem blockEnd_append_space (d w : Bytes) (o c : Nat) (hw : w.all isSpace = true)
    (ho : isSpace o = false) (hc : isSpace c = false) :
    blockEnd (d ++ w) o c = blockEnd d o c := by
  unfold blockEnd
  have e : (d ++ w).length + 1 = (d.length + 1) + w.length := by
    rw [List.length_append]; omega
  rw [e]
  exact blockEndLoop_append_space d w o c hw ho hc _ _ 0 0 (Nat.zero_le _) (by omega)

theorem blockEndLoop_le (d : Bytes) (o c : Nat) (fuel i : Nat) (level : ℤ) (e : Nat)
    (h : blockEndLoop d o c fuel i level = some e) : e ≤ d.length := by
  induction fuel generalizing i level with
  | zero => simp [blockEndLoop] at h
  | succ f ih =>
    unfold blockEndLoop at h
    by_cases hlt : i < d.length
    · rw [if_pos hlt] at h
      split_ifs at h
      · split at h
        · cases h
        · exact ih _ _ h
      · exact ih _ _ h
      · simp only [Option.some.injEq] at h; omega
      · exact ih _ _ h
      · exact ih _ _ h
    · rw [if_neg hlt] at h
      cases h

theorem blockEnd_le (d : Bytes) (o c : Nat) (e : Nat) (h : blockEnd d o c = some e) :
    e ≤ d.length :=
  blockEndLoop_le d o c _ _ _ e h

theorem getType_append_space (data w : Bytes) (off : Nat) (hw : w.all isSpace = true)
    (hoff : off < data.length) : getType (data ++ w) off = getType data off := by
  have hd0 : (data ++ w).drop off = data.drop off ++ w :=
    List.drop_append_of_le_length (by omega)
  have hd1 : (data ++ w).drop (off + 1) = data.drop (off + 1) ++ w :=
    List.drop_append_of_le_length (by omega)
  have hlen0 : (data.drop off).length = data.length - off := List.length_drop _ _
  have hlen1 : (data.drop (off + 1)).length = data.length - (off + 1) := List.length_drop _ _
  unfold getType
  rw [byteAt_append data w off hoff, hd0, hd1, stringEnd_append_space _ _ hw,
    blockEnd_append_space _ _ _ _ hw (by decide) (by decide),
    blockEnd_append_space _ _ _ _ hw (by decide) (by decide),
    tokenEnd_append_space _ _ hw]
  by_cases h1 : byteAt data off = 0x22
  · rw [if_pos h1, if_pos h1]
    cases hse : (stringEnd (data.drop (off + 1))).1 with
    | none => rfl
    | some idx =>
      have hle := stringEnd_le _ _ hse
      simp only []
      rw [List.take_append_of_le_length (by omega)]
  · rw [if_neg h1, if_neg h1]
    by_cases h2 : byteAt data off = 0x5B
    · rw [if_pos h2, if_pos h2]
      cases hbe : blockEnd (data.drop off) 0x5B 0x5D with
      | none => rfl
      | some e =>
        have hle := blockEnd_le _ _ _ _ hbe
        simp only []
        rw [List.take_append_of_le_length hle]
    · rw [if_neg h2, if_neg h2]
      by_cases h3 : byteAt data off = 0x7B
      · rw [if_pos h3, if_pos h3]
        cases hbe : blockEnd (data.drop off) 0x7B 0x7D with
        | none => rfl
        | some e =>
          have hle := blockEnd_le _ _ _ _ hbe
          simp only []
          rw [List.take_append_of_le_length hle]
      · rw [if_neg h3, if_neg h3]
        simp only []
        rw [List.take_append_of_le_length (tokenEnd_le _)]

theorem Get_append_space (d w : Bytes) (hw : w.all isSpace = true) :
    Get (d ++ w) = Get d := by
  unfold Get
  rw [nextToken_append_space d w hw]
  cases hn : nextToken d with
  | none => rfl
  | some nO =>
    simp only []
    rw [getType_append_space d w nO hw (nextToken_lt d nO hn)]

theorem getType_le (data : Bytes) (off : Nat) (hoff : off < data.length)
    (v : Bytes) (t : ValueType) (e : Nat) (h : getType data off = .ok (v, t, e)) :
    e ≤ data.length := by
  have hlen0 : (data.drop off).length = data.length - off := List.length_drop _ _
  have hlen1 : (data.drop (off + 1)).length = data.length - (off + 1) := List.length_drop _ _
  unfold getType at h
  by_cases h1 : byteAt data off = 0x22
  · rw [if_pos h1] at h
    cases hse : (stringEnd (data.drop (off + 1))).1 with
    | none => rw [hse] at h; cases h
    | some idx =>
      rw [hse] at h
      have hle := stringEnd_le _ _ hse
      simp only [Except.ok.injEq, Prod.mk.injEq] at h
      omega
  · rw [if_neg h1] at h
    by_cases h2 : byteAt data off = 0x5B
    · rw [if_pos h2] at h
      cases hbe : blockEnd (data.drop off) 0x5B 0x5D with
      | none => rw [hbe] at h; cases h
      | some e' =>
        rw [hbe] at h
        have hle := blockEnd_le _ _ _ _ hbe
        simp only [Except.ok.injEq, Prod.mk.injEq] at h
        omega
    · rw [if_neg h2] at h
      by_cases h3 : byteAt data off = 0x7B
      · rw [if_pos h3] at h
        cases hbe : blockEnd (data.drop off) 0x7B 0x7D with
        | none => rw [hbe] at h; cases h
        | some e' =>
          rw [hbe] at h
          have hle := blockEnd_le _ _ _ _ hbe
          simp only [Except.ok.injEq, Prod.mk.injEq] at h
          omega
      · rw [if_neg h3] at h
        have hte := tokenEnd_le (data.drop off)
        simp only [] at h
        split_ifs at h <;> cases h <;> omega

theorem Get_le (d : Bytes) (v : Bytes) (t : ValueType) (o : Nat)
    (h : Get d = .ok (v, t, o)) : o ≤ d.length := by
  unfold Get at h
  cases hn : nextToken d with
  | none => rw [hn] at h; cases h
  | some nO =>
    rw [hn] at h
    simp only [] at h
    cases hg : getType d nO with
    | error e => rw [hg] at h; cases h
    | ok r =>
      obtain ⟨value, dataType, endOffset⟩ := r
      rw [hg] at h
      have hle := getType_le d nO (nextToken_lt d nO hn) _ _ _ hg
      simp only [] at h
      split_ifs at h <;> cases h <;> omega

theorem arrayEachLoop_append_space (data w : Bytes) (hw : w.all isSpace = true)
    (fuel k offset : Nat) (acc : List (Bytes × ValueType))
    (ho : offset ≤ data.length) (hf : data.length + 1 ≤ fuel + offset) :
    arrayEachLoop (data ++ w) (fuel + k) offset acc = arrayEachLoop data fuel offset acc := by
  induction fuel generalizing offset acc with
  | zero => omega
  | succ f ih =>
    have e : f + 1 + k = (f + k) + 1 := by omega
    rw [e]
    unfold arrayEachLoop
    rw [List.drop_append_of_le_length ho, Get_append_space _ _ hw]
    cases hg : Get (data.drop offset) with
    | error err => rfl
    | ok r =>
      obtain ⟨v, t, o⟩ := r
      have hle := Get_le _ _ _ _ hg
      rw [List.length_drop] at hle
      simp only []
      by_cases ho0 : o = 0
      · rw [if_pos ho0, if_pos ho0]
      · rw [if_neg ho0, if_neg ho0]
        rw [List.drop_append_of_le_length (by omega), nextToken_append_space _ _ hw]
        cases hn : nextToken (data.drop (offset + o)) with
        | none => rfl
        | some skip =>
          have hlt := nextToken_lt _ _ hn
          rw [List.length_drop] at hlt
          simp only []
          rw [byteAt_append data w _ (by omega)]
          by_cases h1 : byteAt data (offset + o + skip) = 0x5D
          · rw [if_pos h1, if_pos h1]
          · rw [if_neg h1, if_neg h1]
            by_cases h2 : byteAt data (offset + o + skip) ≠ 0x2C
            · rw [if_pos h2, if_pos h2]
            · rw [if_neg h2, if_neg h2]
              exact ih _ _ (by omega) (by omega)

theorem ArrayEach_append_space (data w : Bytes) (hw : w.all isSpace = true) :
    (ArrayEach (data ++ w)).1 = (ArrayEach data).1 := by
  by_cases hd : data.length = 0
  · have hnil : data = [] := List.length_eq_zero.mp hd
    subst hnil
    simp only [List.nil_append, ArrayEach, List.length_nil, if_true]
    split_ifs
    · rfl
    · rw [nextToken_space w hw]
  · unfold ArrayEach
    rw [if_neg hd, if_neg (by rw [List.length_append]; omega), nextToken_append_space _ _ hw]
    cases hn : nextToken data with
    | none => rfl
    | some nT =>
      have hlt := nextToken_lt _ _ hn
      simp only []
      rw [List.drop_append_of_le_length (by omega), nextToken_append_space _ _ hw]
      cases hn2 : nextToken (data.drop (nT + 1)) with
      | none => rfl
      | some nO =>
        have hlt2 := nextToken_lt _ _ hn2
        rw [List.length_drop] at hlt2
        simp only []
        rw [byteAt_append data w _ (by omega)]
        by_cases h1 : byteAt data (nT + 1 + nO) = 0x5D
        · rw [if_pos h1, if_pos h1]
        · rw [if_neg h1, if_neg h1, List.length_append,
            arrayEachLoop_append_space data w hw _ _ _ _ (by omega) (by omega)]

theorem objectEachMembers_append_space (data w : Bytes) (hw : w.all isSpace = true)
    (fuel k offset : Nat) (acc : List (Bytes × Bytes × ValueType))
    (ho : offset < data.length) (hf : data.length + 1 ≤ fuel + offset) :
    objectEachMembers (data ++ w) (fuel + k) offset acc = objectEachMembers data fuel offset acc := by
  induction fuel generalizing offset acc with
  | zero => omega
  | succ f ih =>
    have e : f + 1 + k = (f + k) + 1 := by omega
    rw [e]
    unfold objectEachMembers
    rw [if_pos ho, if_pos (by rw [List.length_append]; omega), byteAt_append data w _ ho]
    by_cases h1 : byteAt data offset = 0x7D
    · rw [if_pos h1, if_pos h1]
    rw [if_neg h1, if_neg h1]
    by_cases h2 : byteAt data offset ≠ 0x22
    · rw [if_pos h2, if_pos h2]
    rw [if_neg h2, if_neg h2]
    simp only []
    rw [List.drop_append_of_le_length (by omega), stringEnd_append_space _ _ hw]
    rcases hse : stringEnd (data.drop (offset + 1)) with ⟨_ | off, keyEscaped⟩
    · rfl
    have hle := stringEnd_le _ off (by rw [hse])
    rw [List.length_drop] at hle
    simp only []
    rw [List.take_append_of_le_length (by rw [List.length_drop]; omega)]
    cases hk : (if keyEscaped = true then Unescape ((data.drop (offset + 1)).take (off - 1))
        else Except.ok ((data.drop (offset + 1)).take (off - 1))) with
    | error err => rfl
    | ok key =>
      simp only []
      rw [List.drop_append_of_le_length (by omega), nextToken_append_space _ _ hw]
      cases hn1 : nextToken (data.drop (offset + 1 + off)) with
      | none => rfl
      | some off2 =>
        have hlt1 := nextToken_lt _ _ hn1
        rw [List.length_drop] at hlt1
        simp only []
        rw [byteAt_append data w _ (by omega)]
        by_cases h3 : byteAt data (offset + 1 + off + off2) ≠ 0x3A
        · rw [if_pos h3, if_pos h3]
        rw [if_neg h3, if_neg h3]
        rw [List.drop_append_of_le_length (by omega), Get_append_space _ _ hw]
        cases hg : Get (data.drop (offset + 1 + off + off2 + 1)) with
        | error err => rfl
        | ok r =>
          obtain ⟨value, valueType, off3⟩ := r
          have hle3 := Get_le _ _ _ _ hg
          rw [List.length_drop] at hle3
          simp only []
          rw [List.drop_append_of_le_length (by omega), nextToken_append_space _ _ hw]
          cases hn2 : nextToken (data.drop (offset + 1 + off + off2 + 1 + off3)) with
          | none => rfl
          | some off4 =>
            have hlt2 := nextToken_lt _ _ hn2
            rw [List.length_drop] at hlt2
            simp only []
            rw [byteAt_append data w _ (by omega)]
            by_cases h4 : byteAt data (offset + 1 + off + off2 + 1 + off3 + off4) = 0x7D
            · rw [if_pos h4, if_pos h4]
            rw [if_neg h4, if_neg h4]
            by_cases h5 : byteAt data (offset + 1 + off + off2 + 1 + off3 + off4) ≠ 0x2C
            · rw [if_pos h5, if_pos h5]
            rw [if_neg h5, if_neg h5]
            rw [List.drop_append_of_le_length (by omega), nextToken_append_space _ _ hw]
            cases hn3 : nextToken (data.drop (offset + 1 + off + off2 + 1 + off3 + off4 + 1)) with
            | none => rfl
            | some off5 =>
              have hlt3 := nextToken_lt _ _ hn3
              rw [List.length_drop] at hlt3
              simp only []
              exact ih _ _ (by omega) (by omega)

theorem ObjectEach_append_space (data w : Bytes) (hw : w.all isSpace = true) :
    ObjectEach (data ++ w) = ObjectEach data := by
  unfold ObjectEach
  rw [nextToken_append_space _ _ hw]
  cases hn : nextToken data with
  | none => rfl
  | some off =>
    have hlt := nextToken_lt _ _ hn
    simp only []
    rw [byteAt_append data w _ hlt]
    by_cases h1 : byteAt data off ≠ 0x7B
    · rw [if_pos h1, if_pos h1]
    rw [if_neg h1, if_neg h1]
    rw [List.drop_append_of_le_length (by omega), nextToken_append_space _ _ hw]
    cases hn2 : nextToken (data.drop (off + 1)) with
    | none => rfl
    | some off2 =>
      have hlt2 := nextToken_lt _ _ hn2
      rw [List.length_drop] at hlt2
      simp only []
      rw [byteAt_append data w _ (by omega)]
      by_cases h2 : byteAt data (off + 1 + off2) = 0x7D
      · rw [if_pos h2, if_pos h2]
      · rw [if_neg h2, if_neg h2, List.length_append,
          objectEachMembers_append_space data w hw _ _ _ _ (by omega) (by omega)]

end jsonparser

/-- White space behind the input changes neither the elements `jsonparser.ArrayEach` reports
nor the members and the error `jsonparser.ObjectEach` reports. -/
theorem jsonparserTokenizer_append_space (data w : Bytes) (hw : w.all isSpace = true) :
    jsonparserTokenizer.ArrayEach (data ++ w) = jsonparserTokenizer.ArrayEach data ∧
    jsonparserTokenizer.ObjectEach (data ++ w) = jsonparserTokenizer.ObjectEach data :=
  ⟨jsonparser.ArrayEach_append_space data w hw, jsonparser.ObjectEach_append_space data w hw⟩

/-- Witness of C8: white space around the number `12` (in front only), the string `"a b"`, the
array `[1, [2]]` and an object, with the tokenizer `jsonparser`. -/
theorem Unmarshal_surrounding_space_witness :
    IgnoresTrailingSpace jsonparserTokenizer ∧
    (∃ v, Unmarshal decimalFloat jsonparserTokenizer (ascii " \t12") = .ok v ∧ v.String = ascii "12") ∧
    (∃ v, Unmarshal decimalFloat jsonparserTokenizer (ascii "\r\n\"a b\" \n") = .ok v ∧
      v.stringValue = ascii "a b") ∧
    (∃ v, Unmarshal decimalFloat jsonparserTokenizer (ascii " [1, [2]] \n") = .ok v ∧
      v.String = ascii "[1, [2]]") ∧
    (∃ v, Unmarshal decimalFloat jsonparserTokenizer (ascii " \x7b\"k\": [true]\x7d\t") = .ok v ∧
      v.String = ascii "\x7bk: [true]\x7d") :=
  ⟨jsonparserTokenizer_append_space,
   ⟨_, Unmarshal_surrounding_space decimalFloat jsonparserTokenizer (ascii "12") (ascii " \t") []
      _ rfl (by decide) (by decide) (Or.inl rfl), rfl⟩,
   ⟨_, Unmarshal_surrounding_space decimalFloat jsonparserTokenizer (ascii "\"a b\"") (ascii "\r\n")
      (ascii " \n") _ rfl (by decide) (by decide) (Or.inr (Or.inl rfl)), rfl⟩,
   ⟨_, Unmarshal_surrounding_space decimalFloat jsonparserTokenizer (ascii "[1, [2]]") (ascii " ")
      (ascii " \n") _ rfl (by decide) (by decide)
      (Or.inr (Or.inr ⟨Or.inl rfl, jsonparserTokenizer_append_space⟩)), rfl⟩,
   ⟨_, Unmarshal_surrounding_space decimalFloat jsonparserTokenizer (ascii "\x7b\"k\": [true]\x7d")
      (ascii " ") (ascii "\t") _ rfl (by decide) (by decide)
      (Or.inr (Or.inr ⟨Or.inr rfl, jsonparserTokenizer_append_space⟩)), rfl⟩⟩

/-- Witness of C2, for the round trip of strings without raw control characters: the string
`a`, newline, `"`, U+00E9, U+4E2D, U+1F600. -/
theorem escape_unescape_control_character_witness :
    parseStringNoQuote (escapeStringToBuff (utf8 [0x61, 0x0A, 0x22, 0xE9, 0x4E2D, 0x1F600]) []) =
      .ok (utf8 [0x61, 0x0A, 0x22, 0xE9, 0x4E2D, 0x1F600]) :=
  escape_unescape_control_character.2.2 [0x61, 0x0A, 0x22, 0xE9, 0x4E2D, 0x1F600] (by decide)

/-- Witness of C7, for the statement over every tokenizer: `jsonparser` on `["\q"]`. -/
theorem newFromArray_drops_malformed_string_witness :
    newFromArray decimalFloat jsonparserTokenizer 1 (ascii "[\"\\q\"]") =
      .ok { new decimalFloat with valueType := .Array } :=
  (newFromArray_drops_malformed_string decimalFloat).2.2.2.1 jsonparserTokenizer 0
    (ascii "[\"\\q\"]") (ascii "\\q") .jsonUnmarshal (by decide) (by decide)

/-! ## Claims C14 and C15: what `Unmarshal` does with the first byte -/

theorem dropWhile_eq_nil_of_all (p : Nat → Bool) (w : Bytes) (hw : w.all p = true) :
    w.dropWhile p = [] := by
  have := dropWhile_append_all p w [] hw
  simpa using this

theorem Unmarshal_eq_unmarshalLoop {F : Type} (fl : Float64Ops F) (jp : Tokenizer) (b : Bytes)
    (hb : b ≠ []) :
    Unmarshal fl jp b = unmarshalLoop fl jp (b.length + 1) (b.dropWhile isSpace) := by
  unfold Unmarshal
  rw [if_neg (by simpa using hb)]
  exact unmarshalLoop_dropWhile fl jp _ b

/-- C14 (as amended): for empty input `Unmarshal` returns no value and the nil-parameter error;
for input that consists only of white space (space, `\r`, `\n`, `\t`) and for input whose first
byte after the white space is none of `\x7b`, `[`, a digit, `-`, `"`, `t`, `f`, `n` it returns
no value and the unrecognized-input error. -/
theorem Unmarshal_empty_and_unrecognized {F : Type} (fl : Float64Ops F) (jp : Tokenizer)
    (b : Bytes) :
    (b = [] → Unmarshal fl jp b = .error .ErrNilParameter) ∧
    (b ≠ [] → b.all isSpace = true → Unmarshal fl jp b = .error .ErrRawBytesUnrecignized) ∧
    (∀ c cs, b.dropWhile isSpace = c :: cs →
      c ≠ 0x7B → c ≠ 0x5B → ¬ (0x30 ≤ c ∧ c ≤ 0x39) → c ≠ 0x2D → c ≠ 0x22 → c ≠ 0x74 →
      c ≠ 0x66 → c ≠ 0x6E → Unmarshal fl jp b = .error .ErrRawBytesUnrecignized) := by
  refine ⟨?_, ?_, ?_⟩
  · intro h
    subst h
    rfl
  · intro hne hall
    rw [Unmarshal_eq_unmarshalLoop fl jp b hne, dropWhile_eq_nil_of_all _ _ hall]
    rfl
  · intro c cs hcs h1 h2 h3 h4 h5 h6 h7 h8
    have hne : b ≠ [] := by
      intro h
      subst h
      cases hcs
    have hsp := dropWhile_head_not _ _ _ _ hcs
    have hns : ¬ (c = 0x20 ∨ c = 0x0D ∨ c = 0x0A ∨ c = 0x09) := by
      intro hh
      have : isSpace c = true := by
        simp only [isSpace, Bool.or_eq_true, beq_iff_eq]; omega
      rw [hsp] at this; cases this
    rw [Unmarshal_eq_unmarshalLoop fl jp b hne, hcs]
    unfold unmarshalLoop
    rw [if_neg hns, if_neg h1, if_neg h2, if_neg (by omega), if_neg h5, if_neg h6, if_neg h7,
      if_neg h8]

/-- Witness of C14: the empty input, the input of two spaces and a line feed, and the input
`  x`. -/
theorem Unmarshal_empty_and_unrecognized_witness :
    Unmarshal decimalFloat jsonparserTokenizer [] = .error .ErrNilParameter ∧
    Unmarshal decimalFloat jsonparserTokenizer (ascii "  \n") = .error .ErrRawBytesUnrecignized ∧
    Unmarshal decimalFloat jsonparserTokenizer (ascii "  x") = .error .ErrRawBytesUnrecignized :=
  ⟨(Unmarshal_empty_and_unrecognized decimalFloat jsonparserTokenizer []).1 rfl,
   (Unmarshal_empty_and_unrecognized decimalFloat jsonparserTokenizer (ascii "  \n")).2.1
      (by decide) (by decide),
   (Unmarshal_empty_and_unrecognized decimalFloat jsonparserTokenizer (ascii "  x")).2.2
      0x78 [] (by decide) (by decide) (by decide) (by decide) (by decide) (by decide)
      (by decide) (by decide) (by decide)⟩

/-- Counterexample to C14 as stated: on the empty input `Unmarshal` fails with the
nil-parameter error, which is not the unrecognized-input error it returns for the input `x`. -/
theorem Unmarshal_empty_is_not_unrecognized :
    Unmarshal decimalFloat jsonparserTokenizer [] = .error .ErrNilParameter ∧
    Unmarshal decimalFloat jsonparserTokenizer (ascii "x") = .error .ErrRawBytesUnrecignized ∧
    Unmarshal decimalFloat jsonparserTokenizer [] ≠
      Unmarshal decimalFloat jsonparserTokenizer (ascii "x") :=
  ⟨rfl, rfl, fun h => by
    have h2 : (Except.error Error.ErrNilParameter : Except Error (V Decimal)) =
        .error .ErrRawBytesUnrecignized := h
    cases h2⟩

/-- C15: when the first byte after the white space is `t`, `f` or `n`, `Unmarshal` succeeds
exactly when the input from that byte on is `true`, `false` or `null`, and then returns the
Boolean true, the Boolean false or Null; otherwise it returns no value and the invalid-boolean
error (after `t` and `f`) or the invalid-null error (after `n`). -/
theorem Unmarshal_true_false_null {F : Type} (fl : Float64Ops F) (jp : Tokenizer)
    (w : Bytes) (c : Nat) (cs : Bytes) (hw : w.all isSpace = true) :
    (c = 0x74 →
      Unmarshal fl jp (w ++ c :: cs) =
        if c :: cs = ascii "true" then .ok { new fl with valueType := .Boolean, boolValue := true }
        else .error .ErrNotValidBoolValue) ∧
    (c = 0x66 →
      Unmarshal fl jp (w ++ c :: cs) =
        if c :: cs = ascii "false" then .ok { new fl with valueType := .Boolean, boolValue := false }
        else .error .ErrNotValidBoolValue) ∧
    (c = 0x6E →
      Unmarshal fl jp (w ++ c :: cs) =
        if c :: cs = ascii "null" then .ok { new fl with valueType := .Null }
        else .error .ErrNotValidNulllValue) := by
  have hne : w ++ c :: cs ≠ [] := by simp
  have hloop : ∀ d, unmarshalLoop fl jp d (w ++ c :: cs) = unmarshalLoop fl jp d (c :: cs) :=
    fun d => unmarshalLoop_skip_space fl jp d w (c :: cs) hw
  have hU : Unmarshal fl jp (w ++ c :: cs) =
      unmarshalLoop fl jp ((w ++ c :: cs).length + 1) (c :: cs) := by
    unfold Unmarshal
    rw [if_neg (by simp), hloop]
  rw [hU]
  refine ⟨?_, ?_, ?_⟩
  · intro h
    subst h
    unfold unmarshalLoop
    rw [if_neg (by omega), if_neg (by omega), if_neg (by omega), if_neg (by omega),
      if_neg (by omega), if_pos rfl]
    unfold newFromTrue
    by_cases hh : (0x74 :: cs : Bytes) = ascii "true"
    · rw [if_neg (by simpa using hh), if_pos hh]
    · rw [if_pos hh, if_neg hh]
  · intro h
    subst h
    unfold unmarshalLoop
    rw [if_neg (by omega), if_neg (by omega), if_neg (by omega), if_neg (by omega),
      if_neg (by omega), if_neg (by omega), if_pos rfl]
    unfold newFromFalse
    by_cases hh : (0x66 :: cs : Bytes) = ascii "false"
    · rw [if_neg (by simpa using hh), if_pos hh]
    · rw [if_pos hh, if_neg hh]
  · intro h
    subst h
    unfold unmarshalLoop
    rw [if_neg (by omega), if_neg (by omega), if_neg (by omega), if_neg (by omega),
      if_neg (by omega), if_neg (by omega), if_neg (by omega), if_pos rfl]
    unfold newFromNull
    by_cases hh : (0x6E :: cs : Bytes) = ascii "null"
    · rw [if_neg (by simpa using hh), if_pos hh]
    · rw [if_pos hh, if_neg hh]

/-- Witness of C15: the inputs ` true`, `false`, `null`, `tru`, `falsy` and `null ` (with a
space behind it). -/
theorem Unmarshal_true_false_null_witness :
    Unmarshal decimalFloat jsonparserTokenizer (ascii " true") =
      .ok { new decimalFloat with valueType := .Boolean, boolValue := true } ∧
    Unmarshal decimalFloat jsonparserTokenizer (ascii "false") =
      .ok { new decimalFloat with valueType := .Boolean, boolValue := false } ∧
    Unmarshal decimalFloat jsonparserTokenizer (ascii "null") =
      .ok { new decimalFloat with valueType := .Null } ∧
    Unmarshal decimalFloat jsonparserTokenizer (ascii "tru") = .error .ErrNotValidBoolValue ∧
    Unmarshal decimalFloat jsonparserTokenizer (ascii "falsy") = .error .ErrNotValidBoolValue ∧
    Unmarshal decimalFloat jsonparserTokenizer (ascii "null ") = .error .ErrNotValidNulllValue :=
  ⟨(Unmarshal_true_false_null decimalFloat jsonparserTokenizer (ascii " ") 0x74 (ascii "rue")
      (by decide)).1 rfl,
   (Unmarshal_true_false_null decimalFloat jsonparserTokenizer [] 0x66 (ascii "alse")
      (by decide)).2.1 rfl,
   (Unmarshal_true_false_null decimalFloat jsonparserTokenizer [] 0x6E (ascii "ull")
      (by decide)).2.2 rfl,
   (Unmarshal_true_false_null decimalFloat jsonparserTokenizer [] 0x74 (ascii "ru")
      (by decide)).1 rfl,
   (Unmarshal_true_false_null decimalFloat jsonparserTokenizer [] 0x66 (ascii "alsy")
      (by decide)).2.1 rfl,
   (Unmarshal_true_false_null decimalFloat jsonparserTokenizer [] 0x6E (ascii "ull ")
      (by decide)).2.2 rfl⟩

/-! ## The fields of a parsed value -/

theorem arrayCallback_frame {F : Type} (fl : Float64Ops F)
    (fO fA : Bytes → Except Error (V F)) (st : ArrayState F) (v : Bytes) (t : ValueType) :
    (arrayCallback fl fO fA st v t).o =
      { st.o with arrayChildren := (arrayCallback fl fO fA st v t).o.arrayChildren } := by
  obtain ⟨⟨a1, a2, a3, a4, a5, a6, a7, a8, a9, a10, a11⟩, err⟩ := st
  unfold arrayCallback
  split_ifs
  · rfl
  · simp only []
    split <;> first
      | rfl
      | (split <;> rfl)

theorem foldl_arrayCallback_frame {F : Type} (fl : Float64Ops F)
    (fO fA : Bytes → Except Error (V F)) (l : List (Bytes × ValueType)) (st : ArrayState F) :
    (l.foldl (fun st vt => arrayCallback fl fO fA st vt.1 vt.2) st).o =
      { st.o with arrayChildren :=
          (l.foldl (fun st vt => arrayCallback fl fO fA st vt.1 vt.2) st).o.arrayChildren } := by
  induction l generalizing st with
  | nil =>
    obtain ⟨⟨a1, a2, a3, a4, a5, a6, a7, a8, a9, a10, a11⟩, err⟩ := st
    rfl
  | cons x xs ih =>
    rw [List.foldl_cons]
    have h1 := ih (arrayCallback fl fO fA st x.1 x.2)
    have h2 := arrayCallback_frame fl fO fA st x.1 x.2
    exact h1.trans (by rw [h2])

theorem objectCallback_frame {F : Type} (fl : Float64Ops F)
    (fO fA : Bytes → Except Error (V F)) (o : V F) (k v : Bytes) (t : ValueType) (o1 : V F)
    (h : objectCallback fl fO fA o k v t = .ok o1) :
    o1 = { o with objectChildren := o1.objectChildren } := by
  obtain ⟨a1, a2, a3, a4, a5, a6, a7, a8, a9, a10, a11⟩ := o
  unfold objectCallback at h
  split at h
  · cases h
  · simp only [] at h
    split at h
    all_goals first
      | (split at h
         · cases h
         · cases h; rfl)
      | cases h

theorem objectEachLoop_frame {F : Type} (fl : Float64Ops F)
    (fO fA : Bytes → Except Error (V F)) (l : List (Bytes × Bytes × ValueType)) (o o1 : V F)
    (h : objectEachLoop (objectCallback fl fO fA) l o = .ok o1) :
    o1 = { o with objectChildren := o1.objectChildren } := by
  induction l generalizing o with
  | nil =>
    simp only [objectEachLoop, Except.ok.injEq] at h
    subst h
    obtain ⟨a1, a2, a3, a4, a5, a6, a7, a8, a9, a10, a11⟩ := o
    rfl
  | cons x xs ih =>
    obtain ⟨k, v, t⟩ := x
    unfold objectEachLoop at h
    cases hc : objectCallback fl fO fA o k v t with
    | error e => rw [hc] at h; cases h
    | ok o2 =>
      rw [hc] at h
      have h1 := ih o2 h
      have h2 := objectCallback_frame fl fO fA o k v t o2 hc
      exact h1.trans (by rw [h2])

/-- An Array that `newFromArray` returns is a fresh node with the Array tag and its children:
no other field is written. -/
theorem newFromArray_frame {F : Type} (fl : Float64Ops F) (jp : Tokenizer) (d : Nat)
    (b : Bytes) (v : V F) (h : newFromArray fl jp d b = .ok v) :
    v = { new fl with valueType := .Array, arrayChildren := v.arrayChildren } := by
  cases d with
  | zero => simp [newFromArray] at h
  | succ d =>
    rw [newFromArray] at h
    simp only [] at h
    split at h
    · cases h
    · simp only [Except.ok.injEq] at h
      have := foldl_arrayCallback_frame fl (newFromObject fl jp d) (newFromArray fl jp d)
        (jp.ArrayEach b) { o := { new fl with valueType := .Array }, err := none }
      rw [h] at this
      exact this

/-- An Object that `newFromObject` returns is a fresh node with the Object tag and its members:
no other field is written. -/
theorem newFromObject_frame {F : Type} (fl : Float64Ops F) (jp : Tokenizer) (d : Nat)
    (b : Bytes) (v : V F) (h : newFromObject fl jp d b = .ok v) :
    v = { new fl with valueType := .Object, objectChildren := v.objectChildren } := by
  cases d with
  | zero => simp [newFromObject] at h
  | succ d =>
    rw [newFromObject] at h
    simp only [] at h
    cases hl : objectEachLoop (objectCallback fl (newFromObject fl jp d) (newFromArray fl jp d))
        (jp.ObjectEach b).1 { new fl with valueType := .Object } with
    | error e => rw [hl] at h; cases h
    | ok o1 =>
      rw [hl] at h
      have := objectEachLoop_frame fl _ _ _ _ _ hl
      simp only [] at h
      cases h2 : (jp.ObjectEach b).2 with
      | some e => rw [h2] at h; cases h
      | none =>
        rw [h2] at h
        cases h
        exact this

/-- What a successful `Unmarshal` has done: with `lit` the input from its first byte that is no
white space on, the value is a fresh Object or Array with children only, or the result of
`newFromNumber` on `lit`, or a fresh String, Boolean or Null. -/
theorem Unmarshal_ok_cases {F : Type} (fl : Float64Ops F) (jp : Tokenizer) (b : Bytes) (v : V F)
    (h : Unmarshal fl jp b = .ok v) :
    v = { new fl with valueType := .Object, objectChildren := v.objectChildren } ∨
    v = { new fl with valueType := .Array, arrayChildren := v.arrayChildren } ∨
    (v.valueType = .Number ∧ newFromNumber fl (b.dropWhile isSpace) = .ok v) ∨
    v = { new fl with valueType := .String, stringValue := v.stringValue } ∨
    v = { new fl with valueType := .Boolean, boolValue := v.boolValue } ∨
    v = { new fl with valueType := .Null } := by
  have hne : b ≠ [] := by
    intro hb
    subst hb
    cases h
  rw [Unmarshal_eq_unmarshalLoop fl jp b hne] at h
  generalize b.length + 1 = D at h
  cases hlit : b.dropWhile isSpace with
  | nil => rw [hlit] at h; cases h
  | cons c cs =>
    rw [hlit] at h
    have hsp := dropWhile_head_not _ _ _ _ hlit
    have hns : ¬ (c = 0x20 ∨ c = 0x0D ∨ c = 0x0A ∨ c = 0x09) := by
      intro hh
      have : isSpace c = true := by
        simp only [isSpace, Bool.or_eq_true, beq_iff_eq]; omega
      rw [hsp] at this; cases this
    unfold unmarshalLoop at h
    rw [if_neg hns] at h
    split_ifs at h
    · exact Or.inl (newFromObject_frame fl jp D _ v h)
    · exact Or.inr (Or.inl (newFromArray_frame fl jp D _ v h))
    · exact Or.inr (Or.inr (Or.inl ⟨newFromNumber_valueType fl _ v h, h⟩))
    · refine Or.inr (Or.inr (Or.inr (Or.inl ?_)))
      unfold newFromString at h
      simp only [] at h
      split at h
      · cases h
      · cases h; rfl
    · refine Or.inr (Or.inr (Or.inr (Or.inr (Or.inl ?_))))
      unfold newFromTrue at h
      split_ifs at h
      cases h; rfl
    · refine Or.inr (Or.inr (Or.inr (Or.inr (Or.inl ?_))))
      unfold newFromFalse at h
      split_ifs at h
      cases h; rfl
    · refine Or.inr (Or.inr (Or.inr (Or.inr (Or.inr ?_))))
      unfold newFromNull at h
      split_ifs at h
      cases h; rfl

/-! ## Claims C16 and C19: type predicates and accessors of a parsed value -/

theorem newFromNumber_floated {F : Type} (fl : Float64Ops F) (lit : Bytes) (v : V F)
    (h : newFromNumber fl lit = .ok v) :
    v.rawNumBytes = lit ∧ (v.floated = true ↔ 0x2E ∈ lit) ∧ v.boolValue = false := by
  unfold newFromNumber at h
  simp only [] at h
  split_ifs at h with hdot
  · split at h
    · cases h
    · cases h
      exact ⟨rfl, ⟨fun _ => hdot, fun _ => rfl⟩, rfl⟩
  · split at h
    · cases h
    · split_ifs at h
      · split at h
        · cases h
        · cases h
          exact ⟨rfl, ⟨fun hh => (by cases hh), fun hh => absurd hh hdot⟩, rfl⟩
      · split at h
        · cases h
        · cases h
          exact ⟨rfl, ⟨fun hh => (by cases hh), fun hh => absurd hh hdot⟩, rfl⟩

/-- C16: for every number literal that `Unmarshal` accepts (the input from its first byte that
is no white space on, kept as the raw text of the Number), `IsNumber` holds, `IsFloat()` is true
exactly when the literal contains a decimal point and `IsInteger()` exactly when it does not;
for every value of `Unmarshal` that is no Number, `IsInteger()` and `IsFloat()` are false. -/
theorem Unmarshal_IsFloat_IsInteger {F : Type} (fl : Float64Ops F) (jp : Tokenizer)
    (b : Bytes) (v : V F) (h : Unmarshal fl jp b = .ok v) :
    (v.valueType = .Number →
      v.IsNumber = true ∧ v.rawNumBytes = b.dropWhile isSpace ∧
      (v.IsFloat = true ↔ 0x2E ∈ b.dropWhile isSpace) ∧
      (v.IsInteger = true ↔ 0x2E ∉ b.dropWhile isSpace) ∧
      (v.IsFloat = true ↔ v.IsInteger = false)) ∧
    (v.valueType ≠ .Number → v.IsInteger = false ∧ v.IsFloat = false) := by
  have hfalse : ∀ w : V F, v = w → w.valueType ≠ .Number → w.floated = false →
      (v.valueType = .Number →
        v.IsNumber = true ∧ v.rawNumBytes = b.dropWhile isSpace ∧
        (v.IsFloat = true ↔ 0x2E ∈ b.dropWhile isSpace) ∧
        (v.IsInteger = true ↔ 0x2E ∉ b.dropWhile isSpace) ∧
        (v.IsFloat = true ↔ v.IsInteger = false)) ∧
      (v.valueType ≠ .Number → v.IsInteger = false ∧ v.IsFloat = false) := by
    intro w hw hty hfl
    subst hw
    refine ⟨fun hn => absurd hn hty, fun _ => ⟨?_, hfl⟩⟩
    simp only [V.IsInteger, Bool.and_eq_false_imp, beq_iff_eq]
    intro hn
    exact absurd hn hty
  rcases Unmarshal_ok_cases fl jp b v h with hv | hv | ⟨hty, hnum⟩ | hv | hv | hv
  · exact hfalse _ hv (by simp) rfl
  · exact hfalse _ hv (by simp) rfl
  · obtain ⟨hraw, hfl, _⟩ := newFromNumber_floated fl _ v hnum
    refine ⟨fun _ => ⟨?_, hraw, hfl, ?_, ?_⟩, fun hn => absurd hty hn⟩
    · simp [V.IsNumber, hty]
    · simp only [V.IsInteger, hty, beq_self_eq_true, Bool.true_and, beq_iff_eq]
      rw [← hfl]
      cases v.floated <;> simp
    · simp only [V.IsInteger, V.IsFloat, hty, beq_self_eq_true, Bool.true_and]
      cases v.floated <;> simp
  · exact hfalse _ hv (by simp) rfl
  · exact hfalse _ hv (by simp) rfl
  · exact hfalse _ hv (by simp) rfl

/-- Witness of C16: the literals `-1.5` (a float) and `12` (an integer), and the string
`"1.5"`, which is no Number. -/
theorem Unmarshal_IsFloat_IsInteger_witness :
    (∃ v, Unmarshal decimalFloat jsonparserTokenizer (ascii " -1.5") = .ok v ∧
      v.IsNumber = true ∧ v.IsFloat = true ∧ v.IsInteger = false) ∧
    (∃ v, Unmarshal decimalFloat jsonparserTokenizer (ascii "12") = .ok v ∧
      v.IsNumber = true ∧ v.IsFloat = false ∧ v.IsInteger = true) ∧
    (∃ v, Unmarshal decimalFloat jsonparserTokenizer (ascii "\"1.5\"") = .ok v ∧
      v.IsNumber = false ∧ v.IsFloat = false ∧ v.IsInteger = false) := by
  refine ⟨⟨_, rfl, ?_⟩, ⟨_, rfl, ?_⟩, ⟨_, rfl, ?_⟩⟩
  · have h := (Unmarshal_IsFloat_IsInteger decimalFloat jsonparserTokenizer (ascii " -1.5") _
      rfl).1 rfl
    exact ⟨h.1, h.2.2.1.mpr (by decide), h.2.2.2.2.mp (h.2.2.1.mpr (by decide))⟩
  · have h := (Unmarshal_IsFloat_IsInteger decimalFloat jsonparserTokenizer (ascii "12") _
      rfl).1 rfl
    exact ⟨h.1, rfl, h.2.2.2.1.mpr (by decide)⟩
  · have h := (Unmarshal_IsFloat_IsInteger decimalFloat jsonparserTokenizer (ascii "\"1.5\"") _
      rfl).2 (by decide)
    exact ⟨rfl, h.2, h.1⟩

/-- C19: the numeric and boolean accessors are total functions of the node, and on a value of
`Unmarshal` that is no Number `Int()`, `Uint()`, `Int64()`, `Uint64()`, `Int32()`, `Uint32()`
and `Float64()` return zero and `Float32()` the `float32` of zero; on a value that is no Boolean
`Bool()` returns false. -/
theorem Unmarshal_accessors_zero_on_mismatch {F : Type} (fl : Float64Ops F) (jp : Tokenizer)
    (b : Bytes) (v : V F) (h : Unmarshal fl jp b = .ok v) :
    (v.IsNumber = false →
      v.Int = 0 ∧ v.Uint = 0 ∧ v.Int64 = 0 ∧ v.Uint64 = 0 ∧ v.Int32 = 0 ∧ v.Uint32 = 0 ∧
      v.Float64 = fl.zero ∧ v.Float32 fl = fl.toFloat32 fl.zero) ∧
    (v.IsBoolean = false → v.Bool = false) := by
  have hzero : ∀ w : V F, v = w → w.int64Value = 0 → w.uint64Value = 0 →
      w.floatValue = fl.zero →
      (v.Int = 0 ∧ v.Uint = 0 ∧ v.Int64 = 0 ∧ v.Uint64 = 0 ∧ v.Int32 = 0 ∧ v.Uint32 = 0 ∧
        v.Float64 = fl.zero ∧ v.Float32 fl = fl.toFloat32 fl.zero) := by
    intro w hw h1 h2 h3
    subst hw
    simp only [V.Int, V.Uint, V.Int64, V.Uint64, V.Int32, V.Uint32, V.Float64, V.Float32, h1, h2,
      h3]
    decide
  have hbool : ∀ w : V F, v = w → w.boolValue = false → v.Bool = false := by
    intro w hw h1
    subst hw
    exact h1
  rcases Unmarshal_ok_cases fl jp b v h with hv | hv | ⟨hty, hnum⟩ | hv | hv | hv
  · exact ⟨fun _ => hzero _ hv rfl rfl rfl, fun _ => hbool _ hv rfl⟩
  · exact ⟨fun _ => hzero _ hv rfl rfl rfl, fun _ => hbool _ hv rfl⟩
  · refine ⟨fun hn => ?_, fun _ => (newFromNumber_floated fl _ v hnum).2.2⟩
    simp [V.IsNumber, hty] at hn
  · exact ⟨fun _ => hzero _ hv rfl rfl rfl, fun _ => hbool _ hv rfl⟩
  · refine ⟨fun _ => hzero _ hv rfl rfl rfl, fun hb => ?_⟩
    have hty := congrArg V.valueType hv
    simp only at hty
    simp [V.IsBoolean, hty] at hb
  · exact ⟨fun _ => hzero _ hv rfl rfl rfl, fun _ => hbool _ hv rfl⟩

/-- Witness of C19: the values of `"12"` (a String), `true` (a Boolean) and `[1]` (an
Array). -/
theorem Unmarshal_accessors_zero_on_mismatch_witness :
    (∃ v, Unmarshal decimalFloat jsonparserTokenizer (ascii "\"12\"") = .ok v ∧
      v.Int64 = 0 ∧ v.Uint64 = 0 ∧ v.Float64 = decimalFloat.zero ∧ v.Bool = false) ∧
    (∃ v, Unmarshal decimalFloat jsonparserTokenizer (ascii "true") = .ok v ∧
      v.Int64 = 0 ∧ v.Uint64 = 0 ∧ v.Float64 = decimalFloat.zero ∧ v.Bool = true) ∧
    (∃ v, Unmarshal decimalFloat jsonparserTokenizer (ascii "[1]") = .ok v ∧
      v.Int64 = 0 ∧ v.Uint64 = 0 ∧ v.Float64 = decimalFloat.zero ∧ v.Bool = false) := by
  refine ⟨⟨_, rfl, ?_⟩, ⟨_, rfl, ?_⟩, ⟨_, rfl, ?_⟩⟩
  · have h := Unmarshal_accessors_zero_on_mismatch decimalFloat jsonparserTokenizer
      (ascii "\"12\"") _ rfl
    have h1 := h.1 rfl
    exact ⟨h1.2.2.1, h1.2.2.2.1, h1.2.2.2.2.2.2.1, h.2 rfl⟩
  · have h := Unmarshal_accessors_zero_on_mismatch decimalFloat jsonparserTokenizer
      (ascii "true") _ rfl
    have h1 := h.1 rfl
    exact ⟨h1.2.2.1, h1.2.2.2.1, h1.2.2.2.2.2.2.1, rfl⟩
  · have h := Unmarshal_accessors_zero_on_mismatch decimalFloat jsonparserTokenizer
      (ascii "[1]") _ rfl
    have h1 := h.1 rfl
    exact ⟨h1.2.2.1, h1.2.2.2.1, h1.2.2.2.2.2.2.1, h.2 rfl⟩

/-! ## Claim C17: the projections of an integer literal -/

theorem ParseInt_neg_range (ds : Bytes) (hne : ds ≠ []) (hd : ds.all isDigit = true)
    (hv : 2 ^ 63 < decimalValue ds) : (ParseInt (0x2D :: ds)).2 = some .strconvRange := by
  have hm : maxUint64 = 18446744073709551615 := by decide
  by_cases hbig : decimalValue ds ≤ maxUint64
  · have hu := ParseUint_ok ds hne hd hbig
    simp only [ParseInt]
    simp [hu]
    rw [if_pos (by omega)]
  · have hu := ParseUint_range ds hne hd (by omega)
    simp only [ParseInt]
    simp [hu]

theorem not_dot_mem_digits (ds : Bytes) (hd : ds.all isDigit = true) : (0x2E : Nat) ∉ ds :=
  not_mem_of_all_isDigit ds 0x2E (by decide) hd

theorem not_dot_mem_neg_digits (ds : Bytes) (hd : ds.all isDigit = true) :
    (0x2E : Nat) ∉ (0x2D :: ds : Bytes) := by
  intro h
  rcases List.mem_cons.mp h with h | h
  · omega
  · exact not_dot_mem_digits ds hd h

/-- C17: for a sequence of decimal digits `ds` of value `n = decimalValue ds`: the literal
`-ds` parses when `-n ≥ -2^63`, with `Int64() = -n` and `Uint64() = -n mod 2^64`, and is
rejected with the range error otherwise; the literal `ds` parses when `n < 2^64`, with
`Uint64() = n` and `Int64() = n` for `n < 2^63` and `n - 2^64` for larger `n`, and is rejected
with the range error otherwise. -/
theorem Unmarshal_integer_projections {F : Type} (fl : Float64Ops F) (jp : Tokenizer)
    (ds : Bytes) (hne : ds ≠ []) (hd : ds.all isDigit = true) :
    (decimalValue ds ≤ 2 ^ 63 →
      ∃ v, Unmarshal fl jp (0x2D :: ds) = .ok v ∧ v.IsInteger = true ∧
        v.Int64 = -(decimalValue ds : ℤ) ∧ (v.Uint64 : ℤ) = (-(decimalValue ds : ℤ)) % 2 ^ 64) ∧
    (2 ^ 63 < decimalValue ds → Unmarshal fl jp (0x2D :: ds) = .error .strconvRange) ∧
    (decimalValue ds < 2 ^ 64 →
      ∃ v, Unmarshal fl jp ds = .ok v ∧ v.IsInteger = true ∧ v.Uint64 = decimalValue ds ∧
        v.Int64 = if decimalValue ds < 2 ^ 63 then (decimalValue ds : ℤ)
                  else (decimalValue ds : ℤ) - 2 ^ 64) ∧
    (2 ^ 64 ≤ decimalValue ds → Unmarshal fl jp ds = .error .strconvRange) := by
  have hm : maxUint64 = 18446744073709551615 := by decide
  obtain ⟨c, cs, hcs⟩ := List.exists_cons_of_ne_nil hne
  have hcd : isDigit c = true := by
    rw [hcs] at hd
    simp only [List.all_cons, Bool.and_eq_true] at hd
    exact hd.1
  have hcm : ¬ (0x2D = c) := by
    simp only [isDigit, Bool.and_eq_true, decide_eq_true_eq] at hcd
    omega
  have hU : Unmarshal fl jp ds = newFromNumber fl ds := by
    rw [hcs]
    exact Unmarshal_number fl jp c cs (Or.inl hcd)
  rw [Unmarshal_number fl jp _ _ (Or.inr rfl), hU]
  refine ⟨?_, ?_, ?_, ?_⟩
  · intro hv
    have hp := ParseInt_neg_ok ds hne hd hv
    simp only [newFromNumber, if_neg (not_dot_mem_neg_digits ds hd), parseInt, hp, if_true]
    refine ⟨_, rfl, rfl, rfl, ?_⟩
    simp only [V.Uint64, uint64OfInt64]
    exact Int.toNat_of_nonneg (Int.emod_nonneg _ (by norm_num))
  · intro hv
    have hp := ParseInt_neg_range ds hne hd hv
    simp only [newFromNumber, if_neg (not_dot_mem_neg_digits ds hd), parseInt, if_true]
    cases hq : ParseInt (0x2D :: ds) with
    | mk i e =>
      rw [hq] at hp
      simp only at hp
      subst hp
      rfl
  · intro hv
    have hp := ParseUint_ok ds hne hd (by rw [hm]; omega)
    have hnd := not_dot_mem_digits ds hd
    rw [hcs] at hp hnd ⊢
    simp only [newFromNumber, if_neg hnd, if_neg hcm, parseUint, hp]
    refine ⟨_, rfl, rfl, rfl, ?_⟩
    simp only [V.Int64, int64OfUint64]
    rw [Nat.mod_eq_of_lt (by rw [← hcs]; exact hv)]
  · intro hv
    have hp := ParseUint_range ds hne hd (by rw [hm]; omega)
    have hnd := not_dot_mem_digits ds hd
    rw [hcs] at hp hnd ⊢
    simp only [newFromNumber, if_neg hnd, if_neg hcm, parseUint, hp]

/-- Witness of C17: the digits `9223372036854775808` (the value `2^63`): the literal with a
minus sign is the least `int64`, the literal without one is read as a `uint64` and wraps to the
same `int64`. -/
theorem Unmarshal_integer_projections_witness :
    (∃ v, Unmarshal decimalFloat jsonparserTokenizer (ascii "-9223372036854775808") = .ok v ∧
      v.IsInteger = true ∧ v.Int64 = -(decimalValue (ascii "9223372036854775808") : ℤ) ∧
      (v.Uint64 : ℤ) = (-(decimalValue (ascii "9223372036854775808") : ℤ)) % 2 ^ 64) ∧
    (∃ v, Unmarshal decimalFloat jsonparserTokenizer (ascii "9223372036854775808") = .ok v ∧
      v.IsInteger = true ∧ v.Uint64 = decimalValue (ascii "9223372036854775808") ∧
      v.Int64 = if decimalValue (ascii "9223372036854775808") < 2 ^ 63
                then (decimalValue (ascii "9223372036854775808") : ℤ)
                else (decimalValue (ascii "9223372036854775808") : ℤ) - 2 ^ 64) :=
  ⟨(Unmarshal_integer_projections decimalFloat jsonparserTokenizer (ascii "9223372036854775808")
      (by decide) (by decide)).1 (by decide),
   (Unmarshal_integer_projections decimalFloat jsonparserTokenizer (ascii "9223372036854775808")
      (by decide) (by decide)).2.2.1 (by decide)⟩

/-! ## Claim C18: members with the same key -/

theorem mapSet_keys_mem {α : Type} (m : List (Bytes × α)) (key : Bytes) (c : α) (k : Bytes) :
    k ∈ (mapSet m key c).map Prod.fst ↔ k ∈ m.map Prod.fst ∨ k = key := by
  induction m with
  | nil => simp [mapSet]
  | cons x xs ih =>
    obtain ⟨k0, c0⟩ := x
    unfold mapSet
    by_cases h : k0 = key
    · rw [if_pos h]
      subst h
      simp only [List.map_cons, List.mem_cons]
      tauto
    · rw [if_neg h]
      simp only [List.map_cons, List.mem_cons, ih]
      tauto

theorem mapSet_nodup {α : Type} (m : List (Bytes × α)) (key : Bytes) (c : α)
    (h : (m.map Prod.fst).Nodup) : ((mapSet m key c).map Prod.fst).Nodup := by
  induction m with
  | nil => simp [mapSet]
  | cons x xs ih =>
    obtain ⟨k0, c0⟩ := x
    simp only [List.map_cons, List.nodup_cons] at h
    unfold mapSet
    by_cases hk : k0 = key
    · rw [if_pos hk]
      subst hk
      simp only [List.map_cons, List.nodup_cons]
      exact h
    · rw [if_neg hk]
      simp only [List.map_cons, List.nodup_cons, mapSet_keys_mem]
      exact ⟨fun hh => hh.elim h.1 hk, ih h.2⟩

theorem mapGet_mapSet_self {α : Type} (m : List (Bytes × α)) (key : Bytes) (c : α) :
    mapGet (mapSet m key c) key = some c := by
  induction m with
  | nil => simp [mapSet, mapGet]
  | cons x xs ih =>
    obtain ⟨k0, c0⟩ := x
    unfold mapSet
    by_cases hk : k0 = key
    · rw [if_pos hk]
      simp [mapGet]
    · rw [if_neg hk]
      simp only [mapGet, if_neg hk]
      exact ih

theorem mapGet_mapSet_ne {α : Type} (m : List (Bytes × α)) (key : Bytes) (c : α) (k : Bytes)
    (h : k ≠ key) : mapGet (mapSet m key c) k = mapGet m k := by
  induction m with
  | nil => simp [mapSet, mapGet, Ne.symm h]
  | cons x xs ih =>
    obtain ⟨k0, c0⟩ := x
    unfold mapSet
    by_cases hk : k0 = key
    · rw [if_pos hk]
      subst hk
      simp [mapGet, Ne.symm h]
    · rw [if_neg hk]
      simp only [mapGet]
      rw [ih]

/-- What a successful invocation of the callback of `newFromObject` does: the key it stores is
`parseStringNoQuote k`, and the child depends on the member only, not on the node. -/
theorem objectCallback_ok {F : Type} (fl : Float64Ops F)
    (fO fA : Bytes → Except Error (V F)) (o : V F) (k v : Bytes) (t : ValueType) (o1 : V F)
    (h : objectCallback fl fO fA o k v t = .ok o1) :
    ∃ key child, parseStringNoQuote k = .ok key ∧
      o1.objectChildren = mapSet o.objectChildren key child ∧
      ∀ o2 : V F, objectCallback fl fO fA o2 k v t =
        .ok { o2 with objectChildren := mapSet o2.objectChildren key child } := by
  unfold objectCallback at h ⊢
  cases hk : parseStringNoQuote k with
  | error e => rw [hk] at h; cases h
  | ok key =>
    rw [hk] at h
    simp only [] at h ⊢
    cases t with
    | Object =>
      simp only [] at h ⊢
      cases hc : fO v with
      | error e => rw [hc] at h; cases h
      | ok child => rw [hc] at h; cases h; exact ⟨key, child, rfl, rfl, fun _ => rfl⟩
    | Array =>
      simp only [] at h ⊢
      cases hc : fA v with
      | error e => rw [hc] at h; cases h
      | ok child => rw [hc] at h; cases h; exact ⟨key, child, rfl, rfl, fun _ => rfl⟩
    | Number =>
      simp only [] at h ⊢
      cases hc : newFromNumber fl v with
      | error e => rw [hc] at h; cases h
      | ok child => rw [hc] at h; cases h; exact ⟨key, child, rfl, rfl, fun _ => rfl⟩
    | Boolean =>
      simp only [] at h ⊢
      cases hc : newFromBool fl v with
      | error e => rw [hc] at h; cases h
      | ok child => rw [hc] at h; cases h; exact ⟨key, child, rfl, rfl, fun _ => rfl⟩
    | Null =>
      simp only [] at h ⊢
      cases hc : newFromNull fl v with
      | error e => rw [hc] at h; cases h
      | ok child => rw [hc] at h; cases h; exact ⟨key, child, rfl, rfl, fun _ => rfl⟩
    | String =>
      simp only [] at h ⊢
      cases hc : parseStringNoQuote v with
      | error e => rw [hc] at h; cases h
      | ok s => rw [hc] at h; cases h; exact ⟨key, _, rfl, rfl, fun _ => rfl⟩
    | NotExist => cases h
    | Unknown => cases h

theorem objectEachLoop_keys {F : Type} (fl : Float64Ops F)
    (fO fA : Bytes → Except Error (V F)) (l : List (Bytes × Bytes × ValueType)) (o o1 : V F)
    (h : objectEachLoop (objectCallback fl fO fA) l o = .ok o1)
    (hnd : (o.objectChildren.map Prod.fst).Nodup) :
    (o1.objectChildren.map Prod.fst).Nodup ∧
    ∀ key, key ∈ o1.objectChildren.map Prod.fst ↔
      key ∈ o.objectChildren.map Prod.fst ∨ ∃ m ∈ l, parseStringNoQuote m.1 = .ok key := by
  induction l generalizing o with
  | nil =>
    simp only [objectEachLoop, Except.ok.injEq] at h
    subst h
    exact ⟨hnd, fun key => by simp⟩
  | cons x xs ih =>
    obtain ⟨k, v, t⟩ := x
    unfold objectEachLoop at h
    cases hc : objectCallback fl fO fA o k v t with
    | error e => rw [hc] at h; cases h
    | ok o2 =>
      rw [hc] at h
      obtain ⟨key0, child, hk, hch, _⟩ := objectCallback_ok fl fO fA o k v t o2 hc
      have hnd2 : (o2.objectChildren.map Prod.fst).Nodup := by
        rw [hch]
        exact mapSet_nodup _ _ _ hnd
      obtain ⟨h1, h2⟩ := ih o2 h hnd2
      refine ⟨h1, fun key => ?_⟩
      rw [h2 key, hch, mapSet_keys_mem]
      simp only [List.mem_cons, exists_eq_or_imp, hk, Except.ok.injEq]
      constructor
      · rintro ((hh | hh) | hh)
        · exact Or.inl hh
        · exact Or.inr (Or.inl hh.symm)
        · exact Or.inr (Or.inr hh)
      · rintro (hh | hh | hh)
        · exact Or.inl (Or.inl hh)
        · exact Or.inl (Or.inr hh.symm)
        · exact Or.inr hh

theorem objectEachLoop_mapGet_ne {F : Type} (fl : Float64Ops F)
    (fO fA : Bytes → Except Error (V F)) (l : List (Bytes × Bytes × ValueType)) (o o1 : V F)
    (key : Bytes) (h : objectEachLoop (objectCallback fl fO fA) l o = .ok o1)
    (hl : ∀ m ∈ l, parseStringNoQuote m.1 ≠ .ok key) :
    mapGet o1.objectChildren key = mapGet o.objectChildren key := by
  induction l generalizing o with
  | nil =>
    simp only [objectEachLoop, Except.ok.injEq] at h
    subst h
    rfl
  | cons x xs ih =>
    obtain ⟨k, v, t⟩ := x
    unfold objectEachLoop at h
    cases hc : objectCallback fl fO fA o k v t with
    | error e => rw [hc] at h; cases h
    | ok o2 =>
      rw [hc] at h
      obtain ⟨key0, child, hk, hch, _⟩ := objectCallback_ok fl fO fA o k v t o2 hc
      rw [ih o2 h (fun m hm => hl m (List.mem_cons_of_mem _ hm)), hch]
      apply mapGet_mapSet_ne
      intro hkey
      subst hkey
      exact hl (k, v, t) (List.mem_cons_self _ _) hk

theorem objectEachLoop_last {F : Type} (fl : Float64Ops F)
    (fO fA : Bytes → Except Error (V F)) (pre post : List (Bytes × Bytes × ValueType))
    (k v : Bytes) (t : ValueType) (key : Bytes) (o o1 : V F)
    (h : objectEachLoop (objectCallback fl fO fA) (pre ++ (k, v, t) :: post) o = .ok o1)
    (hk : parseStringNoQuote k = .ok key)
    (hpost : ∀ m ∈ post, parseStringNoQuote m.1 ≠ .ok key) :
    ∃ child, mapGet o1.objectChildren key = some child ∧
      ∀ o2 : V F, objectCallback fl fO fA o2 k v t =
        .ok { o2 with objectChildren := mapSet o2.objectChildren key child } := by
  induction pre generalizing o with
  | nil =>
    rw [List.nil_append] at h
    unfold objectEachLoop at h
    cases hc : objectCallback fl fO fA o k v t with
    | error e => rw [hc] at h; cases h
    | ok o2 =>
      rw [hc] at h
      obtain ⟨key0, child, hk0, hch, hall⟩ := objectCallback_ok fl fO fA o k v t o2 hc
      rw [hk] at hk0
      cases hk0
      refine ⟨child, ?_, hall⟩
      rw [objectEachLoop_mapGet_ne fl fO fA post o2 o1 key h hpost, hch]
      exact mapGet_mapSet_self _ _ _
  | cons x xs ih =>
    obtain ⟨k0, v0, t0⟩ := x
    rw [List.cons_append] at h
    unfold objectEachLoop at h
    cases hc : objectCallback fl fO fA o k0 v0 t0 with
    | error e => rw [hc] at h; cases h
    | ok o2 =>
      rw [hc] at h
      exact ih o2 h

/-- The members of an Object that `newFromObject` returns: the loop of `ObjectEach` run from the
fresh node. -/
theorem newFromObject_loop {F : Type} (fl : Float64Ops F) (jp : Tokenizer) (d : Nat)
    (b : Bytes) (v : V F) (h : newFromObject fl jp d b = .ok v) :
    ∃ d0, objectEachLoop (objectCallback fl (newFromObject fl jp d0) (newFromArray fl jp d0))
      (jp.ObjectEach b).1 { new fl with valueType := .Object } = .ok v := by
  cases d with
  | zero => simp [newFromObject] at h
  | succ d =>
    refine ⟨d, ?_⟩
    rw [newFromObject] at h
    simp only [] at h
    cases hl : objectEachLoop (objectCallback fl (newFromObject fl jp d) (newFromArray fl jp d))
        (jp.ObjectEach b).1 { new fl with valueType := .Object } with
    | error e => rw [hl] at h; cases h
    | ok o1 =>
      rw [hl] at h
      simp only [] at h
      cases h2 : (jp.ObjectEach b).2 with
      | some e => rw [h2] at h; cases h
      | none =>
        rw [h2] at h
        cases h
        rfl

/-- C18: the keys of `\x7b"a\\u0062":1,"ab":2\x7d` are, unescaped, the two strings
`a\u0062` (seven characters) and `ab`, and the Object `Unmarshal` returns has the one member
`ab` with the value 2; the key `a\"b` written twice in `\x7b"a\"b":1,"a\"b":2\x7d` makes `Unmarshal` fail;
the plain key `a` written twice keeps its place and the value of its last occurrence. For every
tokenizer, the callback of `newFromObject` stores a member under `parseStringNoQuote` of the key
it is handed (`jsonparser` hands over the key already unescaped): the stored keys are pairwise
different, they are the distinct values of `parseStringNoQuote` over the members, so as many
children as such values, and a key is mapped to the child built from the last member stored
under it. -/
theorem newFromObject_unescapes_keys_twice {F : Type} (fl : Float64Ops F) :
    parseString (ascii "\"a\\\\u0062\"") = .ok (ascii "a\\u0062") ∧
    parseString (ascii "\"ab\"") = .ok (ascii "ab") ∧
    (jsonparserTokenizer.ObjectEach (ascii "\x7b\"a\\\\u0062\":1,\"ab\":2\x7d")).1.map (fun m => m.1) =
      [ascii "a\\u0062", ascii "ab"] ∧
    (Unmarshal decimalFloat jsonparserTokenizer (ascii "\x7b\"a\\\\u0062\":1,\"ab\":2\x7d")).map
      (fun v => v.objectChildren.map (fun kv => (kv.1, kv.2.rawNumBytes))) =
        .ok [(ascii "ab", ascii "2")] ∧
    Unmarshal decimalFloat jsonparserTokenizer (ascii "\x7b\"a\\\"b\":1,\"a\\\"b\":2\x7d") =
      .error .jsonUnmarshal ∧
    (Unmarshal decimalFloat jsonparserTokenizer (ascii "\x7b\"a\":1,\"b\":3,\"a\":2\x7d")).map
      (fun v => v.objectChildren.map (fun kv => (kv.1, kv.2.rawNumBytes))) =
        .ok [(ascii "a", ascii "2"), (ascii "b", ascii "3")] ∧
    (∀ (jp : Tokenizer) (d : Nat) (b : Bytes) (v : V F), newFromObject fl jp d b = .ok v →
      (v.objectChildren.map Prod.fst).Nodup ∧
      (v.objectChildren.map Prod.fst).Perm
        (((jp.ObjectEach b).1.filterMap (fun m => (parseStringNoQuote m.1).toOption)).dedup) ∧
      v.objectChildren.length =
        (((jp.ObjectEach b).1.filterMap (fun m => (parseStringNoQuote m.1).toOption)).dedup).length ∧
      ∀ pre post k val t key, (jp.ObjectEach b).1 = pre ++ (k, val, t) :: post →
        parseStringNoQuote k = .ok key →
        (∀ m ∈ post, parseStringNoQuote m.1 ≠ .ok key) →
        ∃ child d0, mapGet v.objectChildren key = some child ∧
          objectCallback fl (newFromObject fl jp d0) (newFromArray fl jp d0) (new fl) k val t =
            .ok { new fl with objectChildren := [(key, child)] }) := by
  refine ⟨rfl, rfl, rfl, rfl, rfl, rfl, ?_⟩
  intro jp d b v h
  obtain ⟨d0, hl⟩ := newFromObject_loop fl jp d b v h
  obtain ⟨hnd, hmem⟩ := objectEachLoop_keys fl _ _ _ _ _ hl (by simp [new])
  have hperm : (v.objectChildren.map Prod.fst).Perm
      (((jp.ObjectEach b).1.filterMap (fun m => (parseStringNoQuote m.1).toOption)).dedup) := by
    rw [List.perm_ext_iff_of_nodup hnd (List.nodup_dedup _)]
    intro key
    rw [hmem key, List.mem_dedup, List.mem_filterMap]
    simp only [new, List.map_nil, List.not_mem_nil, false_or]
    constructor
    · rintro ⟨m, hm, hk⟩
      exact ⟨m, hm, by rw [hk]; rfl⟩
    · rintro ⟨m, hm, hk⟩
      refine ⟨m, hm, ?_⟩
      cases hq : parseStringNoQuote m.1 with
      | error e => rw [hq] at hk; cases hk
      | ok key1 =>
        rw [hq] at hk
        cases hk
        rfl
  refine ⟨hnd, hperm, ?_, ?_⟩
  · have := hperm.length_eq
    simpa using this
  · intro pre post k val t key htr hk hpost
    rw [htr] at hl
    obtain ⟨child, hget, hall⟩ := objectEachLoop_last fl _ _ pre post k val t key _ v hl hk hpost
    exact ⟨child, d0, hget, hall (new fl)⟩

/-- Witness of C18, for the statement over every tokenizer: `jsonparser` on
`\x7b"a":1,"b":3,"a":2\x7d`, where the key `a` holds the child built from its second occurrence. -/
theorem newFromObject_unescapes_keys_twice_witness :
    ∃ v child d0, Unmarshal decimalFloat jsonparserTokenizer (ascii "\x7b\"a\":1,\"b\":3,\"a\":2\x7d") = .ok v ∧
      v.objectChildren.length = 2 ∧
      mapGet v.objectChildren (ascii "a") = some child ∧
      objectCallback decimalFloat (newFromObject decimalFloat jsonparserTokenizer d0)
        (newFromArray decimalFloat jsonparserTokenizer d0) (new decimalFloat)
        (ascii "a") (ascii "2") .Number =
          .ok { new decimalFloat with objectChildren := [(ascii "a", child)] } := by
  have h := (newFromObject_unescapes_keys_twice decimalFloat).2.2.2.2.2.2 jsonparserTokenizer 22
    (ascii "\x7b\"a\":1,\"b\":3,\"a\":2\x7d") _ rfl
  obtain ⟨child, d0, hget, hcb⟩ := h.2.2.2
    [(ascii "a", ascii "1", .Number), (ascii "b", ascii "3", .Number)] []
    (ascii "a") (ascii "2") .Number (ascii "a") rfl rfl (by simp)
  exact ⟨_, child, d0, rfl, rfl, hget, hcb⟩

/-! ## Claim C20: the escaped text inside double quotes -/

namespace jsonparser

theorem evenBackslashes_cons_ne (c : Nat) (l : Bytes) (h : c ≠ 0x5C) :
    evenBackslashes (c :: l) = true := by
  unfold evenBackslashes
  split
  · rename_i heq; simp at heq; omega
  · rename_i heq; simp at heq; omega
  · rfl

theorem evenBackslashes_cons_bs : ∀ l : Bytes, evenBackslashes (0x5C :: l) = !evenBackslashes l
  | [] => by decide
  | c :: l => by
    by_cases h : c = 0x5C
    · subst h
      have ih := evenBackslashes_cons_bs l
      rw [ih]
      simp [evenBackslashes]
    · rw [evenBackslashes_cons_ne c l h]
      unfold evenBackslashes
      split
      · rename_i heq; simp at heq; omega
      · rfl
      · rename_i h1 h2; exact absurd rfl (h2 _)

end jsonparser

theorem QuotesEscaped_append (a b : Bytes) (ha : QuotesEscaped a) (hb : QuotesEscaped b) :
    QuotesEscaped (a ++ b) := by
  intro i hi
  by_cases hlt : i < a.length
  · rw [List.getElem?_append_left hlt] at hi
    obtain ⟨j, hj, hj2⟩ := ha i hi
    exact ⟨j, hj, by rw [List.getElem?_append_left (by omega)]; exact hj2⟩
  · rw [List.getElem?_append_right (by omega)] at hi
    obtain ⟨j, hj, hj2⟩ := hb _ hi
    refine ⟨a.length + j, by omega, ?_⟩
    rw [List.getElem?_append_right (by omega)]
    rw [show a.length + j - a.length = j by omega]
    exact hj2

theorem ScansThrough_append (a b : Bytes) (ha : ScansThrough a) (hb : ScansThrough b) :
    ScansThrough (a ++ b) := by
  intro tail before i esc hev
  obtain ⟨h1, esc1, h2⟩ := ha (b ++ tail) before i esc hev
  obtain ⟨h3, esc2, h4⟩ := hb tail (a.reverse ++ before) (i + a.length) esc1 h1
  rw [List.reverse_append, List.append_assoc, List.append_assoc, List.length_append]
  refine ⟨h3, esc2, ?_⟩
  rw [h2, h4, Nat.add_assoc]

theorem EscapedSafe_nil : EscapedSafe [] := by
  refine ⟨fun c hc => (by cases hc), fun i hi => (by simp at hi), ?_⟩
  intro tail before i esc hev
  exact ⟨hev, esc, rfl⟩

theorem EscapedSafe_append (a b : Bytes) (ha : EscapedSafe a) (hb : EscapedSafe b) :
    EscapedSafe (a ++ b) := by
  refine ⟨fun c hc => ?_, QuotesEscaped_append a b ha.2.1 hb.2.1,
    ScansThrough_append a b ha.2.2 hb.2.2⟩
  rcases List.mem_append.mp hc with h | h
  · exact ha.1 c h
  · exact hb.1 c h

/-- One byte that is none of `"`, `\`, `<`, `>`, `&`, `%`. -/
theorem EscapedSafe_plain (c : Nat) (h1 : c ≠ 0x22) (h2 : c ≠ 0x5C) (h3 : c ≠ 0x3C)
    (h4 : c ≠ 0x3E) (h5 : c ≠ 0x26) (h6 : c ≠ 0x25) : EscapedSafe [c] := by
  refine ⟨fun d hd => ?_, fun i hi => ?_, ?_⟩
  · rw [List.mem_singleton] at hd
    subst hd
    exact ⟨h3, h4, h5, h6⟩
  · cases i with
    | zero => simp at hi; exact absurd hi h1
    | succ n => simp at hi
  · intro tail before i esc hev
    refine ⟨jsonparser.evenBackslashes_cons_ne c _ h2, esc, ?_⟩
    rw [List.singleton_append]
    simp only [List.reverse_cons, List.reverse_nil, List.nil_append,
      List.length_singleton, jsonparser.stringEndLoop, if_neg h1, if_neg h2]
    rfl

/-- A backslash and the byte behind it, which is none of `<`, `>`, `&`, `%`. -/
theorem EscapedSafe_escape (c : Nat) (h3 : c ≠ 0x3C) (h4 : c ≠ 0x3E) (h5 : c ≠ 0x26)
    (h6 : c ≠ 0x25) : EscapedSafe [0x5C, c] := by
  refine ⟨fun d hd => ?_, fun i hi => ?_, ?_⟩
  · simp only [List.mem_cons, List.mem_singleton, List.not_mem_nil, or_false] at hd
    rcases hd with hd | hd
    · subst hd; decide
    · subst hd; exact ⟨h3, h4, h5, h6⟩
  · match i with
    | 0 => simp at hi
    | 1 => exact ⟨0, rfl, rfl⟩
    | n + 2 => simp at hi
  · intro tail before i esc hev
    have hodd : jsonparser.evenBackslashes (0x5C :: before) = false := by
      rw [jsonparser.evenBackslashes_cons_bs, hev]; rfl
    have hrev : ([0x5C, c] : Bytes).reverse ++ before = c :: 0x5C :: before := rfl
    rw [hrev]
    constructor
    · by_cases hc : c = 0x5C
      · subst hc
        rw [jsonparser.evenBackslashes_cons_bs, hodd]; rfl
      · exact jsonparser.evenBackslashes_cons_ne c _ hc
    · refine ⟨true, ?_⟩
      have e1 : ([0x5C, c] : Bytes) ++ tail = 0x5C :: c :: tail := rfl
      rw [e1]
      rw [jsonparser.stringEndLoop, if_neg (by decide), if_pos rfl]
      rw [jsonparser.stringEndLoop]
      by_cases hq : c = 0x22
      · rw [if_pos hq]
        simp only [Bool.not_true, Bool.false_eq_true, if_false, hodd]
        rfl
      · rw [if_neg hq]
        by_cases hb : c = 0x5C
        · rw [if_pos hb]; rfl
        · rw [if_neg hb]; rfl

theorem EscapedSafe_all_plain (u : Bytes)
    (h : ∀ c ∈ u, c ≠ 0x22 ∧ c ≠ 0x5C ∧ c ≠ 0x3C ∧ c ≠ 0x3E ∧ c ≠ 0x26 ∧ c ≠ 0x25) :
    EscapedSafe u := by
  induction u with
  | nil => exact EscapedSafe_nil
  | cons c cs ih =>
    have hc := h c (List.mem_cons_self _ _)
    have := EscapedSafe_append [c] cs
      (EscapedSafe_plain c hc.1 hc.2.1 hc.2.2.1 hc.2.2.2.1 hc.2.2.2.2.1 hc.2.2.2.2.2)
      (ih (fun d hd => h d (List.mem_cons_of_mem _ hd)))
    simpa using this

theorem hexDigitUpper_plain (d : Nat) (h : d < 16) :
    hexDigitUpper d ≠ 0x22 ∧ hexDigitUpper d ≠ 0x5C ∧ hexDigitUpper d ≠ 0x3C ∧
    hexDigitUpper d ≠ 0x3E ∧ hexDigitUpper d ≠ 0x26 ∧ hexDigitUpper d ≠ 0x25 := by
  unfold hexDigitUpper
  split_ifs <;> omega

theorem EscapedSafe_sprintfU04X (x : Nat) (h : x ≤ 0xFFFF) : EscapedSafe (sprintfU04X x) := by
  rw [sprintfU04X_eq x h]
  apply EscapedSafe_append
  · exact EscapedSafe_escape 0x75 (by decide) (by decide) (by decide) (by decide)
  · apply EscapedSafe_all_plain
    intro c hc
    simp only [hex4, List.mem_cons, List.mem_singleton, List.not_mem_nil, or_false] at hc
    rcases hc with hc | hc | hc | hc <;> subst hc <;>
      exact hexDigitUpper_plain _ (Nat.mod_lt _ (by decide))

theorem EscapedSafe_EncodeRune (r : Nat) (h : r ≤ 0x127) (h1 : r ≠ 0x22) (h2 : r ≠ 0x5C)
    (h3 : r ≠ 0x3C) (h4 : r ≠ 0x3E) (h5 : r ≠ 0x26) (h6 : r ≠ 0x25) :
    EscapedSafe (EncodeRune r) := by
  unfold EncodeRune
  by_cases hr : r ≤ 0x7F
  · rw [if_pos hr]
    exact EscapedSafe_plain r h1 h2 h3 h4 h5 h6
  · rw [if_neg hr, if_pos (by omega)]
    apply EscapedSafe_all_plain
    intro c hc
    simp only [List.mem_cons, List.mem_singleton, List.not_mem_nil, or_false] at hc
    rcases hc with hc | hc <;> subst hc <;> omega

theorem EscapedSafe_escapeUnicodeToBuff (r : Nat) (h1 : r ≠ 0x22) (h2 : r ≠ 0x5C)
    (h3 : r ≠ 0x3C) (h4 : r ≠ 0x3E) (h5 : r ≠ 0x26) (h6 : r ≠ 0x25) :
    EscapedSafe (escapeUnicodeToBuff [] r) := by
  by_cases hlow : r ≤ 0x127
  · rw [escapeUnicodeToBuff_low _ _ hlow, List.nil_append]
    exact EscapedSafe_EncodeRune r hlow h1 h2 h3 h4 h5 h6
  · by_cases hbmp : r ≤ 0xFFFF
    · rw [escapeUnicodeToBuff_bmp _ _ hlow hbmp, List.nil_append]
      exact EscapedSafe_sprintfU04X r hbmp
    · rw [escapeUnicodeToBuff_high _ _ hlow hbmp, List.nil_append]
      have hhi : ((r - 0x10000) &&& 0xFFC00) >>> 10 ≤ 0x3FF := by
        have := @Nat.and_le_right (r - 0x10000) 0xFFC00
        rw [Nat.shiftRight_eq_div_pow]
        omega
      have hlo : (r - 0x10000) &&& 0x003FF ≤ 0x3FF := Nat.and_le_right
      exact EscapedSafe_append _ _ (EscapedSafe_sprintfU04X _ (by omega))
        (EscapedSafe_sprintfU04X _ (by omega))

theorem EscapedSafe_u00 (a b : Nat)
    (h : ∀ c ∈ [0x30, 0x30, a, b],
      c ≠ 0x22 ∧ c ≠ 0x5C ∧ c ≠ 0x3C ∧ c ≠ 0x3E ∧ c ≠ 0x26 ∧ c ≠ 0x25) :
    EscapedSafe ([] ++ [0x5C, 0x75, 0x30, 0x30, a, b]) :=
  EscapedSafe_append [0x5C, 0x75] [0x30, 0x30, a, b]
    (EscapedSafe_escape 0x75 (by decide) (by decide) (by decide) (by decide))
    (EscapedSafe_all_plain _ h)

/-- What the escaper writes for one rune, whatever the rune. -/
theorem EscapedSafe_escapeRuneToBuff (r : Nat) : EscapedSafe (escapeRuneToBuff [] r) := by
  unfold escapeRuneToBuff
  by_cases c0 : r = 0x22
  · rw [if_pos c0]
    exact EscapedSafe_escape 0x22 (by decide) (by decide) (by decide) (by decide)
  rw [if_neg c0]
  by_cases c1 : r = 0x2F
  · rw [if_pos c1]
    exact EscapedSafe_escape 0x2F (by decide) (by decide) (by decide) (by decide)
  rw [if_neg c1]
  by_cases c2 : r = 0x5C
  · rw [if_pos c2]
    exact EscapedSafe_escape 0x5C (by decide) (by decide) (by decide) (by decide)
  rw [if_neg c2]
  by_cases c3 : r = 0x08
  · rw [if_pos c3]
    exact EscapedSafe_escape 0x62 (by decide) (by decide) (by decide) (by decide)
  rw [if_neg c3]
  by_cases c4 : r = 0x0C
  · rw [if_pos c4]
    exact EscapedSafe_escape 0x66 (by decide) (by decide) (by decide) (by decide)
  rw [if_neg c4]
  by_cases c5 : r = 0x09
  · rw [if_pos c5]
    exact EscapedSafe_escape 0x74 (by decide) (by decide) (by decide) (by decide)
  rw [if_neg c5]
  by_cases c6 : r = 0x0A
  · rw [if_pos c6]
    exact EscapedSafe_escape 0x6E (by decide) (by decide) (by decide) (by decide)
  rw [if_neg c6]
  by_cases c7 : r = 0x0D
  · rw [if_pos c7]
    exact EscapedSafe_escape 0x72 (by decide) (by decide) (by decide) (by decide)
  rw [if_neg c7]
  by_cases c8 : r = 0x3C
  · rw [if_pos c8]
    exact EscapedSafe_u00 0x33 0x43 (by decide)
  rw [if_neg c8]
  by_cases c9 : r = 0x3E
  · rw [if_pos c9]
    exact EscapedSafe_u00 0x33 0x45 (by decide)
  rw [if_neg c9]
  by_cases c10 : r = 0x26
  · rw [if_pos c10]
    exact EscapedSafe_u00 0x32 0x36 (by decide)
  rw [if_neg c10]
  by_cases c11 : r = 0x25
  · rw [if_pos c11]
    exact EscapedSafe_u00 0x32 0x35 (by decide)
  rw [if_neg c11]
  exact EscapedSafe_escapeUnicodeToBuff r c0 c2 c8 c9 c10 c11

theorem EscapedSafe_flatMap (rs : List Nat) :
    EscapedSafe (rs.flatMap (escapeRuneToBuff [])) := by
  induction rs with
  | nil => exact EscapedSafe_nil
  | cons r rs ih =>
    rw [List.flatMap_cons]
    exact EscapedSafe_append _ _ (EscapedSafe_escapeRuneToBuff r) ih

/-- C20: for every input string `s`, the text `escapeStringToBuff` writes holds none of the
characters `<`, `>`, `&` and `%`, every double quote in it has a backslash right in front of
it, and when the text is put between double quotes the string scanner of the tokenizer finds
the end of the literal at the closing quote and nowhere before it. -/
theorem escapeStringToBuff_html_safe_and_quotes_escaped (s : Bytes) :
    0x3C ∉ escapeStringToBuff s [] ∧ 0x3E ∉ escapeStringToBuff s [] ∧
    0x26 ∉ escapeStringToBuff s [] ∧ 0x25 ∉ escapeStringToBuff s [] ∧
    (∀ i, (escapeStringToBuff s [])[i]? = some 0x22 →
      ∃ j, i = j + 1 ∧ (escapeStringToBuff s [])[j]? = some 0x5C) ∧
    (∀ rest : Bytes, (jsonparser.stringEnd (escapeStringToBuff s [] ++ 0x22 :: rest)).1 =
      some ((escapeStringToBuff s []).length + 1)) := by
  have h := EscapedSafe_flatMap (runes s)
  rw [escapeStringToBuff_eq, List.nil_append]
  obtain ⟨hsafe, hq, hscan⟩ := h
  refine ⟨fun hc => (hsafe _ hc).1 rfl, fun hc => (hsafe _ hc).2.1 rfl,
    fun hc => (hsafe _ hc).2.2.1 rfl, fun hc => (hsafe _ hc).2.2.2 rfl, hq, ?_⟩
  intro rest
  obtain ⟨hev, esc1, hrun⟩ := hscan (0x22 :: rest) [] 0 false rfl
  unfold jsonparser.stringEnd
  rw [hrun, jsonparser.stringEndLoop, if_pos rfl]
  rw [Nat.zero_add]
  cases esc1 with
  | false => rfl
  | true =>
    simp only [Bool.not_true, Bool.false_eq_true, if_false]
    rw [if_pos hev]

/-! ## The order of keys -/

theorem bytesLess_irrefl (a : Bytes) : bytesLess a a = false := by
  induction a with
  | nil => rfl
  | cons x xs ih => simp [bytesLess, ih]

theorem bytesLess_asymm (a b : Bytes) (h : bytesLess a b = true) : bytesLess b a = false := by
  induction a generalizing b with
  | nil => cases b <;> simp [bytesLess] at h ⊢
  | cons x xs ih =>
    cases b with
    | nil => simp [bytesLess] at h
    | cons y ys =>
      simp only [bytesLess] at h ⊢
      split_ifs at h ⊢ <;> first
        | omega
        | rfl
        | exact ih ys h

theorem bytesLess_total (a b : Bytes) (h : a ≠ b) :
    bytesLess a b = true ∨ bytesLess b a = true := by
  induction a generalizing b with
  | nil =>
    cases b with
    | nil => exact absurd rfl h
    | cons y ys => left; rfl
  | cons x xs ih =>
    cases b with
    | nil => right; rfl
    | cons y ys =>
      simp only [bytesLess]
      by_cases h1 : x < y
      · left; rw [if_pos h1]
      · by_cases h2 : y < x
        · right; rw [if_pos h2]
        · have hxy : x = y := by omega
          subst hxy
          simp only [if_neg h1]
          exact ih ys (fun hh => h (by rw [hh]))

theorem bytesLess_negtrans (a b c : Bytes) (h1 : bytesLess a b = false)
    (h2 : bytesLess b c = false) : bytesLess a c = false := by
  induction a generalizing b c with
  | nil =>
    cases b with
    | nil => exact h2
    | cons y ys => simp [bytesLess] at h1
  | cons x xs ih =>
    cases c with
    | nil => rfl
    | cons z zs =>
      cases b with
      | nil => simp [bytesLess] at h2
      | cons y ys =>
        simp only [bytesLess] at h1 h2 ⊢
        split_ifs at h1 h2 ⊢ <;> first
          | omega
          | rfl
          | exact ih ys zs h1 h2

/-! ## `eraseDups` keeps the first occurrence of every element, in order -/

theorem eraseDups_loop_spec (as bs : List Bytes) (hbs : bs.Nodup) :
    ∃ t, List.eraseDups.loop as bs = bs.reverse ++ t ∧ t.Sublist as ∧
      (bs.reverse ++ t).Nodup ∧ ∀ x, x ∈ bs.reverse ++ t ↔ x ∈ bs ∨ x ∈ as := by
  induction as generalizing bs with
  | nil =>
    refine ⟨[], by simp [List.eraseDups.loop], List.Sublist.refl _, by simpa using hbs, ?_⟩
    intro x; simp
  | cons a as ih =>
    unfold List.eraseDups.loop
    by_cases ha : a ∈ bs
    · have he : List.elem a bs = true := List.elem_iff.mpr ha
      rw [he]
      obtain ⟨t, h1, h2, h3, h4⟩ := ih bs hbs
      refine ⟨t, h1, List.Sublist.cons _ h2, h3, fun x => ?_⟩
      rw [h4 x, List.mem_cons]
      constructor
      · rintro (h | h)
        · exact Or.inl h
        · exact Or.inr (Or.inr h)
      · rintro (h | h | h)
        · exact Or.inl h
        · exact Or.inl (h ▸ ha)
        · exact Or.inr h
    · have he : List.elem a bs = false := by
        cases hc : List.elem a bs with
        | false => rfl
        | true => exact absurd (List.elem_iff.mp hc) ha
      rw [he]
      obtain ⟨t, h1, h2, h3, h4⟩ := ih (a :: bs) (List.nodup_cons.mpr ⟨ha, hbs⟩)
      refine ⟨a :: t, ?_, List.Sublist.cons₂ _ h2, ?_, fun x => ?_⟩
      · rw [h1]; simp
      · simpa using h3
      · have := h4 x
        simp only [List.reverse_cons, List.append_assoc, List.singleton_append] at this
        rw [this, List.mem_cons, List.mem_cons]
        tauto

theorem eraseDups_sublist (l : List Bytes) : l.eraseDups.Sublist l := by
  obtain ⟨t, h1, h2, _, _⟩ := eraseDups_loop_spec l [] List.nodup_nil
  unfold List.eraseDups
  rw [h1]
  simpa using h2

theorem eraseDups_nodup (l : List Bytes) : l.eraseDups.Nodup := by
  obtain ⟨t, h1, _, h3, _⟩ := eraseDups_loop_spec l [] List.nodup_nil
  unfold List.eraseDups
  rw [h1]
  exact h3

theorem mem_eraseDups (l : List Bytes) (x : Bytes) : x ∈ l.eraseDups ↔ x ∈ l := by
  obtain ⟨t, h1, _, _, h4⟩ := eraseDups_loop_spec l [] List.nodup_nil
  unfold List.eraseDups
  rw [h1, h4 x]
  simp

/-! ## The marshal recursion, node by node -/

theorem marshalValue_object {F : Type} (opt : Opt F) (v : V F) (path : List Key)
    (hv : v.valueType = .Object) :
    marshalValue opt v path =
      (marshalMembers opt v.objectChildren path).map (fun ms =>
        ([0x7B] ++ joinComma ((orderMembers opt path ms).map
          (fun m => ((([0x22] ++ m.1) ++ [0x22]) ++ [0x3A]) ++ m.2.2))) ++ [0x7D]) := by
  obtain ⟨a1, a2, a3, a4, a5, a6, a7, a8, a9, a10, a11⟩ := v
  simp only at hv
  subst hv
  rw [marshalValue]
  simp only []
  cases marshalMembers opt a10 path <;> rfl

theorem marshalValue_array {F : Type} (opt : Opt F) (v : V F) (path : List Key)
    (hv : v.valueType = .Array) :
    marshalValue opt v path =
      (marshalElems opt v.arrayChildren path 0).map (fun parts =>
        ([0x5B] ++ joinComma parts) ++ [0x5D]) := by
  obtain ⟨a1, a2, a3, a4, a5, a6, a7, a8, a9, a10, a11⟩ := v
  simp only at hv
  subst hv
  rw [marshalValue]
  simp only []
  cases marshalElems opt a11 path 0 <;> rfl

theorem marshalValue_null {F : Type} (opt : Opt F) (v : V F) (path : List Key)
    (hv : v.valueType = .Null) : marshalValue opt v path = some (ascii "null") := by
  obtain ⟨a1, a2, a3, a4, a5, a6, a7, a8, a9, a10, a11⟩ := v
  simp only at hv
  subst hv
  rw [marshalValue]

theorem marshalMembers_some {F : Type} (opt : Opt F) (l : List (Bytes × V F)) (path : List Key)
    (ms : List (Bytes × V F × Bytes)) (h : marshalMembers opt l path = some ms) :
    List.Forall₂ (fun kv m => m.1 = kv.1 ∧ m.2.1 = kv.2 ∧
      marshalValue opt kv.2 (path ++ [.str kv.1]) = some m.2.2) l ms := by
  induction l generalizing ms with
  | nil =>
    rw [marshalMembers] at h
    cases h
    exact List.Forall₂.nil
  | cons kv rest ih =>
    obtain ⟨k, v⟩ := kv
    rw [marshalMembers] at h
    cases h1 : marshalValue opt v (path ++ [.str k]) with
    | none => rw [h1] at h; cases h
    | some p =>
      cases h2 : marshalMembers opt rest path with
      | none => rw [h1, h2] at h; cases h
      | some ps =>
        rw [h1, h2] at h
        cases h
        exact List.Forall₂.cons ⟨rfl, rfl, h1⟩ (ih ps h2)

theorem marshalMembers_of_forall₂ {F : Type} (opt : Opt F) (l : List (Bytes × V F))
    (path : List Key) (ms : List (Bytes × V F × Bytes))
    (h : List.Forall₂ (fun kv m => m.1 = kv.1 ∧ m.2.1 = kv.2 ∧
      marshalValue opt kv.2 (path ++ [.str kv.1]) = some m.2.2) l ms) :
    marshalMembers opt l path = some ms := by
  induction h with
  | nil => rw [marshalMembers]
  | @cons kv m rest ps hd _ ih =>
    obtain ⟨k, v⟩ := kv
    obtain ⟨mk, mv, mp⟩ := m
    obtain ⟨e1, e2, e3⟩ := hd
    simp only at e1 e2 e3
    subst e1 e2
    rw [marshalMembers, e3, ih]

theorem marshalElems_some {F : Type} (opt : Opt F) (l : List (V F)) (path : List Key) (i : Nat)
    (parts : List Bytes) (h : marshalElems opt l path i = some parts) :
    List.Forall₂ (fun v p => ∃ j, marshalValue opt v (path ++ [.idx j]) = some p) l parts := by
  induction l generalizing parts i with
  | nil =>
    rw [marshalElems] at h
    cases h
    exact List.Forall₂.nil
  | cons v rest ih =>
    rw [marshalElems] at h
    cases h1 : marshalValue opt v (path ++ [.idx i]) with
    | none => rw [h1] at h; cases h
    | some p =>
      cases h2 : marshalElems opt rest path (i + 1) with
      | none => rw [h1, h2] at h; cases h
      | some ps =>
        rw [h1, h2] at h
        cases h
        exact List.Forall₂.cons ⟨i, h1⟩ (ih _ ps h2)

/-! ## The order of the members -/

theorem orderMembers_lessFunc {F : Type} (opt : Opt F) (path : List Key)
    (ms : List (Bytes × V F × Bytes))
    (less : ParentInfo → Bytes → Bytes → V F → V F → Bool)
    (h : opt.MarshalLessFunc = some less) :
    orderMembers opt path ms =
      sortBy (fun a b => less { KeyPath := path } a.1 b.1 a.2.1 b.2.1)
        (ms.filter (fun m => !(opt.OmitNull && m.2.1.IsNull))) := by
  unfold orderMembers
  simp only [h]

theorem orderMembers_keySequence {F : Type} (opt : Opt F) (path : List Key)
    (ms : List (Bytes × V F × Bytes)) (seq : List Bytes)
    (h1 : opt.MarshalLessFunc = none) (h2 : opt.MarshalKeySequence = some seq) :
    orderMembers opt path ms =
      seq.eraseDups.filterMap (fun k =>
          (ms.filter (fun m => !(opt.OmitNull && m.2.1.IsNull))).find? (fun m => m.1 = k)) ++
        sortBy (fun a b => bytesLess a.1 b.1)
          ((ms.filter (fun m => !(opt.OmitNull && m.2.1.IsNull))).filter (fun m => m.1 ∉ seq)) := by
  unfold orderMembers
  simp only [h1, h2]

theorem orderMembers_none {F : Type} (opt : Opt F) (path : List Key)
    (ms : List (Bytes × V F × Bytes))
    (h1 : opt.MarshalLessFunc = none) (h2 : opt.MarshalKeySequence = none) :
    orderMembers opt path ms = ms.filter (fun m => !(opt.OmitNull && m.2.1.IsNull)) := by
  unfold orderMembers
  simp only [h1, h2]

theorem eq_of_key_eq {α : Type} (l : List (Bytes × α)) (hnd : (l.map Prod.fst).Nodup)
    (a b : Bytes × α) (ha : a ∈ l) (hb : b ∈ l) (h : a.1 = b.1) : a = b :=
  List.inj_on_of_nodup_map hnd ha hb h

theorem find?_key_some {α : Type} (l : List (Bytes × α)) (k : Bytes) (m : Bytes × α)
    (h : l.find? (fun m => m.1 = k) = some m) : m ∈ l ∧ m.1 = k := by
  refine ⟨List.mem_of_find?_eq_some h, ?_⟩
  have := List.find?_some h
  simpa using this

theorem find?_key_of_mem {α : Type} (l : List (Bytes × α)) (hnd : (l.map Prod.fst).Nodup)
    (m : Bytes × α) (hm : m ∈ l) : l.find? (fun x => x.1 = m.1) = some m := by
  cases hf : l.find? (fun x => x.1 = m.1) with
  | none =>
    rw [List.find?_eq_none] at hf
    have := hf m hm
    simp at this
  | some m1 =>
    obtain ⟨h1, h2⟩ := find?_key_some l m.1 m1 hf
    rw [eq_of_key_eq l hnd m1 m h1 hm h2]

/-- The members found for the keys of a list are the members whose key is in the list. -/
theorem mem_listed {α : Type} (l : List (Bytes × α)) (hnd : (l.map Prod.fst).Nodup)
    (seq : List Bytes) (m : Bytes × α) :
    m ∈ seq.eraseDups.filterMap (fun k => l.find? (fun m => m.1 = k)) ↔ m ∈ l ∧ m.1 ∈ seq := by
  rw [List.mem_filterMap]
  constructor
  · rintro ⟨k, hk, hf⟩
    obtain ⟨h1, h2⟩ := find?_key_some l k m hf
    exact ⟨h1, by rw [h2]; exact (mem_eraseDups seq k).mp hk⟩
  · rintro ⟨hm, hs⟩
    exact ⟨m.1, (mem_eraseDups seq m.1).mpr hs, find?_key_of_mem l hnd m hm⟩

theorem nodup_listed {α : Type} (l : List (Bytes × α)) (seq : List Bytes) :
    (seq.eraseDups.filterMap (fun k => l.find? (fun m => m.1 = k))).Nodup := by
  apply List.Nodup.filterMap _ (eraseDups_nodup seq)
  intro k k1 m hk hk1
  have h1 := (find?_key_some l k m hk).2
  have h2 := (find?_key_some l k1 m hk1).2
  rw [← h1, ← h2]

theorem listed_keys_sublist {α : Type} (l : List (Bytes × α)) (ks : List Bytes) :
    ((ks.filterMap (fun k => l.find? (fun m => m.1 = k))).map Prod.fst).Sublist ks := by
  induction ks with
  | nil => exact List.Sublist.refl _
  | cons k ks ih =>
    cases hf : l.find? (fun m => m.1 = k) with
    | none =>
      simp only [List.filterMap_cons, hf]
      exact List.Sublist.cons _ ih
    | some m =>
      simp only [List.filterMap_cons, hf, List.map_cons]
      rw [(find?_key_some l k m hf).2]
      exact List.Sublist.cons₂ _ ih

/-- With a key sequence, the listed members and the others together are the members, each one
once. -/
theorem keySequence_perm {α : Type} (l : List (Bytes × α)) (hnd : (l.map Prod.fst).Nodup)
    (seq : List Bytes) (less : Bytes × α → Bytes × α → Bool) :
    (seq.eraseDups.filterMap (fun k => l.find? (fun m => m.1 = k)) ++
      sortBy less (l.filter (fun m => m.1 ∉ seq))).Perm l := by
  have hl : l.Nodup := List.Nodup.of_map _ hnd
  have h1 : (seq.eraseDups.filterMap (fun k => l.find? (fun m => m.1 = k))).Perm
      (l.filter (fun m => m.1 ∈ seq)) := by
    rw [List.perm_ext_iff_of_nodup (nodup_listed l seq) (hl.filter _)]
    intro m
    rw [mem_listed l hnd seq m, List.mem_filter]
    simp
  have h2 : (l.filter (fun m => m.1 ∈ seq) ++ l.filter (fun m => m.1 ∉ seq)).Perm l := by
    have := List.filter_append_perm (fun m : Bytes × α => decide (m.1 ∈ seq)) l
    simpa using this
  exact (List.Perm.append h1 (sortBy_perm less _)).trans h2

theorem nodup_keys_filter {α : Type} (l : List (Bytes × α)) (p : Bytes × α → Bool)
    (hnd : (l.map Prod.fst).Nodup) : ((l.filter p).map Prod.fst).Nodup :=
  List.Nodup.sublist (List.Sublist.map _ (List.filter_sublist l)) hnd

/-- Whatever the ordering policy, the members emitted are the members kept (all of them, or
those that are not Null under `omitNull`), each one once. -/
theorem orderMembers_perm {F : Type} (opt : Opt F) (path : List Key)
    (ms : List (Bytes × V F × Bytes)) (hnd : (ms.map Prod.fst).Nodup) :
    (orderMembers opt path ms).Perm (ms.filter (fun m => !(opt.OmitNull && m.2.1.IsNull))) := by
  cases h1 : opt.MarshalLessFunc with
  | some less =>
    rw [orderMembers_lessFunc opt path ms less h1]
    exact sortBy_perm _ _
  | none =>
    cases h2 : opt.MarshalKeySequence with
    | some seq =>
      rw [orderMembers_keySequence opt path ms seq h1 h2]
      exact keySequence_perm _ (nodup_keys_filter ms _ hnd) seq _
    | none =>
      rw [orderMembers_none opt path ms h1 h2]

theorem marshalMembers_keys {F : Type} (opt : Opt F) (l : List (Bytes × V F)) (path : List Key)
    (ms : List (Bytes × V F × Bytes)) (h : marshalMembers opt l path = some ms) :
    ms.map Prod.fst = l.map Prod.fst := by
  have := marshalMembers_some opt l path ms h
  induction this with
  | nil => rfl
  | @cons kv m rest ps hd _ ih =>
    rw [List.map_cons, List.map_cons, hd.1]
    congr 1
    apply ih
    rw [marshalMembers] at h
    cases h1 : marshalValue opt kv.2 (path ++ [.str kv.1]) with
    | none => rw [h1] at h; cases h
    | some p =>
      cases h2 : marshalMembers opt rest path with
      | none => rw [h1, h2] at h; cases h
      | some qs =>
        rw [h1, h2] at h
        cases h
        rfl

/-! ## Claim C11: the default string sequence -/

theorem marshalMembers_cons {F : Type} (opt : Opt F) (k : Bytes) (v : V F)
    (rest : List (Bytes × V F)) (path : List Key) (ms : List (Bytes × V F × Bytes)) :
    marshalMembers opt ((k, v) :: rest) path = some ms ↔
      ∃ p ps, marshalValue opt v (path ++ [.str k]) = some p ∧
        marshalMembers opt rest path = some ps ∧ ms = (k, v, p) :: ps := by
  rw [marshalMembers]
  cases h1 : marshalValue opt v (path ++ [.str k]) with
  | none => simp
  | some p =>
    cases h2 : marshalMembers opt rest path with
    | none => simp
    | some ps =>
      simp only [Option.some.injEq]
      constructor
      · intro h
        exact ⟨p, ps, rfl, rfl, h.symm⟩
      · rintro ⟨p1, ps1, e1, e2, e3⟩
        rw [e3, e1, e2]

/-- The members of an object, with their texts, do not depend on the order in which the
mapping is gone through, up to that order. -/
theorem marshalMembers_perm {F : Type} (opt : Opt F) (l1 l : List (Bytes × V F))
    (path : List Key) (hp : l1.Perm l) (ms : List (Bytes × V F × Bytes))
    (h : marshalMembers opt l path = some ms) :
    ∃ ms1, marshalMembers opt l1 path = some ms1 ∧ ms1.Perm ms := by
  induction hp generalizing ms with
  | nil => exact ⟨ms, h, List.Perm.refl _⟩
  | @cons x l1 l2 _ ih =>
    obtain ⟨k, v⟩ := x
    obtain ⟨p, ps, e1, e2, e3⟩ := (marshalMembers_cons opt k v l2 path ms).mp h
    obtain ⟨ps1, e4, e5⟩ := ih ps e2
    refine ⟨(k, v, p) :: ps1, (marshalMembers_cons opt k v l1 path _).mpr ⟨p, ps1, e1, e4, rfl⟩, ?_⟩
    rw [e3]
    exact List.Perm.cons _ e5
  | swap x y l =>
    obtain ⟨kx, vx⟩ := x
    obtain ⟨ky, vy⟩ := y
    obtain ⟨p, ps, e1, e2, e3⟩ := (marshalMembers_cons opt kx vx _ path ms).mp h
    obtain ⟨q, qs, f1, f2, f3⟩ := (marshalMembers_cons opt ky vy _ path ps).mp e2
    refine ⟨(ky, vy, q) :: (kx, vx, p) :: qs, ?_, ?_⟩
    · exact (marshalMembers_cons opt ky vy _ path _).mpr ⟨q, _, f1,
        (marshalMembers_cons opt kx vx _ path _).mpr ⟨p, qs, e1, f2, rfl⟩, rfl⟩
    · rw [e3, f3]
      exact List.Perm.swap _ _ _
  | trans _ _ ih1 ih2 =>
    obtain ⟨ms2, e1, e2⟩ := ih2 ms h
    obtain ⟨ms1, f1, f2⟩ := ih1 ms2 e1
    exact ⟨ms1, f1, f2.trans e2⟩

/-- Sorting members with different keys by `bytesLess` puts the keys in strictly ascending
order. -/
theorem sortBy_keys_strict {α : Type} (l : List (Bytes × α)) (hnd : (l.map Prod.fst).Nodup) :
    (sortBy (fun a b => bytesLess a.1 b.1) l).Pairwise (fun a b => bytesLess a.1 b.1 = true) := by
  have h1 := sortBy_pairwise (fun a b : Bytes × α => bytesLess a.1 b.1)
    (fun a b h => bytesLess_asymm _ _ h) (fun a b c h1 h2 => bytesLess_negtrans _ _ _ h1 h2) l
  have h2 : ((sortBy (fun a b : Bytes × α => bytesLess a.1 b.1) l).map Prod.fst).Nodup :=
    ((sortBy_perm _ l).map Prod.fst).nodup_iff.mpr hnd
  have h3 : (sortBy (fun a b : Bytes × α => bytesLess a.1 b.1) l).Pairwise
      (fun a b => a.1 ≠ b.1) := by
    unfold List.Nodup at h2
    rw [List.pairwise_map] at h2
    exact h2
  refine (h1.and h3).imp ?_
  rintro a b ⟨h4, h5⟩
  rcases bytesLess_total a.1 b.1 h5 with h | h
  · exact h
  · rw [h4] at h
    cases h

/-- Two orderings of the same members by strictly ascending key are the same list. -/
theorem eq_of_perm_of_keys_strict {α : Type} (l1 l2 : List (Bytes × α)) (hp : l1.Perm l2)
    (h1 : l1.Pairwise (fun a b => bytesLess a.1 b.1 = true))
    (h2 : l2.Pairwise (fun a b => bytesLess a.1 b.1 = true)) : l1 = l2 := by
  haveI : IsAntisymm (Bytes × α) (fun a b => bytesLess a.1 b.1 = true) :=
    ⟨fun a b hab hba => by
      have := bytesLess_asymm _ _ hab
      rw [hba] at this
      cases this⟩
  exact List.eq_of_perm_of_sorted hp h1 h2

/-- C11: with the `DefaultStringSequence` ordering policy an Object (a node with the Object
tag, whose keys are pairwise different and whose members marshal to the texts `ms`) is
marshaled to `\x7b`, its members joined by commas and `\x7d`, where the members are those kept
(all, or the ones that are not Null under `omitNull`), each once, in strictly ascending
lexicographic order of their keys; the output is the same for every order in which the mapping
holds its members; and the object of `testSortMarshal` gives the text the test expects. -/
theorem Marshal_DefaultStringSequence_ascending {F : Type} (fl : Float64Ops F) (opt : Opt F)
    (v : V F) (path : List Key) (ms : List (Bytes × V F × Bytes))
    (hopt : opt.MarshalLessFunc = some DefaultStringSequence)
    (hv : v.valueType = .Object)
    (hnd : (v.objectChildren.map Prod.fst).Nodup)
    (hms : marshalMembers opt v.objectChildren path = some ms) :
    (∃ out : List (Bytes × V F × Bytes),
      marshalValue opt v path =
        some (([0x7B] ++ joinComma (out.map
          (fun m => ((([0x22] ++ m.1) ++ [0x22]) ++ [0x3A]) ++ m.2.2))) ++ [0x7D]) ∧
      out.Perm (ms.filter (fun m => !(opt.OmitNull && m.2.1.IsNull))) ∧
      out.Pairwise (fun a b => bytesLess a.1 b.1 = true)) ∧
    (∀ v1 : V F, v1.valueType = .Object → v1.objectChildren.Perm v.objectChildren →
      marshalValue opt v1 path = marshalValue opt v path) ∧
    Marshal (testSortMarshalInput fl) OptDefaultStringSequence =
      some (ascii "\x7b\"0\":0,\"1\":\"1\",\"2\":2,\"3\":\"3\",\"4\":4,\"5\":\"5\",\"6\":6,\"7\":\"7\",\"8\":8,\"9\":\"9\"\x7d") := by
  have hsorted : ∀ ms0 : List (Bytes × V F × Bytes), (ms0.map Prod.fst).Nodup →
      orderMembers opt path ms0 =
        sortBy (fun a b => bytesLess a.1 b.1)
          (ms0.filter (fun m => !(opt.OmitNull && m.2.1.IsNull))) ∧
      (orderMembers opt path ms0).Pairwise (fun a b => bytesLess a.1 b.1 = true) := by
    intro ms0 h0
    have e : orderMembers opt path ms0 =
        sortBy (fun a b => bytesLess a.1 b.1)
          (ms0.filter (fun m => !(opt.OmitNull && m.2.1.IsNull))) :=
      orderMembers_lessFunc opt path ms0 DefaultStringSequence hopt
    refine ⟨e, ?_⟩
    rw [e]
    exact sortBy_keys_strict _ (nodup_keys_filter ms0 _ h0)
  have hkeys : (ms.map Prod.fst).Nodup := by
    rw [marshalMembers_keys opt _ path ms hms]
    exact hnd
  refine ⟨⟨orderMembers opt path ms, ?_, ?_, (hsorted ms hkeys).2⟩, ?_, rfl⟩
  · rw [marshalValue_object opt v path hv, hms]
    rfl
  · rw [(hsorted ms hkeys).1]
    exact sortBy_perm _ _
  · intro v1 hv1 hperm
    obtain ⟨ms1, e1, e2⟩ := marshalMembers_perm opt _ _ path hperm ms hms
    have hkeys1 : (ms1.map Prod.fst).Nodup := (e2.map Prod.fst).nodup_iff.mpr hkeys
    rw [marshalValue_object opt v path hv, marshalValue_object opt v1 path hv1, hms, e1]
    have : orderMembers opt path ms1 = orderMembers opt path ms := by
      apply eq_of_perm_of_keys_strict _ _ _ (hsorted ms1 hkeys1).2 (hsorted ms hkeys).2
      rw [(hsorted ms1 hkeys1).1, (hsorted ms hkeys).1]
      exact ((sortBy_perm _ _).trans (e2.filter _)).trans (sortBy_perm _ _).symm
    simp only [Option.map_some', this]

/-- Witness of C11: the object with the member `b` stored before the member `a`. -/
theorem Marshal_DefaultStringSequence_ascending_witness :
    (∃ out : List (Bytes × V Decimal × Bytes),
      marshalValue OptDefaultStringSequence
        (setAt (setAt (NewObject decimalFloat) (ascii "b") (NewInt decimalFloat 1)) (ascii "a")
          (NewString decimalFloat (ascii "x"))) [] =
        some (([0x7B] ++ joinComma (out.map
          (fun m => ((([0x22] ++ m.1) ++ [0x22]) ++ [0x3A]) ++ m.2.2))) ++ [0x7D]) ∧
      out.Pairwise (fun a b => bytesLess a.1 b.1 = true)) ∧
    Marshal (setAt (setAt (NewObject decimalFloat) (ascii "b") (NewInt decimalFloat 1)) (ascii "a")
        (NewString decimalFloat (ascii "x"))) OptDefaultStringSequence =
      some (ascii "\x7b\"a\":\"x\",\"b\":1\x7d") := by
  have h := Marshal_DefaultStringSequence_ascending decimalFloat OptDefaultStringSequence
    (setAt (setAt (NewObject decimalFloat) (ascii "b") (NewInt decimalFloat 1)) (ascii "a")
      (NewString decimalFloat (ascii "x"))) []
    [(ascii "b", NewInt decimalFloat 1, ascii "1"),
     (ascii "a", NewString decimalFloat (ascii "x"), ascii "\"x\"")]
    rfl rfl (by decide) rfl
  obtain ⟨⟨out, h1, _, h3⟩, _, _⟩ := h
  exact ⟨⟨out, h1, h3⟩, rfl⟩

/-! ## Claim C12: the key sequence -/

/-- C12: with a key sequence `seq` (and no comparator) an Object whose keys are pairwise
different is marshaled to `\x7b`, its members joined by commas and `\x7d`, where the members
come in two runs: first members whose keys follow one another as in `seq`, then members whose
keys are not in `seq`; the two runs together are the members kept (all, or the ones that are not
Null under `omitNull`), each exactly once, so the first run holds every kept member whose key is
in `seq`. The object of `testSortByStringSlice` gives the text the test expects. -/
theorem Marshal_key_sequence {F : Type} (fl : Float64Ops F) (opt : Opt F) (seq : List Bytes)
    (v : V F) (path : List Key) (ms : List (Bytes × V F × Bytes))
    (hless : opt.MarshalLessFunc = none) (hseq : opt.MarshalKeySequence = some seq)
    (hv : v.valueType = .Object)
    (hnd : (v.objectChildren.map Prod.fst).Nodup)
    (hms : marshalMembers opt v.objectChildren path = some ms) :
    (∃ listed unlisted : List (Bytes × V F × Bytes),
      marshalValue opt v path =
        some (([0x7B] ++ joinComma ((listed ++ unlisted).map
          (fun m => ((([0x22] ++ m.1) ++ [0x22]) ++ [0x3A]) ++ m.2.2))) ++ [0x7D]) ∧
      (listed.map Prod.fst).Sublist seq ∧
      (∀ m ∈ unlisted, m.1 ∉ seq) ∧
      (listed ++ unlisted).Perm (ms.filter (fun m => !(opt.OmitNull && m.2.1.IsNull))) ∧
      (∀ m ∈ ms, (opt.OmitNull && m.2.1.IsNull) = false → m.1 ∈ seq → m ∈ listed)) ∧
    Marshal (testSortByStringSliceInput fl)
        { OmitNull := true, MarshalLessFunc := none,
          MarshalKeySequence := some testSortByStringSliceSeq } =
      some (ascii "\x7b\"grandpa\":\"Kentucky\",\"grandma\":\"McDonald\",\"father\":\"Hanberger\",\"mother\":\"Chips\",\"son\":\"Ketchup\",\"daughter\":\"Mayonnaise\",\"friendA\":\"Fish\",\"friendB\":\"Beef\"\x7d") := by
  have hkeys : (ms.map Prod.fst).Nodup := by
    rw [marshalMembers_keys opt _ path ms hms]
    exact hnd
  have hk := nodup_keys_filter ms (fun m => !(opt.OmitNull && m.2.1.IsNull)) hkeys
  refine ⟨⟨seq.eraseDups.filterMap (fun k =>
      (ms.filter (fun m => !(opt.OmitNull && m.2.1.IsNull))).find? (fun m => m.1 = k)),
    sortBy (fun a b => bytesLess a.1 b.1)
      ((ms.filter (fun m => !(opt.OmitNull && m.2.1.IsNull))).filter (fun m => m.1 ∉ seq)),
    ?_, ?_, ?_, ?_, ?_⟩, rfl⟩
  · rw [marshalValue_object opt v path hv, hms, Option.map_some',
      orderMembers_keySequence opt path ms seq hless hseq]
  · exact (listed_keys_sublist _ _).trans (eraseDups_sublist seq)
  · intro m hm
    have := (sortBy_perm _ _).mem_iff.mp hm
    rw [List.mem_filter] at this
    simpa using this.2
  · exact keySequence_perm _ hk seq _
  · intro m hm hkeep hin
    rw [mem_listed _ hk seq m, List.mem_filter]
    exact ⟨⟨hm, by simp [hkeep]⟩, hin⟩

/-- Witness of C12: the object of `testSortByStringSlice` with its key sequence, without
`omitNull`: the member `relative` (Null) comes last, behind `friendA` and `friendB`. -/
theorem Marshal_key_sequence_witness :
    (∃ listed unlisted : List (Bytes × V Decimal × Bytes),
      Marshal (testSortByStringSliceInput decimalFloat)
          { OmitNull := false, MarshalLessFunc := none,
            MarshalKeySequence := some testSortByStringSliceSeq } =
        some (([0x7B] ++ joinComma ((listed ++ unlisted).map
          (fun m => ((([0x22] ++ m.1) ++ [0x22]) ++ [0x3A]) ++ m.2.2))) ++ [0x7D]) ∧
      (listed.map Prod.fst).Sublist testSortByStringSliceSeq ∧
      (∀ m ∈ unlisted, m.1 ∉ testSortByStringSliceSeq)) ∧
    Marshal (testSortByStringSliceInput decimalFloat)
        { OmitNull := false, MarshalLessFunc := none,
          MarshalKeySequence := some testSortByStringSliceSeq } =
      some (ascii "\x7b\"grandpa\":\"Kentucky\",\"grandma\":\"McDonald\",\"father\":\"Hanberger\",\"mother\":\"Chips\",\"son\":\"Ketchup\",\"daughter\":\"Mayonnaise\",\"friendA\":\"Fish\",\"friendB\":\"Beef\",\"relative\":null\x7d") := by
  have h := Marshal_key_sequence decimalFloat
    { OmitNull := false, MarshalLessFunc := none,
      MarshalKeySequence := some testSortByStringSliceSeq }
    testSortByStringSliceSeq (testSortByStringSliceInput decimalFloat) []
    ((testSortByStringSliceInput decimalFloat).objectChildren.map
      (fun kv : Bytes × V Decimal => (kv.1, kv.2, if kv.2.IsNull then ascii "null"
        else ([0x22] ++ kv.2.stringValue) ++ [0x22])))
    rfl rfl rfl (by decide) rfl
  obtain ⟨⟨listed, unlisted, h1, h2, h3, _, _⟩, _⟩ := h
  exact ⟨⟨listed, unlisted, h1, h2, h3⟩, rfl⟩

/-! ## Claim C13: `omitNull` -/

set_option maxRecDepth 8000 in
/-- The second scenario of `testSortMarshal`: the text `orig` is parsed and marshaled with
`OmitNull` and the comparator of the test; the result is the text the test expects, without the
member `"null":null`. -/
theorem testSortMarshal_keyPath_text :
    (Unmarshal decimalFloat jsonparserTokenizer testSortMarshalOrig).map (fun v =>
        Marshal v { OmitNull := true, MarshalLessFunc := some testSortMarshalLess,
                    MarshalKeySequence := none }) =
      .ok (some (ascii "\x7b\"object!\":\x7b\"object!!\":\x7b\"array!!!!\":[1234,\x7b\"stringA\":\"a string\",\"stringBB\":\"aa string\"\x7d]\x7d,\"string!!!\":\"a string\"\x7d\x7d")) := by
  decide

theorem marshalMembers_mem {F : Type} (opt : Opt F) (l : List (Bytes × V F)) (path : List Key)
    (ms : List (Bytes × V F × Bytes)) (h : marshalMembers opt l path = some ms) :
    ∀ m ∈ ms, marshalValue opt m.2.1 (path ++ [.str m.1]) = some m.2.2 := by
  have := marshalMembers_some opt l path ms h
  clear h
  induction this with
  | nil => intro m hm; cases hm
  | @cons kv m0 rest ps hd _ ih =>
    intro m hm
    rcases List.mem_cons.mp hm with rfl | hm
    · rw [hd.1, hd.2.1]
      exact hd.2.2
    · exact ih m hm

theorem valueType_of_IsNull {F : Type} (v : V F) (h : v.IsNull = true) : v.valueType = .Null := by
  simpa [V.IsNull] using h

/-- C13: an Object whose keys are pairwise different is marshaled to `\x7b`, members joined by
commas, `\x7d`; with `omitNull` the members emitted are the members that are not Null, each
once, and no Null member; without it they are all the members, each once, and a Null member is
written `"key":null`. An Array is marshaled to `[`, one text for each of its elements joined by
commas, `]`, with or without `omitNull`, and the text of a Null element is `null`. This holds
for every node of the tree, since the recursion marshals every child with the same options:
the text of `testSortMarshal` loses its member `"null":null` two levels down, and in
`[null,\x7b"a":null,"b":[null,\x7b"c":null\x7d]\x7d]` the Null members `a` and `c` go and the Null
elements stay. -/
theorem Marshal_omitNull {F : Type} (fl : Float64Ops F) (opt : Opt F)
    (v : V F) (path : List Key) (ms : List (Bytes × V F × Bytes))
    (hv : v.valueType = .Object)
    (hnd : (v.objectChildren.map Prod.fst).Nodup)
    (hms : marshalMembers opt v.objectChildren path = some ms) :
    (∃ out : List (Bytes × V F × Bytes),
      marshalValue opt v path =
        some (([0x7B] ++ joinComma (out.map
          (fun m => ((([0x22] ++ m.1) ++ [0x22]) ++ [0x3A]) ++ m.2.2))) ++ [0x7D]) ∧
      (opt.OmitNull = true →
        out.Perm (ms.filter (fun m => !m.2.1.IsNull)) ∧ ∀ m ∈ out, m.2.1.IsNull = false) ∧
      (opt.OmitNull = false →
        out.Perm ms ∧ ∀ m ∈ ms, m.2.1.IsNull = true → m ∈ out ∧
          ((([0x22] ++ m.1) ++ [0x22]) ++ [0x3A]) ++ m.2.2 =
            (([0x22] ++ m.1) ++ [0x22]) ++ ascii ":null")) ∧
    (∀ (arr : V F) (apath : List Key) (parts : List Bytes), arr.valueType = .Array →
      marshalElems opt arr.arrayChildren apath 0 = some parts →
      marshalValue opt arr apath = some (([0x5B] ++ joinComma parts) ++ [0x5D]) ∧
      List.Forall₂ (fun c p => c.IsNull = true → p = ascii "null") arr.arrayChildren parts) ∧
    (Unmarshal decimalFloat jsonparserTokenizer testSortMarshalOrig).map (fun v =>
        Marshal v { OmitNull := true, MarshalLessFunc := some testSortMarshalLess,
                    MarshalKeySequence := none }) =
      .ok (some (ascii "\x7b\"object!\":\x7b\"object!!\":\x7b\"array!!!!\":[1234,\x7b\"stringA\":\"a string\",\"stringBB\":\"aa string\"\x7d]\x7d,\"string!!!\":\"a string\"\x7d\x7d")) ∧
    (Unmarshal fl jsonparserTokenizer
        (ascii "[null,\x7b\"a\":null,\"b\":[null,\x7b\"c\":null\x7d]\x7d]")).map (fun v =>
        Marshal v { OmitNull := true, MarshalLessFunc := none, MarshalKeySequence := none }) =
      .ok (some (ascii "[null,\x7b\"b\":[null,\x7b\x7d]\x7d]")) ∧
    (Unmarshal fl jsonparserTokenizer
        (ascii "[null,\x7b\"a\":null,\"b\":[null,\x7b\"c\":null\x7d]\x7d]")).map (fun v =>
        Marshal v { OmitNull := false, MarshalLessFunc := none, MarshalKeySequence := none }) =
      .ok (some (ascii "[null,\x7b\"a\":null,\"b\":[null,\x7b\"c\":null\x7d]\x7d]")) := by
  have hkeys : (ms.map Prod.fst).Nodup := by
    rw [marshalMembers_keys opt _ path ms hms]
    exact hnd
  have hperm := orderMembers_perm opt path ms hkeys
  refine ⟨⟨orderMembers opt path ms, ?_, ?_, ?_⟩, ?_, testSortMarshal_keyPath_text, rfl, rfl⟩
  · rw [marshalValue_object opt v path hv, hms]
    rfl
  · intro ho
    rw [ho] at hperm
    simp only [Bool.true_and] at hperm
    refine ⟨hperm, fun m hm => ?_⟩
    have := hperm.mem_iff.mp hm
    rw [List.mem_filter] at this
    simpa using this.2
  · intro ho
    rw [ho] at hperm
    simp only [Bool.false_and, Bool.not_false, List.filter_true] at hperm
    refine ⟨hperm, fun m hm hnull => ⟨hperm.mem_iff.mpr hm, ?_⟩⟩
    have h1 := marshalMembers_mem opt _ path ms hms m hm
    rw [marshalValue_null opt _ _ (valueType_of_IsNull _ hnull)] at h1
    simp only [Option.some.injEq] at h1
    rw [← h1, List.append_assoc _ [0x3A] _]
    rfl
  · intro arr apath parts harr hparts
    refine ⟨?_, ?_⟩
    · rw [marshalValue_array opt arr apath harr, hparts]
      rfl
    · refine (marshalElems_some opt _ apath 0 parts hparts).imp ?_
      rintro c p ⟨j, hj⟩ hnull
      rw [marshalValue_null opt _ _ (valueType_of_IsNull _ hnull)] at hj
      simp only [Option.some.injEq] at hj
      exact hj.symm

/-- Witness of C13: the object of `testSortByStringSlice`, whose member `relative` is Null, with
`omitNull` and the key sequence of the test: `relative` is not written, the eight other members
are. -/
theorem Marshal_omitNull_witness :
    (∃ out : List (Bytes × V Decimal × Bytes),
      Marshal (testSortByStringSliceInput decimalFloat)
          { OmitNull := true, MarshalLessFunc := none,
            MarshalKeySequence := some testSortByStringSliceSeq } =
        some (([0x7B] ++ joinComma (out.map
          (fun m => ((([0x22] ++ m.1) ++ [0x22]) ++ [0x3A]) ++ m.2.2))) ++ [0x7D]) ∧
      out.length = 8 ∧ ∀ m ∈ out, m.2.1.IsNull = false) ∧
    Marshal (testSortByStringSliceInput decimalFloat)
        { OmitNull := true, MarshalLessFunc := none,
          MarshalKeySequence := some testSortByStringSliceSeq } =
      some (ascii "\x7b\"grandpa\":\"Kentucky\",\"grandma\":\"McDonald\",\"father\":\"Hanberger\",\"mother\":\"Chips\",\"son\":\"Ketchup\",\"daughter\":\"Mayonnaise\",\"friendA\":\"Fish\",\"friendB\":\"Beef\"\x7d") := by
  have h := Marshal_omitNull decimalFloat
    { OmitNull := true, MarshalLessFunc := none,
      MarshalKeySequence := some testSortByStringSliceSeq }
    (testSortByStringSliceInput decimalFloat) []
    ((testSortByStringSliceInput decimalFloat).objectChildren.map
      (fun kv : Bytes × V Decimal => (kv.1, kv.2, if kv.2.IsNull then ascii "null"
        else ([0x22] ++ kv.2.stringValue) ++ [0x22])))
    rfl (by decide) rfl
  obtain ⟨⟨out, h1, h2, _⟩, _⟩ := h
  obtain ⟨h3, h4⟩ := h2 rfl
  exact ⟨⟨out, h1, by rw [h3.length_eq]; rfl, h4⟩, rfl⟩

end jsonvalue
